import Mathlib

/-!
Verification of the `epx` EPUB ⇄ Markdown tool against its natural-language
specification.  The Rust sources are embedded shallowly: every definition in
this file mirrors a function of the repository (module and line references in
the doc comments), with `&str` values modelled as `List Char`, `Vec`/slices as
`List`, `HashMap` as association lists, and fallible functions as `Except` /
`Option`.  External-crate behaviour that the repository code calls into
(`quick_xml` event pulling, the HTML→Markdown engine, `regex` replacement) is
modelled at the interface boundary, as documented at each definition.
-/

set_option autoImplicit false

namespace Epx

/-! ## Basic string utilities (Rust `str` primitives) -/

/-- Rust `char::is_whitespace`: the Unicode White_Space property.  Used by
`str::trim` and `str::trim_end`. -/
def rustIsWs (c : Char) : Bool :=
  c = ' ' || c = '\t' || c = '\n' || c = '\x0b' || c = '\x0c' || c = '\r' ||
  c = '\u0085' || c = '\u00A0' || c = '\u1680' ||
  ('\u2000' ≤ c && c ≤ '\u200A') ||
  c = '\u2028' || c = '\u2029' || c = '\u202F' || c = '\u205F' || c = '\u3000'

/-- Rust `str::trim_end`. -/
def rustTrimEnd (l : List Char) : List Char :=
  (l.reverse.dropWhile rustIsWs).reverse

/-- Rust `str::trim`. -/
def rustTrim (l : List Char) : List Char :=
  rustTrimEnd (l.dropWhile rustIsWs)

/-- Rust `str::split('/')`; like `List.splitOn`, splitting the empty string
yields one empty piece and the result is never empty. -/
def splitSlash (l : List Char) : List (List Char) := l.splitOn '/'

/-- Rust `str::trim_end_matches('/')`: removes every trailing `/`. -/
def trimEndSlashes (l : List Char) : List Char :=
  (l.reverse.dropWhile (· = '/')).reverse

/-- Rust `str::strip_prefix`: the remainder when `pre` is a prefix. -/
def stripPre (pre l : List Char) : Option (List Char) :=
  if pre.isPrefixOf l then some (l.drop pre.length) else none

/-- Substring test: `hasSub hay needle` is true when `needle` occurs
contiguously inside `hay` (Rust `str::contains`). -/
def hasSub (hay needle : List Char) : Bool :=
  needle.isPrefixOf hay ||
    match hay with
    | [] => false
    | _ :: t => hasSub t needle

/-! ## C4 — `relative_path` (src/extract/asset_extract.rs lines 106-144) -/

/-- Length of the common leading run of equal segments
(`zip(..).take_while(|(a,b)| a == b).count()`). -/
def countCommon : List (List Char) → List (List Char) → Nat
  | a :: as_, b :: bs => if a = b then countCommon as_ bs + 1 else 0
  | _, _ => 0

/-- The `../` navigation fallback of `relative_path` (the code after the
`strip_prefix` early return). -/
def relPathFallback (from_dir to_path : List Char) : Option (List Char) :=
  let from_parts : List (List Char) :=
    if from_dir = [] then [] else splitSlash (trimEndSlashes from_dir)
  let to_parts := splitSlash to_path
  let common := countCommon from_parts to_parts
  let ups := from_parts.length - common
  let remainder := to_parts.drop common
  if ups = 0 ∧ remainder.length = to_parts.length then
    none
  else
    some ((List.replicate ups ("../".data)).flatten ++
      List.intercalate "/".data remainder)

/-- Lean model of `relative_path` from src/extract/asset_extract.rs:
compute a relative path from directory `from_dir` (ending in `/` or empty)
to `to_path`, both `/`-separated ZIP paths. -/
def relative_path (from_dir to_path : List Char) : Option (List Char) :=
  match stripPre from_dir to_path with
  | some rest =>
      if rest ≠ to_path then some rest else relPathFallback from_dir to_path
  | none => relPathFallback from_dir to_path

/-! ## C5 — `validate_mimetype` (src/epub/zip_utils.rs lines 13-34) -/

/-- Error kinds of `EpxError` (src/error.rs) relevant to `validate_mimetype`:
`invalidEpub` is the spec's `InvalidContainer` kind; `ioErr` models
`EpxError::Io`, produced when `read_to_string` fails on non-UTF-8 bytes. -/
inductive EpxErr where
  | invalidEpub (msg : List Char)
  | ioErr
deriving DecidableEq

/-- A ZIP entry as seen by `validate_mimetype`: a name and a payload.
`payload = none` models bytes that are not valid UTF-8, on which
`read_to_string` returns an `std::io` error (mapped to `EpxError::Io`);
`payload = some s` models a payload whose bytes decode to the string `s`. -/
structure ZipEntry where
  name : List Char
  payload : Option (List Char)
deriving DecidableEq

/-- Lean model of `validate_mimetype`: `entries` is the archive's entry list
in index order (`by_index(0)` is the head; an empty archive makes it fail). -/
def validate_mimetype (entries : List ZipEntry) : Except EpxErr Unit :=
  match entries with
  | [] => .error (.invalidEpub "missing mimetype entry".data)
  | e :: _ =>
      if e.name ≠ "mimetype".data then
        .error (.invalidEpub "first entry must be mimetype".data)
      else
        match e.payload with
        | none => .error .ioErr
        | some content =>
            if rustTrim content ≠ "application/epub+zip".data then
              .error (.invalidEpub ("invalid mimetype: ".data ++ content))
            else
              .ok ()

/-- Whether a `validate_mimetype` outcome is an `InvalidContainer`-kind
(`EpxError::InvalidEpub`) error. -/
def isInvalidEpub (r : Except EpxErr Unit) : Prop :=
  ∃ msg, r = .error (.invalidEpub msg)

/-! ## C3 — `build_nav_tree` (src/util.rs lines 31-77) -/

/-- Navigation tree node (src/epub/mod.rs `NavPoint`). -/
inductive NavPoint where
  | mk (label : List Char) (href : List Char) (children : List NavPoint)

/-- Label accessor. -/
def NavPoint.label : NavPoint → List Char
  | .mk l _ _ => l

/-- Href accessor. -/
def NavPoint.href : NavPoint → List Char
  | .mk _ h _ => h

/-- Children accessor. -/
def NavPoint.children : NavPoint → List NavPoint
  | .mk _ _ cs => cs

/-- The `if let Some(parent) = parent_children.last_mut() { parent.children =
children }` step of `build_nav_tree`: replace the children of the last node,
doing nothing when the list is empty. -/
def attachToLast (pchildren : List NavPoint) (children : List NavPoint) :
    List NavPoint :=
  match pchildren.getLast? with
  | none => pchildren
  | some (.mk l h _) => pchildren.dropLast ++ [NavPoint.mk l h children]

/-- Inner loop of `navPop`, recursing structurally on the stack below the
current top frame. -/
def navPopAux (depth : Nat) (top : Nat × List NavPoint) :
    List (Nat × List NavPoint) → List NavPoint →
      List (Nat × List NavPoint) × List NavPoint
  | rest, root =>
      if top.1 ≥ depth then
        match rest with
        | (pd, pchildren) :: prest =>
            navPopAux depth (pd, attachToLast pchildren top.2) prest root
        | [] => ([], root ++ top.2)
      else (top :: rest, root)

/-- The `while let Some((d, _)) = stack.last()` pop loop of `build_nav_tree`.
The stack is kept top-first (head = Rust `Vec` end). -/
def navPop (depth : Nat) (stack : List (Nat × List NavPoint))
    (root : List NavPoint) :
    List (Nat × List NavPoint) × List NavPoint :=
  match stack with
  | [] => ([], root)
  | top :: rest => navPopAux depth top rest root

/-- One iteration of the `for (label, href, depth) in links` loop of
`build_nav_tree`. -/
def navStep (st : List (Nat × List NavPoint) × List NavPoint)
    (item : List Char × List Char × Nat) :
    List (Nat × List NavPoint) × List NavPoint :=
  let point := NavPoint.mk item.1 item.2.1 []
  let (stack, root) := navPop item.2.2 st.1 st.2
  match stack with
  | (d, children) :: rest => ((d, children ++ [point]) :: rest, root)
  | [] => ([(item.2.2, [point])], root)

/-- Inner loop of `navFlush`, recursing structurally on the stack below the
current top frame. -/
def navFlushAux (top : Nat × List NavPoint) :
    List (Nat × List NavPoint) → List NavPoint → List NavPoint
  | (pd, pchildren) :: prest, root =>
      navFlushAux (pd, attachToLast pchildren top.2) prest root
  | [], root => root ++ top.2

/-- The final `while let Some((_, children)) = stack.pop()` flush loop of
`build_nav_tree`. -/
def navFlush (stack : List (Nat × List NavPoint)) (root : List NavPoint) :
    List NavPoint :=
  match stack with
  | [] => root
  | top :: rest => navFlushAux top rest root

/-- Lean model of `build_nav_tree` from src/util.rs: fold the
`(label, href, depth)` list through the stack machine, then flush. -/
def build_nav_tree (links : List (List Char × List Char × Nat)) :
    List NavPoint :=
  let st := links.foldl navStep ([], [])
  navFlush st.1 st.2

/-! ## Book model (src/epub/mod.rs) -/

/-- EPUB version (src/epub/mod.rs `EpubVersion`). -/
inductive EpubVersion where
  | v2
  | v3
deriving DecidableEq

/-- Dublin Core metadata (src/epub/mod.rs `EpubMetadata`).  The Rust `custom`
field is a `HashMap<String, String>`; it is modelled as an association list
whose insert operation replaces the value of an existing key and appends new
keys, and whose observable content is key lookup. -/
structure EpubMetadata where
  identifiers : List (List Char)
  titles : List (List Char)
  languages : List (List Char)
  creators : List (List Char)
  publishers : List (List Char)
  dates : List (List Char)
  description : Option (List Char)
  subjects : List (List Char)
  rights : Option (List Char)
  modified : Option (List Char)
  cover_id : Option (List Char)
  custom : List (List Char × List Char)
deriving DecidableEq

/-- The all-empty `EpubMetadata::default()`. -/
def EpubMetadata.default : EpubMetadata :=
  ⟨[], [], [], [], [], [], none, [], none, none, none, []⟩

/-- Manifest item (src/epub/mod.rs `ManifestItem`). -/
structure ManifestItem where
  id : List Char
  href : List Char
  media_type : List Char
  properties : Option (List Char)
deriving DecidableEq

/-- Spine item (src/epub/mod.rs `SpineItem`). -/
structure SpineItem where
  idref : List Char
  linear : Bool
  properties : Option (List Char)
deriving DecidableEq

/-- Navigation record (src/epub/mod.rs `Navigation`). -/
structure Navigation where
  toc : List NavPoint
  landmarks : List NavPoint
  page_list : List NavPoint
  epub_version : EpubVersion

/-- The whole book model (src/epub/mod.rs `EpubBook`).  `resources` is the
Rust `HashMap<String, Vec<u8>>`, modelled as an association list with bytes
as `List Nat`; its key iteration order in Rust is arbitrary, and is modelled
here as list order. -/
structure EpubBook where
  metadata : EpubMetadata
  manifest : List ManifestItem
  spine : List SpineItem
  navigation : Navigation
  resources : List (List Char × List Nat)

/-- HashMap-model key lookup (first matching key). -/
def assocLookup (m : List (List Char × List Char)) (k : List Char) :
    Option (List Char) :=
  match m.find? (fun p => p.1 = k) with
  | some p => some p.2
  | none => none

/-- HashMap-model removal of a key (`HashMap::remove`). -/
def assocRemoveBytes (m : List (List Char × List Nat)) (k : List Char) :
    List (List Char × List Nat) :=
  m.filter (fun p => p.1 ≠ k)

/-! ## C10 — `import_metadata` (src/manipulate/meta_edit.rs lines 70-90) -/

/-- The deserialized `metadata.yml` contents
(src/extract/frontmatter.rs `BookMetadataYaml`, lines 7-31).  The YAML file
parsing itself is done by the external `serde_yaml_ng` crate; this structure
is its parsed result, including the `custom` and `epx` maps that the YAML
schema carries. -/
structure BookMetadataYaml where
  title : Option (List Char)
  creators : List (List Char)
  identifiers : List (List Char)
  languages : List (List Char)
  publishers : List (List Char)
  dates : List (List Char)
  description : Option (List Char)
  subjects : List (List Char)
  rights : Option (List Char)
  custom : List (List Char × List Char)
  epx : List (List Char × List Char)
deriving DecidableEq

/-- Lean model of `BookMetadataYaml::from_epub_metadata`
(src/extract/frontmatter.rs lines 34-53).  `extracted_date` stands for the
`format_iso8601_date()` system-clock read. -/
def from_epub_metadata (meta : EpubMetadata) (epub_version : List Char)
    (extracted_date : List Char) : BookMetadataYaml where
  title := meta.titles.head?
  creators := meta.creators
  identifiers := meta.identifiers
  languages := meta.languages
  publishers := meta.publishers
  dates := meta.dates
  description := meta.description
  subjects := meta.subjects
  rights := meta.rights
  custom := meta.custom
  epx := [("source_format".data, "epub".data),
          ("epub_version".data, epub_version),
          ("extracted_date".data, extracted_date)]

/-- Lean model of `import_metadata` (src/manipulate/meta_edit.rs lines
70-90), applied to the already-parsed YAML value (file reading and YAML
deserialization are external; on their failure the book is untouched, so the
interesting case is the success path modelled here).  `yaml.title` is an
`Option` collected into a vector by `into_iter().collect()`. -/
def import_metadata (book : EpubBook) (yaml : BookMetadataYaml) : EpubBook :=
  { book with
    metadata :=
      { identifiers := yaml.identifiers
        titles := yaml.title.toList
        languages := yaml.languages
        creators := yaml.creators
        publishers := yaml.publishers
        dates := yaml.dates
        description := yaml.description
        subjects := yaml.subjects
        rights := yaml.rights
        modified := none
        cover_id := none
        custom := [] } }

/-! ## C8 — `remove_chapter`, `reorder_chapter`
(src/manipulate/chapter_manage.rs lines 89-128) and the read-modify-write
wrapper `modify_epub` (src/manipulate/meta_edit.rs lines 187-192) -/

/-- Rust `str::parse::<usize>()` on a chapter argument: an optional `+` sign
followed by one or more ASCII digits.  (Values overflowing `usize` fail to
parse in Rust; `Nat` is unbounded here, which only matters for indices far
beyond any spine length, where both sides fall through to the id search and
fail identically.) -/
def parseUsize? (s : List Char) : Option Nat :=
  let digits := match s with
    | '+' :: rest => rest
    | _ => s
  if digits ≠ [] ∧ digits.all (fun c => c.isDigit) then
    some (digits.foldl (fun n c => n * 10 + (c.toNat - '0'.toNat)) 0)
  else
    none

/-- Lean model of `resolve_chapter` (src/manipulate/chapter_manage.rs lines
144-156): try the argument as a spine index, then as a spine idref. -/
def resolve_chapter (book : EpubBook) (id_or_index : List Char) :
    Except (List Char) (Nat × List Char) :=
  let byName : Except (List Char) (Nat × List Char) :=
    match book.spine.findIdx? (fun item => item.idref = id_or_index) with
    | some i =>
        match book.spine.get? i with
        | some item => .ok (i, item.idref)
        | none => .error ("chapter not found: ".data ++ id_or_index)
    | none => .error ("chapter not found: ".data ++ id_or_index)
  match parseUsize? id_or_index with
  | some index =>
      match book.spine.get? index with
      | some item => .ok (index, item.idref)
      | none => byName
  | none => byName

/-- Lean model of `EpubBook::detect_opf_dir` (src/epub/mod.rs lines 86-102).
Rust iterates `HashMap` keys in arbitrary order; the model uses list order
for the `.opf` scan, which is the documented nondeterminism of the source. -/
def detect_opf_dir (book : EpubBook) : List Char :=
  match book.resources.find? (fun p => ".opf".data.isSuffixOf p.1) with
  | some p =>
      match (p.1.reverse.findIdx? (fun c => c = '/')) with
      | some ridx => p.1.take (p.1.length - 1 - ridx) ++ "/".data
      | none => []
  | none =>
      match ["OEBPS/".data, "OPS/".data, "EPUB/".data, "content/".data].find?
          (fun pre => book.resources.any (fun p => pre.isPrefixOf p.1)) with
      | some pre => pre
      | none => []

/-- Lean model of `remove_from_nav` (src/manipulate/chapter_manage.rs lines
158-163): drop matching points, then recurse into the children of the
survivors. -/
def remove_from_nav (href : List Char) : List NavPoint → List NavPoint
  | [] => []
  | .mk l h cs :: rest =>
      if h = href then remove_from_nav href rest
      else .mk l h (remove_from_nav href cs) :: remove_from_nav href rest

/-- Lean model of `remove_chapter` (src/manipulate/chapter_manage.rs lines
89-115).  The Rust function mutates `book` in place; the model returns the
book state at return time together with the result, mirroring the statement
order of the source (no mutation happens before the `resolve_chapter` bail
point). -/
def remove_chapter (book : EpubBook) (id_or_index : List Char) :
    EpubBook × Except (List Char) (List Char) :=
  match resolve_chapter book id_or_index with
  | .error e => (book, .error e)
  | .ok (spine_idx, idref) =>
      let manifest_item := book.manifest.find? (fun m => m.id = idref)
      let book₁ := { book with spine := book.spine.eraseIdx spine_idx }
      let book₂ :=
        { book₁ with manifest := book₁.manifest.filter (fun m => m.id ≠ idref) }
      match manifest_item with
      | some item =>
          let opf_dir := detect_opf_dir book₂
          let res₁ := assocRemoveBytes book₂.resources (opf_dir ++ item.href)
          let res₂ := assocRemoveBytes res₁ item.href
          let book₃ :=
            { book₂ with
              resources := res₂
              navigation :=
                { book₂.navigation with
                  toc := remove_from_nav item.href book₂.navigation.toc } }
          (book₃, .ok idref)
      | none => (book₂, .ok idref)

/-- Lean model of `reorder_chapter` (src/manipulate/chapter_manage.rs lines
118-128): bounds checks, then `Vec::remove` / `Vec::insert`.  The `getD`
default is unreachable because `from_` is in bounds at that point. -/
def reorder_chapter (book : EpubBook) (from_ to_ : Nat) :
    EpubBook × Except (List Char) Unit :=
  if from_ ≥ book.spine.length then
    (book, .error ("source index ".data ++ Nat.toDigits 10 from_ ++
      " out of range (0..".data ++ Nat.toDigits 10 book.spine.length ++
      ")".data))
  else if to_ ≥ book.spine.length then
    (book, .error ("target index ".data ++ Nat.toDigits 10 to_ ++
      " out of range (0..".data ++ Nat.toDigits 10 book.spine.length ++
      ")".data))
  else
    let item := (book.spine.get? from_).getD ⟨[], true, none⟩
    (
      { book with spine := (book.spine.eraseIdx from_).insertIdx to_ item },
      .ok ())

/-- Lean model of `modify_epub` (src/manipulate/meta_edit.rs lines 187-192):
read the book from disk, apply the mutation, and write back only on success.
The on-disk EPUB is modelled by the `EpubBook` it deserializes to (the ZIP
codec round-trip is the external `zip` crate); the returned book is the
on-disk state after the call. -/
def modify_epub {α : Type} (disk : EpubBook)
    (modify : EpubBook → EpubBook × Except (List Char) α) :
    EpubBook × Except (List Char) α :=
  let r := modify disk
  match r.2 with
  | .ok a => (r.1, .ok a)
  | .error e => (disk, .error e)

/-! ## C9 — `replace_in_text_nodes` (src/manipulate/content_edit.rs lines
204-233) -/

/-- The character loop of `replace_in_text_nodes`.  `f` models
`|t| re.replace_all(t, replacement)` for the compiled pattern and chosen
replacement (the `regex` crate is external; the claim quantifies over every
pattern and replacement, so the replacement step is a parameter).  `in_tag`
and `buf` mirror the Rust locals; the flushed result is emitted in order. -/
def ritnGo (f : List Char → List Char) :
    Bool → List Char → List Char → List Char
  | _, buf, [] => if buf ≠ [] then f buf else []
  | in_tag, buf, c :: cs =>
      if c = '<' then
        (if buf ≠ [] then f buf else []) ++ '<' :: ritnGo f true [] cs
      else if c = '>' then
        '>' :: ritnGo f false buf cs
      else if in_tag then
        c :: ritnGo f in_tag buf cs
      else
        ritnGo f in_tag (buf ++ [c]) cs

/-- Lean model of `replace_in_text_nodes`. -/
def replace_in_text_nodes (f : List Char → List Char) (xhtml : List Char) :
    List Char :=
  ritnGo f false [] xhtml

/-- Non-overlapping left-to-right literal replacement: Rust
`Regex::new(&regex::escape(pat)).replace_all(s, repl)` for a literal
(escaped) pattern, and also Rust `str::replace`.  Fueled to stay
kernel-reducible; `fuel ≥ s.length` always suffices for nonempty `pat`. -/
def litReplaceGo (pat repl : List Char) : Nat → List Char → List Char
  | 0, s => s
  | _ + 1, [] => []
  | fuel + 1, c :: cs =>
      if pat ≠ [] ∧ pat.isPrefixOf (c :: cs) then
        repl ++ litReplaceGo pat repl fuel ((c :: cs).drop pat.length)
      else
        c :: litReplaceGo pat repl fuel cs

/-- Literal replace-all entry point. -/
def litReplace (pat repl s : List Char) : List Char :=
  litReplaceGo pat repl s.length s

/-! ## Scanner infrastructure for the regex passes

Each `Regex::replace_all` call of the source is embedded as a left-to-right
scanner: at every position the pass tries its pattern; on a match it emits
the computed replacement and continues after the matched text (the `regex`
crate finds non-overlapping, leftmost matches and its greedy/lazy semantics
are reproduced inside each matcher); otherwise it emits one character and
advances.  Fuel keeps the definitions kernel-reducible; `fuel ≥ s.length`
suffices because every matcher consumes at least one character. -/

/-- Generic replace-all scanner.  `m s` returns `some (replacement, rest)`
when the pattern matches at the head of `s`. -/
def scanRw (m : List Char → Option (List Char × List Char)) :
    Nat → List Char → List Char
  | 0, s => s
  | _ + 1, [] => []
  | fuel + 1, c :: cs =>
      match m (c :: cs) with
      | some (r, rest) => r ++ scanRw m fuel rest
      | none => c :: scanRw m fuel cs

/-- Replace-all scanner for `(?m)^…` patterns: the matcher also receives
whether the current position is at a line start.  After a match of the
`…$`-anchored patterns used here the rest starts with `'\n'` or is empty, so
the following position is never a line start. -/
def scanRwLine (m : Bool → List Char → Option (List Char × List Char)) :
    Nat → Bool → List Char → List Char
  | 0, _, s => s
  | _ + 1, _, [] => []
  | fuel + 1, atStart, c :: cs =>
      match m atStart (c :: cs) with
      | some (r, rest) => r ++ scanRwLine m fuel false rest
      | none => c :: scanRwLine m fuel (c = '\n') cs

/-- `noFire m A R` says the matcher `m` fails at every scan position whose
suffix strictly contains `R` — i.e. everywhere inside the region `A` of the
input `A ++ R`. -/
def noFire (m : List Char → Option (List Char × List Char)) :
    List Char → List Char → Bool
  | [], _ => true
  | a :: A', R => (m (a :: (A' ++ R))).isNone && noFire m A' R

/-- ASCII lowercasing, for the `(?i)` patterns (all of which are ASCII). -/
def lcChar (c : Char) : Char :=
  if 'A' ≤ c ∧ c ≤ 'Z' then Char.ofNat (c.toNat + 32) else c

/-- Case-insensitive prefix test; the needle is given lowercased. -/
def ciPrefix : List Char → List Char → Bool
  | [], _ => true
  | _ :: _, [] => false
  | n :: ns, c :: cs => n = lcChar c && ciPrefix ns cs

/-- Regex `\w` (word character): ASCII letters, digits, underscore (the
patterns involved only meet ASCII here). -/
def isWordChar (c : Char) : Bool :=
  ('a' ≤ c && c ≤ 'z') || ('A' ≤ c && c ≤ 'Z') || ('0' ≤ c && c ≤ '9') ||
    c = '_'

/-- Split at the first occurrence of `nd` (case-sensitive):
`some (before, after)` with the needle removed. -/
def splitAtSub (nd : List Char) : List Char → Option (List Char × List Char)
  | [] => if nd.isPrefixOf [] then some ([], []) else none
  | c :: cs =>
      if nd.isPrefixOf (c :: cs) then some ([], (c :: cs).drop nd.length)
      else
        match splitAtSub nd cs with
        | some (b, a) => some (c :: b, a)
        | none => none

/-- Split at the first case-insensitive occurrence of lowercased `nd`. -/
def ciSplitAtSub (nd : List Char) : List Char → Option (List Char × List Char)
  | [] => if ciPrefix nd [] then some ([], []) else none
  | c :: cs =>
      if ciPrefix nd (c :: cs) then some ([], (c :: cs).drop nd.length)
      else
        match ciSplitAtSub nd cs with
        | some (b, a) => some (c :: b, a)
        | none => none

/-- All `(before, after)` splits of `s` at occurrences of `nd`, leftmost
first (used for the greedy, rightmost-preferring attribute searches). -/
def subSplits (nd : List Char) : List Char → List (List Char × List Char)
  | [] => if nd.isPrefixOf [] then [(([] : List Char), [])] else []
  | c :: cs =>
      (if nd.isPrefixOf (c :: cs) then
        [(([] : List Char), (c :: cs).drop nd.length)]
      else []) ++
        (subSplits nd cs).map (fun p => (c :: p.1, p.2))

/-- Case-insensitive variant of `subSplits` (needle lowercased). -/
def ciSubSplits (nd : List Char) : List Char → List (List Char × List Char)
  | [] => if ciPrefix nd [] then [(([] : List Char), [])] else []
  | c :: cs =>
      (if ciPrefix nd (c :: cs) then
        [(([] : List Char), (c :: cs).drop nd.length)]
      else []) ++
        (ciSubSplits nd cs).map (fun p => (c :: p.1, p.2))

/-- Decimal digits of a natural number (for the `EPX_PATH_{i}` placeholder
names). -/
def natDecimal (n : Nat) : List Char :=
  (Nat.toDigits 10 n)

/-! ## Post-processing passes (src/extract/html_to_md.rs lines 202-324,
`postprocess_markdown`) -/

/-- The lazy `(.+?)` search of the token pattern: consume at least one
non-newline character, stopping at the earliest following `__ENDEPX`. -/
def epxTokenEnd : List Char → List Char → Option (List Char × List Char)
  | _, [] => none
  | acc, c :: cs =>
      if "__ENDEPX".data.isPrefixOf (c :: cs) ∧ acc ≠ [] then
        some (acc.reverse, (c :: cs).drop 8)
      else if c = '\n' then none
      else epxTokenEnd (c :: acc) cs

/-- Step-1 matcher: `EPXANCHOR__(.+?)__ENDEPX` → `{{EPX_ID:id}}`. -/
def ppAnchorM (s : List Char) : Option (List Char × List Char) :=
  if "EPXANCHOR__".data.isPrefixOf s then
    match epxTokenEnd [] (s.drop 11) with
    | some (id, rest) =>
        some ("\x7b\x7bEPX_ID:".data ++ id ++ "\x7d\x7d".data, rest)
    | none => none
  else none

/-- Step-2 matcher: `\*\*\{\{EPX_ID:([^}]+)\}\}([^*]*)\*\*`; the captures are
forced (the `[^}]+` and `[^*]*` runs cannot cross their closing literals). -/
def ppBoldM (s : List Char) : Option (List Char × List Char) :=
  if "**\x7b\x7bEPX_ID:".data.isPrefixOf s then
    let afterLit := s.drop 11
    let (id, r₁) := afterLit.span (fun c => c ≠ '\x7d')
    if id ≠ [] ∧ "\x7d\x7d".data.isPrefixOf r₁ then
      let (text, r₂) := (r₁.drop 2).span (fun c => c ≠ '*')
      if "**".data.isPrefixOf r₂ then
        let token := "\x7b\x7bEPX_ID:".data ++ id ++ "\x7d\x7d".data
        if text = [] then some (token, r₂.drop 2)
        else some (token ++ "**".data ++ text ++ "**".data, r₂.drop 2)
      else none
    else none
  else none

/-- Shared tail matcher for the `#{1,6}\s+.+$` heading form: given the text
after the hashes, return `some (ws ++ text, rest)` for the matched heading
remainder.  The regex matches iff the whitespace run `W` is nonempty and
either the following non-newline run `T` is nonempty or `W` does not end in
a newline (the lazy/greedy split inside `\s+.+` always spans `W ++ T`). -/
def ppHeadTail (s : List Char) : Option (List Char × List Char) :=
  let (w, r₁) := s.span rustIsWs
  let (t, r₂) := r₁.span (fun c => c ≠ '\n')
  if w ≠ [] ∧ (t ≠ [] ∨ w.getLast? ≠ some '\n') then some (w ++ t, r₂)
  else none

/-- Run of `#` characters acceptable as `#{1,6}` followed by the heading
tail. -/
def ppHashes (s : List Char) : Option (List Char × List Char) :=
  let (hs, r) := s.span (fun c => c = '#')
  if 1 ≤ hs.length ∧ hs.length ≤ 6 then some (hs, r) else none

/-- Step-3 matcher (`heading_inline_re`):
`(?m)^(\{\{EPX_ID:[^}]+\}\})(#{1,6}\s+.+)$` →
`{heading}<<PENDING:{anchor}>>`. -/
def ppHeadInlineM (atStart : Bool) (s : List Char) :
    Option (List Char × List Char) :=
  if atStart ∧ "\x7b\x7bEPX_ID:".data.isPrefixOf s then
    let afterLit := s.drop 9
    let (id, r₁) := afterLit.span (fun c => c ≠ '\x7d')
    if id ≠ [] ∧ "\x7d\x7d".data.isPrefixOf r₁ then
      match ppHashes (r₁.drop 2) with
      | some (hs, r₂) =>
          match ppHeadTail r₂ with
          | some (tail, rest) =>
              let anchor := "\x7b\x7bEPX_ID:".data ++ id ++ "\x7d\x7d".data
              some (hs ++ tail ++ "<<PENDING:".data ++ anchor ++ ">>".data,
                rest)
          | none => none
      | none => none
    else none
  else none

/-- The lazy `(.*?)\{\{EPX_ID:([^}]+)\}\}` search on one line:
`some (gap, id, after-braces)` at the first token occurrence whose id and
closing braces complete, resuming at later occurrences when a continuation
fails, without crossing a newline. -/
def ppContainsFind : List Char →
    List Char → Option (List Char × List Char × List Char)
  | _, [] => none
  | acc, c :: cs =>
      let s := c :: cs
      if "\x7b\x7bEPX_ID:".data.isPrefixOf s ∧
          (let p := (s.drop 9).span (fun d => d ≠ '\x7d')
           p.1 ≠ [] ∧ "\x7d\x7d".data.isPrefixOf p.2) then
        let p := (s.drop 9).span (fun d => d ≠ '\x7d')
        some (acc.reverse, p.1, p.2.drop 2)
      else if c = '\n' then none
      else ppContainsFind (c :: acc) cs

/-- Step-3 matcher (`heading_contains_re`):
`(?m)^(#{1,6}\s+)(.*?)\{\{EPX_ID:([^}]+)\}\}(.*)$` →
`{hashes}{trim(before ++ after)} {#id}`. -/
def ppHeadContainsM (atStart : Bool) (s : List Char) :
    Option (List Char × List Char) :=
  if atStart then
    match ppHashes s with
    | some (hs, r₁) =>
        let (w, r₂) := r₁.span rustIsWs
        if w = [] then none
        else
          match ppContainsFind [] r₂ with
          | some (gap, id, r₃) =>
              let (after, rest) := r₃.span (fun c => c ≠ '\n')
              some (hs ++ w ++ rustTrim (gap ++ after) ++ " \x7b#".data ++
                id ++ "\x7d".data, rest)
          | none => none
    | none => none
  else none

/-- The lazy `.+?<<PENDING:\{\{EPX_ID:` search of `pending_re`: at least one
non-newline character before the first completing occurrence; on a failed
continuation the search resumes at the next occurrence. -/
def ppPendingFind : List Char → List Char → Option (List Char × List Char)
  | _, [] => none
  | acc, c :: cs =>
      let s := c :: cs
      if "<<PENDING:\x7b\x7bEPX_ID:".data.isPrefixOf s ∧ acc ≠ [] ∧
          (let p := (s.drop 19).span (fun d => d ≠ '\x7d')
           p.1 ≠ [] ∧ "\x7d\x7d>>".data.isPrefixOf p.2 ∧
             (p.2.drop 4 = [] ∨ (p.2.drop 4).head? = some '\n')) then
        let p := (s.drop 19).span (fun d => d ≠ '\x7d')
        some (acc.reverse ++ " \x7b#".data ++ p.1 ++ "\x7d".data, p.2.drop 4)
      else if c = '\n' then none
      else ppPendingFind (c :: acc) cs

/-- Step-3 matcher (`pending_re`):
`(?m)^(#{1,6}\s+.+?)<<PENDING:\{\{EPX_ID:([^}]+)\}\}>>$` →
`{heading} {#id}`.  The returned replacement already contains the rebuilt
heading (accumulated text plus attribute). -/
def ppPendingM (atStart : Bool) (s : List Char) :
    Option (List Char × List Char) :=
  if atStart then
    match ppHashes s with
    | some (hs, r₁) =>
        let (w, r₂) := r₁.span rustIsWs
        if w = [] then none
        else
          match ppPendingFind [] r₂ with
          | some (rebuilt, rest) => some (hs ++ w ++ rebuilt, rest)
          | none =>
              if w.getLast? ≠ some '\n' ∧ w.length ≥ 2 then
                match ppPendingFind [w.getLast?.getD ' '] r₂ with
                | some (rebuilt, rest) =>
                    some (hs ++ w.dropLast ++ rebuilt, rest)
                | none => none
              else none
    | none => none
  else none

/-- One `\{\{EPX_ID:[^}]+\}\}` token at the head: `some (id, rest)`. -/
def ppToken (s : List Char) : Option (List Char × List Char) :=
  if "\x7b\x7bEPX_ID:".data.isPrefixOf s then
    let (id, r) := (s.drop 9).span (fun c => c ≠ '\x7d')
    if id ≠ [] ∧ "\x7d\x7d".data.isPrefixOf r then some (id, r.drop 2)
    else none
  else none

/-- The greedy `((?:\{\{EPX_ID:[^}]+\}\}\s*)+)` chain of `pre_heading_re`:
consume as many `token ++ whitespace-run` groups as possible, returning the
captured ids, the chain text, and the rest.  The whitespace run after each
token is maximal, so the chain is deterministic. -/
def ppChain (fuel : Nat) (ids : List (List Char)) (chain : List Char)
    (s : List Char) : List (List Char) × List Char × List Char :=
  match fuel with
  | 0 => (ids.reverse, chain, s)
  | fuel + 1 =>
      match ppToken s with
      | some (id, r₁) =>
          let (w, r₂) := r₁.span rustIsWs
          let tok := "\x7b\x7bEPX_ID:".data ++ id ++ "\x7d\x7d".data
          ppChain fuel (id :: ids) (chain ++ tok ++ w) r₂
      | none => (ids.reverse, chain, s)

/-- Step-3b matcher (`pre_heading_re`):
`((?:\{\{EPX_ID:[^}]+\}\}\s*)+)\n\n(#{1,6}\s+.+)$` — not line-anchored.
Only the maximal chain can complete (an earlier repetition stop is followed
by another token's `{`, not `#`), and the literal `\n\n` must be the last
two characters of the final whitespace run, immediately followed by the
heading.  Replacement: extra ids become `[]{#id}` lines, the first id merges
into the heading attribute. -/
def ppPreHeadingM (s : List Char) : Option (List Char × List Char) :=
  match ppToken s with
  | none => none
  | some _ =>
      let (ids, chain, rest) := ppChain s.length [] [] s
      if chain.getLast? = some '\n' ∧ (chain.dropLast).getLast? = some '\n' then
        match ppHashes rest with
        | some (hs, r₁) =>
            match ppHeadTail r₁ with
            | some (tail, r₂) =>
                match ids with
                | [] => none
                | first :: extras =>
                    let lines :=
                      extras.map (fun id =>
                        "[]\x7b#".data ++ id ++ "\x7d".data) ++
                      [hs ++ tail ++ " \x7b#".data ++ first ++ "\x7d".data]
                    some (List.intercalate "\n".data lines, r₂)
            | none => none
        | none => none
      else none

/-- Step-4 matcher (`remaining_re`): `\{\{EPX_ID:([^}]+)\}\}` → `[]{#id}`. -/
def ppRemainingM (s : List Char) : Option (List Char × List Char) :=
  match ppToken s with
  | some (id, rest) => some ("[]\x7b#".data ++ id ++ "\x7d".data, rest)
  | none => none

/-- Step-5 matcher (`blank_re`): `\n{3,}` → `\n\n` (the greedy run is
maximal). -/
def ppBlankM (s : List Char) : Option (List Char × List Char) :=
  let (run, rest) := s.span (fun c => c = '\n')
  if run.length ≥ 3 then some ("\n\n".data, rest) else none

/-- Split at every `'\n'`; the result is never empty and splitting the empty
list gives one empty piece (the semantics of `str::split('\n')`). -/
def splitNl : List Char → List (List Char)
  | [] => [[]]
  | c :: cs =>
      if c = '\n' then [] :: splitNl cs
      else
        match splitNl cs with
        | p :: ps => (c :: p) :: ps
        | [] => [[c]]

/-- Rust `str::lines()`: split on `'\n'`, dropping one final empty piece and
one `'\r'` at the end of every newline-terminated piece. -/
def rustLines (l : List Char) : List (List Char) :=
  let ps := splitNl l
  let stripCR := fun (p : List Char) =>
    if p.getLast? = some '\r' then p.dropLast else p
  match ps.getLast? with
  | some [] => (ps.dropLast).map stripCR
  | _ => (ps.dropLast).map stripCR ++ [(ps.getLast?).getD []]

/-- Join pieces with `'\n'` (`Vec::join("\n")`). -/
def joinNl : List (List Char) → List Char
  | [] => []
  | [p] => p
  | p :: ps => p ++ '\n' :: joinNl ps

/-- The per-line trailing-whitespace trim of `postprocess_markdown`:
`result.lines().map(|l| l.trim_end()).join("\n")`. -/
def ppTrimLines (s : List Char) : List Char :=
  joinNl ((rustLines s).map rustTrimEnd)

/-! ## Pre-processing passes (src/extract/html_to_md.rs lines 20-200,
`preprocess_xhtml`), and `strip_html_tags` (src/util.rs lines 8-11) -/

/-- Word-boundary test: the head of `s` is absent or a non-word character. -/
def nonWordAt (s : List Char) : Bool :=
  match s.head? with
  | some c => ¬ isWordChar c
  | none => true

/-- Matcher for `strip_html_tags`'s pattern `<[^>]+>`. -/
def tagStripM (s : List Char) : Option (List Char × List Char) :=
  match s with
  | '<' :: rest =>
      let (run, r) := rest.span (fun c => c ≠ '>')
      if run ≠ [] ∧ r.head? = some '>' then some ([], r.drop 1) else none
  | _ => none

/-- Lean model of `strip_html_tags` (src/util.rs): remove every `<[^>]+>`
match, then trim. -/
def strip_html_tags (l : List Char) : List Char :=
  rustTrim (scanRw tagStripM l.length l)

/-- Pass 1: strip the XML declaration.  `html.find("?>")` is the first
occurrence anywhere; the strip happens only when the string starts with
`<?xml`. -/
def stripXmlDecl (html : List Char) : List Char :=
  match splitAtSub "?>".data html with
  | some (before, after) =>
      if "<?xml".data.isPrefixOf html then after else before ++ "?>".data ++ after
  | none => html

/-- Pass 2 matcher: `(?is)<head[^>]*>.*?</head>` → removed.  (`<head` has no
word boundary, so `<header …>` openings match too, as in the source.) -/
def headStripM (s : List Char) : Option (List Char × List Char) :=
  if ciPrefix "<head".data s then
    let (_, r₁) := (s.drop 5).span (fun c => c ≠ '>')
    if r₁.head? = some '>' then
      match ciSplitAtSub "</head>".data (r₁.drop 1) with
      | some (_, rest) => some ([], rest)
      | none => none
    else none
  else none

/-- The drawing-element test of the SVG pass
(`(?i)<(?:rect|circle|path|text|line|polygon|polyline|ellipse)\b`). -/
def drawingAt (s : List Char) : Bool :=
  ["rect".data, "circle".data, "path".data, "text".data, "line".data,
   "polygon".data, "polyline".data, "ellipse".data].any (fun nm =>
    ciPrefix ('<' :: nm) s && nonWordAt (s.drop (nm.length + 1)))

/-- Whether the drawing regex matches anywhere in the SVG inner content. -/
def svgHasDrawing : List Char → Bool
  | [] => false
  | c :: cs => drawingAt (c :: cs) || svgHasDrawing cs

/-- One match attempt of the image regex
`(?i)<image\b[^>]*(?:xlink:)?href="([^"]+)"[^>]*/?\s*>` at the head of `s`:
`some (href, rest)`.  The `[^>]*` before the `href` literal is greedy, so
candidates are tried rightmost first within the run up to the first `>`;
the quoted value `[^"]+` may cross that `>`, after which the match ends at
the next `>`. -/
def imageMatchAt (s : List Char) : Option (List Char × List Char) :=
  if ciPrefix "<image".data s ∧ nonWordAt (s.drop 6) then
    let t := s.drop 6
    let (reg, _) := t.span (fun c => c ≠ '>')
    let cands := (ciSubSplits "href=\"".data reg).reverse
    cands.firstM (fun cand =>
      let cont := t.drop (cand.1.length + 6)
      let (b, r₁) := cont.span (fun c => c ≠ '"')
      if b ≠ [] ∧ r₁.head? = some '"' then
        let (_, r₂) := (r₁.drop 1).span (fun c => c ≠ '>')
        if r₂.head? = some '>' then some (b, r₂.drop 1) else none
      else none)
  else none

/-- All image-regex matches of the SVG inner content, left to right and
non-overlapping (`captures_iter`). -/
def svgImages : Nat → List Char → List (List Char)
  | 0, _ => []
  | _ + 1, [] => []
  | fuel + 1, c :: cs =>
      match imageMatchAt (c :: cs) with
      | some (href, rest) => href :: svgImages fuel rest
      | none => svgImages fuel cs

/-- Pass 3 matcher: `(?is)<svg\b[^>]*>(.*?)</svg>` with the unwrap closure:
replace by `<img src="…" alt="Cover image"/>` when the inner content has no
drawing element and exactly one image match; otherwise leave the whole
element intact (the matched text is still consumed). -/
def svgM (s : List Char) : Option (List Char × List Char) :=
  if ciPrefix "<svg".data s ∧ nonWordAt (s.drop 4) then
    let (_, r₁) := (s.drop 4).span (fun c => c ≠ '>')
    if r₁.head? = some '>' then
      match ciSplitAtSub "</svg>".data (r₁.drop 1) with
      | some (inner, rest) =>
          let original := s.take (s.length - rest.length)
          if svgHasDrawing inner then some (original, rest)
          else
            match svgImages inner.length inner with
            | [href] =>
                some ("<img src=\"".data ++ href ++
                  "\" alt=\"Cover image\"/>".data, rest)
            | _ => some (original, rest)
      | none => none
    else none
  else none

/-- The first `src="([^"]+)"` match inside an `<img>` tag text
(`derive_alt_from_tag`'s `src_re`). -/
def srcCapture : List Char → Option (List Char)
  | [] => none
  | c :: cs =>
      if "src=\"".data.isPrefixOf (c :: cs) ∧
          (let p := ((c :: cs).drop 5).span (fun d => d ≠ '"')
           p.1 ≠ [] ∧ p.2.head? = some '"') then
        some (((c :: cs).drop 5).span (fun d => d ≠ '"')).1
      else srcCapture cs

/-- The segment after the last occurrence of `c` (whole list when absent):
Rust `rsplit(c).next()`. -/
def afterLastChar (c : Char) (l : List Char) : List Char :=
  (l.reverse.takeWhile (fun d => d ≠ c)).reverse

/-- Lean model of `derive_alt_from_tag` (src/extract/html_to_md.rs lines
330-361). -/
def derive_alt_from_tag (tag : List Char) : List Char :=
  let src := (srcCapture tag).getD []
  let filename := afterLastChar '\\' (afterLastChar '/' src)
  let revToDot := filename.reverse.dropWhile (fun c => c ≠ '.')
  let name := if revToDot = [] then filename else (revToDot.drop 1).reverse
  if name = [] then "Image".data
  else if name.all (fun c => c.isDigit) then "Image".data
  else name.map (fun c => if c = '_' then ' ' else c)

/-- Pass 4 matcher: `(<img\b[^>]*)\balt\s*=\s*""([^>]*>)` → backfilled alt.
The greedy `[^>]*` of the first capture prefers the rightmost `alt`
candidate inside the run up to the first `>`. -/
def emptyAltM (s : List Char) : Option (List Char × List Char) :=
  if "<img".data.isPrefixOf s ∧ nonWordAt (s.drop 4) then
    let t := s.drop 4
    let (reg, r₁) := t.span (fun c => c ≠ '>')
    if r₁.head? = some '>' then
      let cands := (subSplits "alt".data reg).reverse
      let hit := cands.firstM (fun cand =>
        let prev := cand.1.getLast?.getD 'g'
        if isWordChar prev then none
        else
          let (_, a₁) := cand.2.span rustIsWs
          if a₁.head? = some '=' then
            let (_, a₂) := (a₁.drop 1).span rustIsWs
            if "\"\"".data.isPrefixOf a₂ then
              some (cand.1, a₂.drop 2)
            else none
          else none)
      match hit with
      | some (before, afterQQ) =>
          let caps1 := "<img".data ++ before
          let alt := derive_alt_from_tag caps1
          some (caps1 ++ "alt=\"".data ++ alt ++ "\"".data ++
            afterQQ ++ ">".data, r₁.drop 1)
      | none => none
    else none
  else none

/-- Whether `\balt\s*=` matches anywhere in the tag text (`alt_attr_re`). -/
def hasAltAttr : List Char → Bool → Bool
  | [], _ => false
  | c :: cs, prevWord =>
      (¬ prevWord ∧ "alt".data.isPrefixOf (c :: cs) ∧
        (let a := ((c :: cs).drop 3).dropWhile rustIsWs
         a.head? = some '=')) ||
      hasAltAttr cs (isWordChar c)

/-- Pass 5 matcher: `<img\b[^>]*>`; tags that already have an alt attribute
are consumed unchanged, the rest get `alt="…"` injected after `<img`. -/
def imgAltM (s : List Char) : Option (List Char × List Char) :=
  if "<img".data.isPrefixOf s ∧ nonWordAt (s.drop 4) then
    let (reg, r₁) := (s.drop 4).span (fun c => c ≠ '>')
    if r₁.head? = some '>' then
      let tag := "<img".data ++ reg ++ ">".data
      if hasAltAttr tag false then some (tag, r₁.drop 1)
      else
        let alt := derive_alt_from_tag tag
        some ("<img alt=\"".data ++ alt ++ "\"".data ++ tag.drop 4, r₁.drop 1)
    else none
  else none

/-- Pass 6 (step 1a) matcher: `<a\s[^>]*id="([^"]+)"[^>]*>\s*</a>` — an
empty anchor; kept as a token when referenced, dropped otherwise.  The
greedy `[^>]*` prefers the rightmost `id="` candidate in the run up to the
first `>`; the id value `[^"]+` may cross that `>`. -/
def anchor1aM (rids : List (List Char)) (s : List Char) :
    Option (List Char × List Char) :=
  match s with
  | '<' :: 'a' :: w :: rest =>
      if rustIsWs w then
        let (reg, _) := rest.span (fun c => c ≠ '>')
        let cands := (subSplits "id=\"".data reg).reverse
        let hit := cands.firstM (fun cand =>
          let cont := rest.drop (cand.1.length + 4)
          let (b, r₁) := cont.span (fun c => c ≠ '"')
          if b ≠ [] ∧ r₁.head? = some '"' then
            let (_, r₂) := (r₁.drop 1).span (fun c => c ≠ '>')
            if r₂.head? = some '>' then
              let r₃ := (r₂.drop 1).dropWhile rustIsWs
              if "</a>".data.isPrefixOf r₃ then some (b, r₃.drop 4) else none
            else none
          else none)
        match hit with
        | some (id, rest') =>
            if rids.contains id then
              some ("EPXANCHOR__".data ++ id ++ "__ENDEPX".data, rest')
            else some ([], rest')
        | none => none
      else none
  | _ => none

/-- The lazy `([^>]*?)\sid="` search of steps 1b and 2: the first
whitespace-plus-`id="` occurrence in the run up to the first `>`, retrying
later occurrences when the value/closing continuation fails.  Returns
`(gap, id, after-close)` where after-close is the `[^>]*>` capture plus the
rest. -/
def lazyIdFind : List Char → List Char →
    Option (List Char × List Char × List Char × List Char)
  | _, [] => none
  | acc, c :: cs =>
      if c = '>' then none
      else
        if rustIsWs c ∧ "id=\"".data.isPrefixOf cs ∧
            (let p := (cs.drop 4).span (fun d => d ≠ '"')
             p.1 ≠ [] ∧ p.2.head? = some '"' ∧
               (let q := (p.2.drop 1).span (fun d => d ≠ '>')
                q.2.head? = some '>')) then
          let p := (cs.drop 4).span (fun d => d ≠ '"')
          let q := (p.2.drop 1).span (fun d => d ≠ '>')
          some (acc.reverse, p.1, q.1 ++ ">".data, q.2.drop 1)
        else lazyIdFind (c :: acc) cs

/-- Pass 7 (step 1b) matcher: `(<a\b)([^>]*?)\sid="([^"]+)"([^>]*>)` — strip
the id attribute, prepending the token when referenced. -/
def anchor1bM (rids : List (List Char)) (s : List Char) :
    Option (List Char × List Char) :=
  if "<a".data.isPrefixOf s ∧ nonWordAt (s.drop 2) then
    match lazyIdFind [] (s.drop 2) with
    | some (gap, id, closing, rest) =>
        let bare := "<a".data ++ gap ++ closing
        if rids.contains id then
          some ("EPXANCHOR__".data ++ id ++ "__ENDEPX".data ++ bare, rest)
        else some (bare, rest)
    | none => none
  else none

/-- Pass 8 (step 2) matcher:
`(<(\w+)\b)([^>]*?)\sid="([^"]+)"([^>]*>)` — strip the id attribute of any
element, appending the token after the opening tag when referenced; `<a>`
tags are consumed unchanged (already handled by steps 1a/1b). -/
def elemIdM (rids : List (List Char)) (s : List Char) :
    Option (List Char × List Char) :=
  match s with
  | '<' :: rest =>
      let (nm, r₀) := rest.span isWordChar
      if nm = [] then none
      else
        match lazyIdFind [] r₀ with
        | some (gap, id, closing, rest') =>
            if nm.map lcChar = "a".data then
              some (s.take (s.length - rest'.length), rest')
            else
              let bare := '<' :: nm ++ gap ++ closing
              if rids.contains id then
                some (bare ++ "EPXANCHOR__".data ++ id ++ "__ENDEPX".data,
                  rest')
              else some (bare, rest')
        | none => none
  | _ => none

/-- Placeholder name for path-map entry `i`
(`format!("\x00EPX_PATH_{i}\x00")`). -/
def pathPlaceholder (i : Nat) : List Char :=
  '\x00' :: "EPX_PATH_".data ++ Nat.toDigits 10 i ++ ['\x00']

/-- Stable insertion of `x` into a sorted list: `x` goes after every element
`y` with `le y x`, so ties keep their original order. -/
def insSorted {α : Type} (le : α → α → Bool) (x : α) : List α → List α
  | [] => [x]
  | y :: ys => if le y x then y :: insSorted le x ys else x :: y :: ys

/-- Stable sort (insertion sort).  Rust's `sort_by` is stable, and a stable
sort is determined by the comparator, so this gives the same list. -/
def stableSortBy {α : Type} (le : α → α → Bool) (l : List α) : List α :=
  l.foldl (fun acc x => insSorted le x acc) []

/-- Pass 9+10: the `epub:` namespace flatten and the placeholder protocol for
path rewriting.  `path_map` is the `HashMap` iteration sequence (arbitrary
order in Rust, a parameter here); entries are stably sorted by descending
key length (`sort_by(|a, b| b.0.len().cmp(&a.0.len()))`), each key replaced
by a unique placeholder, then placeholders by the new paths. -/
def applyPathMap (path_map : List (List Char × List Char)) (html : List Char) :
    List Char :=
  let entries := stableSortBy (fun a b => a.1.length ≥ b.1.length) path_map
  let withPh := entries.enum.foldl
    (fun (h : List Char) (p : Nat × (List Char × List Char)) =>
      litReplace p.2.1 (pathPlaceholder p.1) h) html
  entries.enum.foldl
    (fun (h : List Char) (p : Nat × (List Char × List Char)) =>
      litReplace (pathPlaceholder p.1) p.2.2 h) withPh

/-- Split at the first occurrence of `nd` reachable without a newline
(the single-line lazy `(.*?)` of the footnote pattern). -/
def lineSplitAtSub (nd : List Char) : List Char → Option (List Char × List Char)
  | [] => if nd.isPrefixOf [] then some ([], []) else none
  | c :: cs =>
      if nd.isPrefixOf (c :: cs) then some ([], (c :: cs).drop nd.length)
      else if c = '\n' then none
      else
        match lineSplitAtSub nd cs with
        | some (b, a) => some (c :: b, a)
        | none => none

/-- Pass 11 matcher:
`<aside[^>]*data-epub-type="footnote"[^>]*id="([^"]*)"[^>]*>(.*?)</aside>` →
`[^id]: text`.  Greedy `[^>]*` runs prefer the rightmost candidates inside
the run up to the first `>`; the id value `[^"]*` may be empty and may cross
that `>`; the inner `(.*?)` cannot cross a newline. -/
def footnoteM (s : List Char) : Option (List Char × List Char) :=
  if "<aside".data.isPrefixOf s then
    let t := s.drop 6
    let (reg, _) := t.span (fun c => c ≠ '>')
    let lit1 := "data-epub-type=\"footnote\"".data
    let cands1 := (subSplits lit1 reg).reverse
    let hit := cands1.firstM (fun c1 =>
      let cands2 := (subSplits "id=\"".data c1.2).reverse
      cands2.firstM (fun c2 =>
        let cont := t.drop (c1.1.length + lit1.length + c2.1.length + 4)
        let (idv, r₁) := cont.span (fun c => c ≠ '"')
        if r₁.head? = some '"' then
          let (_, r₂) := (r₁.drop 1).span (fun c => c ≠ '>')
          if r₂.head? = some '>' then
            match lineSplitAtSub "</aside>".data (r₂.drop 1) with
            | some (inner, rest) => some (idv, inner, rest)
            | none => none
          else none
        else none))
    match hit with
    | some (idv, inner, rest) =>
        some ("[^".data ++ idv ++ "]: ".data ++ strip_html_tags inner, rest)
    | none => none
  else none

/-- Pass 12 matcher:
`<a[^>]*data-epub-type="noteref"[^>]*href="#([^"]*)"[^>]*>[^<]*</a>` →
`[^id]`. -/
def noterefM (s : List Char) : Option (List Char × List Char) :=
  if "<a".data.isPrefixOf s then
    let t := s.drop 2
    let (reg, _) := t.span (fun c => c ≠ '>')
    let lit1 := "data-epub-type=\"noteref\"".data
    let cands1 := (subSplits lit1 reg).reverse
    let hit := cands1.firstM (fun c1 =>
      let cands2 := (subSplits "href=\"#".data c1.2).reverse
      cands2.firstM (fun c2 =>
        let cont := t.drop (c1.1.length + lit1.length + c2.1.length + 7)
        let (idv, r₁) := cont.span (fun c => c ≠ '"')
        if r₁.head? = some '"' then
          let (_, r₂) := (r₁.drop 1).span (fun c => c ≠ '>')
          if r₂.head? = some '>' then
            let (_, r₃) := (r₂.drop 1).span (fun c => c ≠ '<')
            if "</a>".data.isPrefixOf r₃ then some (idv, r₃.drop 4) else none
          else none
        else none))
    match hit with
    | some (idv, rest) => some ("[^".data ++ idv ++ "]".data, rest)
    | none => none
  else none

/-- Lean model of `preprocess_xhtml` (src/extract/html_to_md.rs lines
21-200): the pass pipeline in source order. -/
def preprocess_xhtml (xhtml : List Char)
    (path_map : List (List Char × List Char)) (rids : List (List Char)) :
    List Char :=
  let h₁ := stripXmlDecl xhtml
  let h₂ := scanRw headStripM h₁.length h₁
  let h₃ := scanRw svgM h₂.length h₂
  let h₄ := scanRw emptyAltM h₃.length h₃
  let h₅ := scanRw imgAltM h₄.length h₄
  let h₆ := scanRw (anchor1aM rids) h₅.length h₅
  let h₇ := scanRw (anchor1bM rids) h₆.length h₆
  let h₈ := scanRw (elemIdM rids) h₇.length h₇
  let h₉ := litReplace "epub:".data "data-epub-".data h₈
  let h₁₀ := applyPathMap path_map h₉
  let h₁₁ := scanRw footnoteM h₁₀.length h₁₀
  scanRw noterefM h₁₁.length h₁₁

/-- Lean model of `postprocess_markdown` (src/extract/html_to_md.rs lines
207-324): the pass pipeline in source order. -/
def postprocess_markdown (md : List Char) : List Char :=
  let s₁ := scanRw ppAnchorM md.length md
  let s₂ := scanRw ppBoldM s₁.length s₁
  let s₃ := scanRwLine ppHeadInlineM s₂.length true s₂
  let s₄ := scanRwLine ppHeadContainsM s₃.length true s₃
  let s₅ := scanRwLine ppPendingM s₄.length true s₄
  let s₆ := scanRw ppPreHeadingM s₅.length s₅
  let s₇ := scanRw ppRemainingM s₆.length s₆
  let s₈ := scanRw ppBlankM s₇.length s₇
  let s₉ := ppTrimLines s₈
  rustTrimEnd s₉ ++ "\n".data

/-- Lean model of `xhtml_to_markdown` (src/extract/html_to_md.rs lines
10-18).  `convert` is the external HTML→Markdown engine
(`html_to_markdown_rs::convert(..).unwrap_or_default()`), an external crate
outside this repository, taken as a function parameter. -/
def xhtml_to_markdown (convert : List Char → List Char) (xhtml : List Char)
    (path_map : List (List Char × List Char)) (rids : List (List Char)) :
    List Char :=
  postprocess_markdown (convert (preprocess_xhtml xhtml path_map rids))

/-! ## C1 — OPF round trip: `parse_opf` (src/epub/opf.rs lines 14-181) and
`generate_opf` (src/epub/writer.rs lines 83-219)

The XML byte stream is pulled through the external `quick_xml` crate;
the embedding models the OPF document at `quick_xml`'s event interface.
`parse_opf` is the fold of its `read_event_into` loop over the event list;
`generate_opf` is modelled by the event sequence that its output string
lexes to, line by line (a text event carries the raw, still-escaped bytes
and is only present for nonempty content; attribute values are raw — the
source reads them with `String::from_utf8_lossy(&attr.value)` without
unescaping). -/

/-- A `quick_xml` pull event as consumed by `parse_opf`.  Attribute values
are the raw bytes between the quotes. -/
inductive XmlEvent where
  | decl
  | start (name : List Char) (attrs : List (List Char × List Char))
  | close (name : List Char)
  | text (raw : List Char)
  | empty (name : List Char) (attrs : List (List Char × List Char))

/-- `quick_xml` `local_name()`: the name after the first `:` prefix. -/
def localName (n : List Char) : List Char :=
  match splitAtSub ":".data n with
  | some (_, after) => after
  | none => n

/-- Decode one XML entity body (between `&` and `;`): the five named
entities and numeric character references, as `quick_xml`'s unescaper
resolves them; `none` is an unescape error. -/
def decodeEntity (ent : List Char) : Option Char :=
  if ent = "amp".data then some '&'
  else if ent = "lt".data then some '<'
  else if ent = "gt".data then some '>'
  else if ent = "quot".data then some '"'
  else if ent = "apos".data then some '\''
  else
    match ent with
    | '#' :: ds =>
        let val : Option Nat :=
          match ds with
          | 'x' :: hs =>
              if hs ≠ [] ∧ hs.all (fun c => c.isDigit ∨ ('a' ≤ c ∧ c ≤ 'f') ∨
                  ('A' ≤ c ∧ c ≤ 'F')) then
                some (hs.foldl (fun n c =>
                  n * 16 + (if c.isDigit then c.toNat - '0'.toNat
                    else if 'a' ≤ c then c.toNat - 'a'.toNat + 10
                    else c.toNat - 'A'.toNat + 10)) 0)
              else none
          | _ =>
              if ds ≠ [] ∧ ds.all (fun c => c.isDigit) then
                some (ds.foldl (fun n c => n * 10 + (c.toNat - '0'.toNat)) 0)
              else none
        match val with
        | some n =>
            if n < 0xd800 ∨ (0xe000 ≤ n ∧ n < 0x110000) then
              some (Char.ofNat n)
            else none
        | none => none
    | _ => none

/-- The unescape loop (fuelled; `fuel ≥ s.length` suffices). -/
def xmlUnescapeGo : Nat → List Char → Option (List Char)
  | 0, s => if s = [] then some [] else none
  | _ + 1, [] => some []
  | fuel + 1, c :: cs =>
      if c = '&' then
        match splitAtSub ";".data cs with
        | some (ent, after) =>
            match decodeEntity ent with
            | some d =>
                match xmlUnescapeGo fuel after with
                | some r => some (d :: r)
                | none => none
            | none => none
        | none => none
      else
        match xmlUnescapeGo fuel cs with
        | some r => some (c :: r)
        | none => none

/-- Model of `quick_xml` text unescaping (`BytesText::unescape`): `none` is
an error, which `parse_opf` turns into an empty string with
`unwrap_or_default()`. -/
def xmlUnescape (s : List Char) : Option (List Char) :=
  xmlUnescapeGo s.length s

/-- Lean model of `xml_escape` (src/epub/writer.rs lines 303-308).  The
source chains four single-character `str::replace` calls, `&` first; since
no later pattern occurs in an earlier replacement's output, that equals this
character-wise expansion. -/
def xml_escape (s : List Char) : List Char :=
  (s.map (fun c =>
    if c = '&' then "&amp;".data
    else if c = '<' then "&lt;".data
    else if c = '>' then "&gt;".data
    else if c = '"' then "&quot;".data
    else [c])).flatten

/-- HashMap-model insert: replace the value of an existing key, append a new
key (`HashMap::insert`). -/
def customInsert (m : List (List Char × List Char)) (k v : List Char) :
    List (List Char × List Char) :=
  if (m.find? (fun p => p.1 = k)).isSome then
    m.map (fun p => if p.1 = k then (k, v) else p)
  else m ++ [(k, v)]

/-- Parsed OPF package data (src/epub/opf.rs `OpfData`). -/
structure OpfData where
  metadata : EpubMetadata
  manifest : List ManifestItem
  spine : List SpineItem
  version : EpubVersion

/-- The mutable locals of the `parse_opf` event loop. -/
structure OpfSt where
  metadata : EpubMetadata
  manifest : List ManifestItem
  spine : List SpineItem
  version : EpubVersion
  in_metadata : Bool
  current_element : List Char
  current_text : List Char
  current_meta_property : List Char

/-- Initial `parse_opf` state. -/
def OpfSt.init : OpfSt :=
  ⟨EpubMetadata.default, [], [], .v3, false, [], [], []⟩

/-- The `Event::End` push of the accumulated text into the metadata,
dispatching on `current_element` (src/epub/opf.rs lines 66-89). -/
def opfPushText (st : OpfSt) : OpfSt :=
  let text := rustTrim st.current_text
  let md := st.metadata
  let md' :=
    if st.current_element = "identifier".data then
      { md with identifiers := md.identifiers ++ [text] }
    else if st.current_element = "title".data then
      { md with titles := md.titles ++ [text] }
    else if st.current_element = "language".data then
      { md with languages := md.languages ++ [text] }
    else if st.current_element = "creator".data then
      { md with creators := md.creators ++ [text] }
    else if st.current_element = "publisher".data then
      { md with publishers := md.publishers ++ [text] }
    else if st.current_element = "date".data then
      { md with dates := md.dates ++ [text] }
    else if st.current_element = "description".data then
      { md with description := some text }
    else if st.current_element = "subject".data then
      { md with subjects := md.subjects ++ [text] }
    else if st.current_element = "rights".data then
      { md with rights := some text }
    else if st.current_element = "meta".data ∧
        st.current_meta_property ≠ [] then
      if st.current_meta_property = "dcterms:modified".data then
        { md with modified := some text }
      else
        { md with
          custom := customInsert md.custom st.current_meta_property text }
    else md
  { st with
    metadata := md'
    current_text := []
    current_element := []
    current_meta_property := [] }

/-- One iteration of the `parse_opf` event loop (src/epub/opf.rs lines
28-173). -/
def parseStep (st : OpfSt) (ev : XmlEvent) : OpfSt :=
  match ev with
  | .decl => st
  | .start name attrs =>
      let loc := localName name
      if loc = "package".data then
        attrs.foldl (fun st a =>
          if a.1 = "version".data then
            { st with
              version := if a.2.head? = some '2' then .v2 else .v3 }
          else st) st
      else if loc = "metadata".data then { st with in_metadata := true }
      else if st.in_metadata then
        let st := { st with
          current_element := loc
          current_text := []
          current_meta_property := [] }
        if loc = "meta".data then
          attrs.foldl (fun st a =>
            if a.1 = "property".data then
              { st with current_meta_property := a.2 }
            else st) st
        else st
      else st
  | .close name =>
      let loc := localName name
      if loc = "metadata".data then { st with in_metadata := false }
      else if st.in_metadata ∧ st.current_text ≠ [] then opfPushText st
      else st
  | .text raw =>
      if st.in_metadata then
        { st with
          current_text := st.current_text ++ ((xmlUnescape raw).getD []) }
      else st
  | .empty name attrs =>
      let loc := localName name
      if loc = "item".data then
        let item := attrs.foldl (fun (it : ManifestItem) a =>
          if a.1 = "id".data then { it with id := a.2 }
          else if a.1 = "href".data then { it with href := a.2 }
          else if a.1 = "media-type".data then { it with media_type := a.2 }
          else if a.1 = "properties".data then
            { it with properties := some a.2 }
          else it) ⟨[], [], [], none⟩
        { st with manifest := st.manifest ++ [item] }
      else if loc = "itemref".data then
        let item := attrs.foldl (fun (it : SpineItem) a =>
          if a.1 = "idref".data then { it with idref := a.2 }
          else if a.1 = "linear".data then
            { it with linear := a.2 ≠ "no".data }
          else if a.1 = "properties".data then
            { it with properties := some a.2 }
          else it) ⟨[], true, none⟩
        { st with spine := st.spine ++ [item] }
      else if st.in_metadata ∧ loc = "meta".data then
        let nc := attrs.foldl
          (fun (nc : List Char × List Char) a =>
            if a.1 = "name".data then (a.2, nc.2)
            else if a.1 = "content".data then (nc.1, a.2)
            else if a.1 = "property".data then (a.2, nc.2)
            else nc) ([], [])
        if nc.1 = "cover".data then
          { st with metadata := { st.metadata with cover_id := some nc.2 } }
        else st
      else st

/-- Lean model of `parse_opf` over the document's event sequence.
(`quick_xml` read errors abort the Rust function; the event-level model is
the non-erroring stream.) -/
def parse_opf (events : List XmlEvent) : OpfData :=
  let st := events.foldl parseStep OpfSt.init
  ⟨st.metadata, st.manifest, st.spine, st.version⟩

/-- A raw text event when the content is nonempty — a zero-length raw run
produces no `quick_xml` text event. -/
def textEv (s : List Char) : List XmlEvent :=
  if s = [] then [] else [.text s]

/-- Events of one indented metadata element line
`    <name attrs>content</name>`. -/
def metaElemEvs (name : List Char) (attrs : List (List Char × List Char))
    (content : List Char) : List XmlEvent :=
  [.text "\n    ".data, .start name attrs] ++ textEv content ++ [.close name]

/-- Lexicographic order on strings (Rust `String` ordering; UTF-8 byte order
agrees with code-point order). -/
def charListLe : List Char → List Char → Bool
  | [], _ => true
  | _ :: _, [] => false
  | a :: as_, b :: bs => if a = b then charListLe as_ bs else decide (a < b)

/-- The identifier section of `generate_opf` (lines 91-109): the first
identifier carries `id="uid"`; an empty list synthesizes
`urn:uuid:{fresh}` (unescaped). -/
def genIdentifierEvs (ids : List (List Char)) (uuid : List Char) :
    List XmlEvent :=
  match ids with
  | [] =>
      metaElemEvs "dc:identifier".data [("id".data, "uid".data)]
        ("urn:uuid:".data ++ uuid)
  | first :: rest =>
      metaElemEvs "dc:identifier".data [("id".data, "uid".data)]
        (xml_escape first) ++
      (rest.map (fun i => metaElemEvs "dc:identifier".data [] (xml_escape i))).flatten

/-- The optional `dc:description` line (`if let Some(desc) = ...`). -/
def descElemEvs (od : Option (List Char)) : List XmlEvent :=
  match od with
  | some d => metaElemEvs "dc:description".data [] (xml_escape d)
  | none => []

/-- The optional `dc:rights` line (`if let Some(rights) = ...`). -/
def rightsElemEvs (od : Option (List Char)) : List XmlEvent :=
  match od with
  | some r => metaElemEvs "dc:rights".data [] (xml_escape r)
  | none => []

/-- Lean model of `generate_opf` (src/epub/writer.rs lines 83-219) at the
event level.  `now` stands for `format_iso8601()` and `uuid` for the fresh
v4 UUID, both read once per write.  Fields passed through `xml_escape`
(`&`, `<`, `>`, `"` rewritten, writer.rs lines 303-308) always lex back as
one text event or one attribute value, so for them the model is
unconditional.  Languages, the modified timestamp, manifest `properties`
and spine idrefs are emitted WITHOUT escaping, exactly as in the source;
for those the emitted string lexes to this event sequence only when the
values contain no markup-significant characters — no `&` or `<` in the
text-position fields (a raw `<` opens a tag mid-text; a raw `&` makes
`unescape()` fail, which `parse_opf` maps to empty text), and no `"`, `<`
or `>` in the attribute-position fields (they would close the quote or
the tag early).  The round-trip theorem assumes exactly these conditions,
so every book it admits writes a document that lexes to this stream;
books outside them are outside the event-level model. -/
def generate_opf_events (md : EpubMetadata) (manifest : List ManifestItem)
    (spine : List SpineItem) (now uuid : List Char) : List XmlEvent :=
  [.decl, .text "\n".data,
   .start "package".data
     [("xmlns".data, "http://www.idpf.org/2007/opf".data),
      ("version".data, "3.0".data),
      ("unique-identifier".data, "uid".data)],
   .text "\n  ".data,
   .start "metadata".data
     [("xmlns:dc".data, "http://purl.org/dc/elements/1.1/".data)]] ++
  genIdentifierEvs md.identifiers uuid ++
  (md.titles.map (fun t => metaElemEvs "dc:title".data [] (xml_escape t))).flatten ++
  (if md.languages = [] then metaElemEvs "dc:language".data [] "en".data
   else (md.languages.map (fun l => metaElemEvs "dc:language".data [] l)).flatten) ++
  (md.creators.map (fun c => metaElemEvs "dc:creator".data [] (xml_escape c))).flatten ++
  (md.publishers.map (fun p => metaElemEvs "dc:publisher".data [] (xml_escape p))).flatten ++
  descElemEvs md.description ++
  (md.subjects.map (fun s => metaElemEvs "dc:subject".data [] (xml_escape s))).flatten ++
  rightsElemEvs md.rights ++
  (md.dates.map (fun d => metaElemEvs "dc:date".data [] (xml_escape d))).flatten ++
  metaElemEvs "meta".data [("property".data, "dcterms:modified".data)]
    (md.modified.getD now) ++
  ((stableSortBy charListLe (md.custom.map (fun p => p.1))).map (fun k =>
    metaElemEvs "meta".data [("property".data, xml_escape k)]
      (xml_escape ((assocLookup md.custom k).getD [])))).flatten ++
  [.text "\n  ".data, .close "metadata".data,
   .text "\n  ".data,
   .start "manifest".data [],
   .text "\n    ".data,
   .empty "item".data
     [("id".data, "toc".data), ("href".data, "toc.xhtml".data),
      ("media-type".data, "application/xhtml+xml".data),
      ("properties".data, "nav".data)],
   .text "\n    ".data,
   .empty "item".data
     [("id".data, "ncx".data), ("href".data, "toc.ncx".data),
      ("media-type".data, "application/x-dtbncx+xml".data)]] ++
  (manifest.map (fun it =>
    [XmlEvent.text "\n    ".data,
     XmlEvent.empty "item".data
       ([("id".data, xml_escape it.id), ("href".data, xml_escape it.href),
         ("media-type".data, xml_escape it.media_type)] ++
        (match it.properties with
         | some p => [("properties".data, p)]
         | none => []))])).flatten ++
  [.text "\n  ".data, .close "manifest".data,
   .text "\n  ".data,
   .start "spine".data [("toc".data, "ncx".data)]] ++
  (spine.map (fun it =>
    [XmlEvent.text "\n    ".data,
     XmlEvent.empty "itemref".data
       ([("idref".data, it.idref)] ++
        (if it.linear then [] else [("linear".data, "no".data)]))])).flatten ++
  [.text "\n  ".data, .close "spine".data,
   .text "\n".data, .close "package".data, .text "\n".data]

/-- An EPUB archive reduced to its OPF document's event stream.  The
mimetype entry, container.xml, navigation documents and raw resources do
not feed the metadata/spine fields compared by the round-trip claim:
`read_epub` (src/epub/reader.rs lines 45-51) moves `opf_data.metadata` and
`opf_data.spine` into the book unchanged, and `write_epub`
(src/epub/writer.rs lines 9-71) derives the OPF entry from them via
`generate_opf` alone. -/
structure EpubArchive where
  opfEvents : List XmlEvent

/-- The metadata/spine view of `read_epub`. -/
def read_epub (a : EpubArchive) : OpfData :=
  parse_opf a.opfEvents

/-- The OPF entry written by `write_epub` for a book with the given
metadata, manifest and spine. -/
def write_epub (d : OpfData) (now uuid : List Char) : EpubArchive :=
  ⟨generate_opf_events d.metadata d.manifest d.spine now uuid⟩

/-! ## Statement-level helper definitions -/

/-- The flush step of `replace_in_text_nodes`: `f` is applied only to a
nonempty buffered text segment. -/
def applyF (f : List Char → List Char) (t : List Char) : List Char :=
  if t = [] then [] else f t

/-- A document decomposed as leading text followed by `tag, text` pairs:
`t₀ <b₁> t₁ <b₂> t₂ …`. -/
def textTagAlt (t0 : List Char) (ps : List (List Char × List Char)) :
    List Char :=
  t0 ++ (ps.map (fun p => '<' :: p.1 ++ '>' :: p.2)).flatten

/-- Case-insensitive substring test. -/
def ciHasSub (hay nd : List Char) : Bool :=
  hasSub (hay.map lcChar) nd

/-- The OPF event stream of a minimal well-formed EPUB whose `dc:title`
content is whitespace-only — the bytes
`<package version="3.0"><metadata><dc:title>   </dc:title>
<dc:identifier>urn:uuid:x</dc:identifier><dc:language>en</dc:language>
</metadata><manifest><item id="ch1" href="ch1.xhtml"
media-type="application/xhtml+xml"/></manifest><spine>
<itemref idref="ch1"/></spine></package>` as `quick_xml` events. -/
def wsTitleOpfEvents : List XmlEvent :=
  [.start "package".data [("version".data, "3.0".data)],
   .start "metadata".data [],
   .start "dc:title".data [], .text "   ".data, .close "dc:title".data,
   .start "dc:identifier".data [], .text "urn:uuid:x".data,
   .close "dc:identifier".data,
   .start "dc:language".data [], .text "en".data, .close "dc:language".data,
   .close "metadata".data,
   .start "manifest".data [],
   .empty "item".data
     [("id".data, "ch1".data), ("href".data, "ch1.xhtml".data),
      ("media-type".data, "application/xhtml+xml".data)],
   .close "manifest".data,
   .start "spine".data [],
   .empty "itemref".data [("idref".data, "ch1".data)],
   .close "spine".data, .close "package".data]

/-- A concrete book in writer normal form for the round-trip theorem. -/
def c1WitnessData : OpfData :=
  ⟨⟨["id1".data], ["T".data], ["en".data], [], [], [], none, ["s".data],
    none, none, none, [("a".data, "1".data)]⟩,
   [⟨"c1".data, "c1.xhtml".data, "application/xhtml+xml".data,
     some "scripted".data⟩],
   [⟨"ch1".data, true, none⟩], EpubVersion.v3⟩

/-- A two-chapter book used to instantiate the editing-operation theorems. -/
def chapterBook : EpubBook :=
  { metadata := EpubMetadata.default
    manifest :=
      [⟨"ch1".data, "ch1.xhtml".data, "application/xhtml+xml".data, none⟩,
       ⟨"ch2".data, "ch2.xhtml".data, "application/xhtml+xml".data, none⟩]
    spine := [⟨"ch1".data, true, none⟩, ⟨"ch2".data, true, none⟩]
    navigation := ⟨[], [], [], .v3⟩
    resources := [("OEBPS/ch1.xhtml".data, []), ("OEBPS/ch2.xhtml".data, [])] }

end Epx

namespace Epx

/-! # Theorems -/

/-! ## C4 — path-mapper round trip -/

/-- C4, counterexample.  The claim admits an empty `from` directory, but
`relative_path("", rel)` falls through `strip_prefix` (the remainder equals
the whole path) into the `ups == 0 && remainder.len() == to_parts.len()`
early `None`: the claimed result would be `some "a.md"`. -/
theorem c4_empty_from_counterexample :
    relative_path [] ("".data ++ "a.md".data) = none ∧
    (none : Option (List Char)) ≠ some "a.md".data := by
  constructor
  · decide
  · intro h; cases h

/-- C4, amended.  For every directory string `from_dir` that ends with `/`
(hence is nonempty — the empty directory returns `none` instead) and every
relative path `rel` with no leading `/`,
`relative_path from_dir (from_dir ++ rel) = some rel`. -/
theorem c4_relative_path_round_trip (from_dir rel : List Char)
    (hslash : from_dir.getLast? = some '/') (_hrel : rel.head? ≠ some '/') :
    relative_path from_dir (from_dir ++ rel) = some rel := by
  have hne : from_dir ≠ [] := by
    intro h0
    rw [h0] at hslash
    simp at hslash
  have hp : from_dir.isPrefixOf (from_dir ++ rel) = true := by
    rw [List.isPrefixOf_iff_prefix]
    exact ⟨rel, rfl⟩
  have hdrop : (from_dir ++ rel).drop from_dir.length = rel :=
    List.drop_left from_dir rel
  have hneq : rel ≠ from_dir ++ rel := by
    intro heq
    have hlen := congrArg List.length heq
    simp [List.length_append] at hlen
    exact hne hlen
  simp [relative_path, stripPre, hp, hdrop, hneq]

/-- C4, witness for the amended theorem. -/
theorem c4_relative_path_witness :
    relative_path "OEBPS/".data ("OEBPS/".data ++ "ch1.xhtml".data) =
      some "ch1.xhtml".data :=
  c4_relative_path_round_trip "OEBPS/".data "ch1.xhtml".data (by decide)
    (by decide)

/-! ## C5 — mimetype validation -/

/-- C5, counterexample.  The payload `"application/epub+zip\n"` (21 bytes,
not the exact 20-byte string) is accepted, because the source compares
`content.trim()`; the claim says any payload other than the exact string is
rejected. -/
theorem c5_trimmed_payload_counterexample :
    validate_mimetype
        [⟨"mimetype".data, some "application/epub+zip\n".data⟩] = .ok () ∧
    "application/epub+zip\n".data ≠ "application/epub+zip".data := by
  exact ⟨rfl, by decide⟩

/-- C5, amended.  `validate_mimetype` succeeds exactly when the first entry
is named `mimetype` and its payload is valid UTF-8 whose
whitespace-trimmed content equals `application/epub+zip`; the
`InvalidContainer` kind (`EpxError::InvalidEpub`) appears exactly when the
archive is empty, the first entry is misnamed, or the decoded payload does
not trim to that string — a non-UTF-8 payload instead produces an Io-kind
error. -/
theorem c5_validate_mimetype_characterization (entries : List ZipEntry) :
    (validate_mimetype entries = .ok () ↔
      ∃ e rest content, entries = e :: rest ∧ e.name = "mimetype".data ∧
        e.payload = some content ∧
        rustTrim content = "application/epub+zip".data) ∧
    (isInvalidEpub (validate_mimetype entries) ↔
      entries = [] ∨
        ∃ e rest, entries = e :: rest ∧
          (e.name ≠ "mimetype".data ∨
            ∃ content, e.payload = some content ∧
              rustTrim content ≠ "application/epub+zip".data)) := by
  cases entries with
  | nil =>
      constructor
      · simp [validate_mimetype]
      · simp [validate_mimetype, isInvalidEpub]
  | cons e rest =>
      by_cases hn : e.name = "mimetype".data
      · cases hp : e.payload with
        | none =>
            constructor
            · simp [validate_mimetype, hn, hp]
            · simp [validate_mimetype, hn, hp, isInvalidEpub]
        | some content =>
            by_cases ht : rustTrim content = "application/epub+zip".data
            · constructor
              · simp [validate_mimetype, hn, hp, ht]
              · simp [validate_mimetype, hn, hp, ht, isInvalidEpub]
            · constructor
              · simp [validate_mimetype, hn, hp, ht]
              · simp [validate_mimetype, hn, hp, ht, isInvalidEpub]
      · constructor
        · simp [validate_mimetype, hn]
        · simp [validate_mimetype, hn, isInvalidEpub]

/-! ## C3 — navigation-tree construction -/

/-- C3, counterexample.  For the input `[(a, x, 0), (b, y, 1)]` the claim
requires the depth-1 entry `b` to be a child of `a`'s NavPoint; the code
returns both at the root, `a` childless. -/
theorem c3_nesting_counterexample :
    build_nav_tree [("a".data, "x".data, 0), ("b".data, "y".data, 1)] =
      [NavPoint.mk "a".data "x".data [], NavPoint.mk "b".data "y".data []] :=
  rfl

/-- C3, amended.  `build_nav_tree` always returns a flat list: every input
entry appears exactly once, in input order, with empty children — deeper
entries never become children of an earlier entry, because the stack never
holds more than one frame (a new frame is pushed only when the stack is
empty). -/
theorem c3_build_nav_tree_flat (links : List (List Char × List Char × Nat)) :
    build_nav_tree links = links.map (fun t => NavPoint.mk t.1 t.2.1 []) := by
  suffices h : ∀ (ls : List (List Char × List Char × Nat))
      (st : List (Nat × List NavPoint) × List NavPoint) (out : List NavPoint),
      (st.1 = [] ∧ st.2 = out ∨
        ∃ d cs root, st.1 = [(d, cs)] ∧ st.2 = root ∧ root ++ cs = out) →
      navFlush (ls.foldl navStep st).1 (ls.foldl navStep st).2 =
        out ++ ls.map (fun t => NavPoint.mk t.1 t.2.1 []) by
    simpa [build_nav_tree] using h links ([], []) [] (Or.inl ⟨rfl, rfl⟩)
  intro ls
  induction ls with
  | nil =>
      intro st out hst
      rcases hst with ⟨h1, h2⟩ | ⟨d, cs, root, h1, h2, h3⟩
      · simp [List.foldl_nil, navFlush, h1, h2]
      · simp [List.foldl_nil, navFlush, navFlushAux, h1, h2, h3]
  | cons hd tl ih =>
      intro st out hst
      rw [List.foldl_cons]
      rcases hst with ⟨h1, h2⟩ | ⟨d, cs, root, h1, h2, h3⟩
      · have hstep : navStep st hd =
            ([(hd.2.2, [NavPoint.mk hd.1 hd.2.1 []])], out) := by
          simp [navStep, navPop, h1, h2]
        rw [hstep]
        rw [ih ([(hd.2.2, [NavPoint.mk hd.1 hd.2.1 []])], out)
          (out ++ [NavPoint.mk hd.1 hd.2.1 []])
          (Or.inr ⟨hd.2.2, [NavPoint.mk hd.1 hd.2.1 []], out, rfl, rfl, rfl⟩)]
        simp
      · by_cases hge : d ≥ hd.2.2
        · have hstep : navStep st hd =
              ([(hd.2.2, [NavPoint.mk hd.1 hd.2.1 []])], root ++ cs) := by
            simp [navStep, navPop, navPopAux, h1, h2, hge]
          rw [hstep]
          rw [ih ([(hd.2.2, [NavPoint.mk hd.1 hd.2.1 []])], root ++ cs)
            ((root ++ cs) ++ [NavPoint.mk hd.1 hd.2.1 []])
            (Or.inr ⟨_, _, _, rfl, rfl, rfl⟩)]
          simp [h3]
        · have hstep : navStep st hd =
              ([(d, cs ++ [NavPoint.mk hd.1 hd.2.1 []])], root) := by
            simp [navStep, navPop, navPopAux, h1, h2, hge]
          rw [hstep]
          rw [ih ([(d, cs ++ [NavPoint.mk hd.1 hd.2.1 []])], root)
            (root ++ (cs ++ [NavPoint.mk hd.1 hd.2.1 []]))
            (Or.inr ⟨_, _, _, rfl, rfl, rfl⟩)]
          simp [← h3]

/-! ## C10 — metadata import drops custom properties -/

/-- C10, confirmed.  After `import_metadata` the custom map is empty and
`modified` and `cover_id` are `None`, whatever the parsed YAML carried —
including a YAML produced by `export_metadata`
(`BookMetadataYaml::from_epub_metadata`), whose `custom` field does carry
the book's custom properties, so export followed by import loses them. -/
theorem c10_import_drops_custom :
    (∀ (book : EpubBook) (yaml : BookMetadataYaml),
      (import_metadata book yaml).metadata.custom = [] ∧
      (import_metadata book yaml).metadata.modified = none ∧
      (import_metadata book yaml).metadata.cover_id = none) ∧
    (∀ (book : EpubBook) (meta : EpubMetadata) (v d : List Char),
      (from_epub_metadata meta v d).custom = meta.custom ∧
      (import_metadata book (from_epub_metadata meta v d)).metadata.custom =
        []) :=
  ⟨fun _ _ => ⟨rfl, rfl, rfl⟩, fun _ _ _ _ => ⟨rfl, rfl⟩⟩

/-! ## C8 — failed chapter edits leave the book and the disk unchanged -/

/-- C8, confirmed.  When `resolve_chapter` cannot resolve the argument,
`remove_chapter` returns the error with the book exactly as it was (the
resolve happens before any mutation), and the read-modify-write wrapper
`modify_epub` leaves the on-disk book untouched (no write happens on the
error path); likewise for `reorder_chapter` with an out-of-range index. -/
theorem c8_unresolved_target_no_mutation (book : EpubBook) (arg : List Char)
    (from_ to_ : Nat) :
    (∀ e, resolve_chapter book arg = .error e →
      remove_chapter book arg = (book, .error e) ∧
      modify_epub book (fun b => remove_chapter b arg) = (book, .error e)) ∧
    (from_ ≥ book.spine.length →
      reorder_chapter book from_ to_ =
        (book, .error ("source index ".data ++ Nat.toDigits 10 from_ ++
          " out of range (0..".data ++ Nat.toDigits 10 book.spine.length ++
          ")".data)) ∧
      (modify_epub book (fun b => reorder_chapter b from_ to_)).1 = book) ∧
    (¬ from_ ≥ book.spine.length → to_ ≥ book.spine.length →
      reorder_chapter book from_ to_ =
        (book, .error ("target index ".data ++ Nat.toDigits 10 to_ ++
          " out of range (0..".data ++ Nat.toDigits 10 book.spine.length ++
          ")".data)) ∧
      (modify_epub book (fun b => reorder_chapter b from_ to_)).1 = book) := by
  refine ⟨?_, ?_, ?_⟩
  · intro e he
    have h1 : remove_chapter book arg = (book, .error e) := by
      simp [remove_chapter, he]
    exact ⟨h1, by simp [modify_epub, h1]⟩
  · intro hf
    have h1 : reorder_chapter book from_ to_ =
        (book, .error ("source index ".data ++ Nat.toDigits 10 from_ ++
          " out of range (0..".data ++ Nat.toDigits 10 book.spine.length ++
          ")".data)) := by
      simp [reorder_chapter, hf]
    exact ⟨h1, by simp [modify_epub, h1]⟩
  · intro hf ht
    have h1 : reorder_chapter book from_ to_ =
        (book, .error ("target index ".data ++ Nat.toDigits 10 to_ ++
          " out of range (0..".data ++ Nat.toDigits 10 book.spine.length ++
          ")".data)) := by
      simp [reorder_chapter, hf, ht]
    exact ⟨h1, by simp [modify_epub, h1]⟩

/-- C8, witness: a two-chapter book, an unresolvable chapter argument, and
an out-of-range reorder index. -/
theorem c8_unresolved_target_witness :
    remove_chapter chapterBook "nope".data =
      (chapterBook, .error ("chapter not found: ".data ++ "nope".data)) ∧
    reorder_chapter chapterBook 5 0 =
      (chapterBook, .error ("source index ".data ++ Nat.toDigits 10 5 ++
        " out of range (0..".data ++ Nat.toDigits 10 2 ++ ")".data)) := by
  have h := c8_unresolved_target_no_mutation chapterBook "nope".data 5 0
  exact ⟨(h.1 ("chapter not found: ".data ++ "nope".data) rfl).1,
    (h.2.1 (by decide)).1⟩

/-! ## Shared helper lemmas on the cleanup passes -/

/-- Dropping while a predicate holds is idempotent. -/
theorem dropWhile_self {α : Type} (p : α → Bool) (l : List α) :
    (l.dropWhile p).dropWhile p = l.dropWhile p := by
  induction l with
  | nil => rfl
  | cons c cs ih =>
      by_cases hp : p c
      · simp [List.dropWhile_cons, hp, ih]
      · simp [List.dropWhile_cons, hp]

/-- `rustTrimEnd` is idempotent. -/
theorem rustTrimEnd_idem (l : List Char) :
    rustTrimEnd (rustTrimEnd l) = rustTrimEnd l := by
  simp [rustTrimEnd, dropWhile_self]

/-- `rustTrimEnd` keeps only characters of the input. -/
theorem mem_rustTrimEnd {c : Char} {l : List Char} (h : c ∈ rustTrimEnd l) :
    c ∈ l := by
  simp only [rustTrimEnd, List.mem_reverse] at h
  exact List.mem_reverse.mp ((List.dropWhile_sublist _).mem h)

/-- The head of a `dropWhile` fails the predicate, so a following
`takeWhile` is empty. -/
theorem takeWhile_dropWhile_nil {α : Type} (p : α → Bool) (l : List α) :
    (l.dropWhile p).takeWhile p = [] := by
  rcases hd : l.dropWhile p with _ | ⟨c, cs⟩
  · simp
  · have h0 : 0 < (l.dropWhile p).length := by rw [hd]; simp
    have hnp := List.dropWhile_get_zero_not p l h0
    have hc : (l.dropWhile p).get ⟨0, h0⟩ = c := by
      simp [hd]
    rw [hc] at hnp
    simp [List.takeWhile_cons, hnp]

/-- The collapse matcher in closed form: a match exactly on a leading run of
three or more newlines, consuming the whole run. -/
theorem ppBlankM_eq (s : List Char) :
    ppBlankM s =
      if 3 ≤ (s.takeWhile (fun c => c = '\n')).length then
        some ("\n\n".data, s.dropWhile (fun c => c = '\n'))
      else none := by
  simp only [ppBlankM, List.span_eq_take_drop]

/-- The leading-newline run of the collapse pass's output is bounded by the
input's run and by 2. -/
theorem collapse_lead_le (fuel : Nat) :
    ∀ s : List Char, s.length ≤ fuel →
      ((scanRw ppBlankM fuel s).takeWhile (fun c => c = '\n')).length ≤
        min ((s.takeWhile (fun c => c = '\n')).length) 2 := by
  induction fuel with
  | zero =>
      intro s hs
      have h0 := List.eq_nil_of_length_eq_zero (Nat.le_zero.mp hs)
      subst h0
      simp [scanRw]
  | succ fuel ih =>
      intro s hs
      match s with
      | [] => simp [scanRw]
      | c :: cs =>
          rw [scanRw, ppBlankM_eq]
          by_cases h3 : 3 ≤ ((c :: cs).takeWhile (fun c => c = '\n')).length
          · rw [if_pos h3]
            have hceq : c = '\n' := by
              by_contra hcc
              rw [List.takeWhile_cons] at h3
              simp [hcc] at h3
            subst hceq
            have hrlen : (('\n' :: cs).dropWhile
                (fun c => c = '\n')).length ≤ fuel := by
              have h1 : (('\n' :: cs).dropWhile (fun c => c = '\n')) =
                  cs.dropWhile (fun c => c = '\n') := by
                simp [List.dropWhile_cons]
              rw [h1]
              have := (List.dropWhile_sublist
                (l := cs) (p := fun c => decide (c = '\n'))).length_le
              simp at hs
              omega
            have hih := ih _ hrlen
            have hz : ((('\n' :: cs).dropWhile (fun c => c = '\n')).takeWhile
                (fun c => c = '\n')).length = 0 := by
              rw [takeWhile_dropWhile_nil]
              rfl
            have hlead : ((scanRw ppBlankM fuel
                (('\n' :: cs).dropWhile (fun c => c = '\n'))).takeWhile
                  (fun c => c = '\n')).length = 0 := by omega
            have hshape : ("\n\n".data ++ scanRw ppBlankM fuel
                (('\n' :: cs).dropWhile (fun c => c = '\n'))).takeWhile
                  (fun c => c = '\n') =
                '\n' :: '\n' :: ((scanRw ppBlankM fuel
                  (('\n' :: cs).dropWhile (fun c => c = '\n'))).takeWhile
                    (fun c => c = '\n')) := by
              simp [List.takeWhile_cons]
            rw [hshape]
            simp only [List.length_cons]
            omega
          · rw [if_neg h3]
            by_cases hc : c = '\n'
            · subst hc
              have hexp : (('\n' :: cs).takeWhile (fun c => c = '\n')) =
                  '\n' :: cs.takeWhile (fun c => c = '\n') := by
                simp [List.takeWhile_cons]
              rw [hexp] at h3 ⊢
              have hih := ih cs (by simp at hs; omega)
              have hshape : (('\n' :: scanRw ppBlankM fuel cs).takeWhile
                  (fun c => c = '\n')) =
                  '\n' :: ((scanRw ppBlankM fuel cs).takeWhile
                    (fun c => c = '\n')) := by
                simp [List.takeWhile_cons]
              rw [hshape]
              simp only [List.length_cons] at h3 ⊢
              omega
            · have hshape : ((c :: scanRw ppBlankM fuel cs).takeWhile
                  (fun c => c = '\n')) = [] := by
                simp [List.takeWhile_cons, hc]
              rw [hshape]
              simp

/-- Unfolding `hasSub` on a cons cell. -/
theorem hasSub_cons (c : Char) (t nd : List Char) :
    hasSub (c :: t) nd = (nd.isPrefixOf (c :: t) || hasSub t nd) := rfl

/-- A run of `k` newlines is a prefix of `t` exactly when `t`'s leading
newline run has length at least `k`. -/
theorem replicate_nl_isPrefixOf (k : Nat) :
    ∀ t : List Char, (List.replicate k '\n').isPrefixOf t = true ↔
      k ≤ (t.takeWhile (fun c => c = '\n')).length := by
  induction k with
  | zero => intro t; simp
  | succ k ih =>
      intro t
      match t with
      | [] =>
          simp [List.replicate_succ, List.isPrefixOf]
      | c :: ts =>
          by_cases hc : c = '\n'
          · subst hc
            simp [List.replicate_succ, List.isPrefixOf, List.takeWhile_cons,
              ih ts, Nat.succ_le_succ_iff]
          · have hc' : (('\n' : Char) == c) = false := by
              simp only [beq_eq_false_iff_ne]
              exact fun h => hc h.symm
            simp [List.replicate_succ, List.isPrefixOf, hc', hc,
              List.takeWhile_cons]

/-- If the leading newline run of `t` is shorter than 3, the string
`"\n\n\n"` is not a prefix of `t`. -/
theorem no_triple_of_lead_lt {t : List Char}
    (h : (t.takeWhile (fun c => c = '\n')).length < 3) :
    ("\n\n\n".data.isPrefixOf t) = false := by
  have h3 : "\n\n\n".data = List.replicate 3 '\n' := rfl
  rw [h3, Bool.eq_false_iff]
  intro habs
  have := (replicate_nl_isPrefixOf 3 t).mp habs
  omega

/-- Leading-newline run of a cons. -/
theorem lead_cons (c : Char) (X : List Char) :
    ((c :: X).takeWhile (fun x => x = '\n')).length =
      if c = '\n' then (X.takeWhile (fun x => x = '\n')).length + 1
      else 0 := by
  by_cases hc : c = '\n' <;> simp [List.takeWhile_cons, hc]

/-- Pushing one character onto a triple-newline-free list keeps it
triple-newline-free, provided the leading run stays below 3. -/
theorem no_triple_cons (c : Char) (X : List Char)
    (hx : hasSub X "\n\n\n".data = false)
    (hl : ((c :: X).takeWhile (fun x => x = '\n')).length < 3) :
    hasSub (c :: X) "\n\n\n".data = false := by
  rw [hasSub_cons, no_triple_of_lead_lt hl, hx]
  rfl

/-- The blank-collapse pass never leaves three consecutive newlines. -/
theorem collapse_no_triple (fuel : Nat) :
    ∀ s : List Char, s.length ≤ fuel →
      hasSub (scanRw ppBlankM fuel s) "\n\n\n".data = false := by
  induction fuel with
  | zero =>
      intro s hs
      have h0 := List.eq_nil_of_length_eq_zero (Nat.le_zero.mp hs)
      subst h0
      decide
  | succ fuel ih =>
      intro s hs
      match s with
      | [] =>
          rw [scanRw]
          decide
      | c :: cs =>
          rw [scanRw, ppBlankM_eq]
          by_cases h3 : 3 ≤ ((c :: cs).takeWhile (fun c => c = '\n')).length
          · rw [if_pos h3]
            have hceq : c = '\n' := by
              by_contra hcc
              rw [List.takeWhile_cons] at h3
              simp [hcc] at h3
            subst hceq
            have hrlen : (('\n' :: cs).dropWhile
                (fun c => c = '\n')).length ≤ fuel := by
              have h1 : (('\n' :: cs).dropWhile (fun c => c = '\n')) =
                  cs.dropWhile (fun c => c = '\n') := by
                simp [List.dropWhile_cons]
              rw [h1]
              have := (List.dropWhile_sublist
                (l := cs) (p := fun c => decide (c = '\n'))).length_le
              simp at hs
              omega
            have hX := ih _ hrlen
            have hlead := collapse_lead_le fuel _ hrlen
            have hz : ((('\n' :: cs).dropWhile (fun c => c = '\n')).takeWhile
                (fun c => c = '\n')).length = 0 := by
              rw [takeWhile_dropWhile_nil]
              rfl
            have hXlead : ((scanRw ppBlankM fuel
                (('\n' :: cs).dropWhile (fun c => c = '\n'))).takeWhile
                  (fun c => c = '\n')).length = 0 := by omega
            show hasSub ('\n' :: '\n' :: scanRw ppBlankM fuel
              (('\n' :: cs).dropWhile (fun c => c = '\n'))) "\n\n\n".data =
                false
            apply no_triple_cons
            · apply no_triple_cons
              · exact hX
              · rw [lead_cons, if_pos rfl]
                omega
            · rw [lead_cons, if_pos rfl, lead_cons, if_pos rfl]
              omega
          · rw [if_neg h3]
            have hY := ih cs (by simp at hs; omega)
            by_cases hc : c = '\n'
            · subst hc
              rw [lead_cons, if_pos rfl] at h3
              have hlead := collapse_lead_le fuel cs (by simp at hs; omega)
              apply no_triple_cons _ _ hY
              rw [lead_cons, if_pos rfl]
              omega
            · apply no_triple_cons _ _ hY
              rw [lead_cons, if_neg hc]
              omega

/-- A list whose `getLast?` is `some a` contains `a`. -/
theorem getLast_eq_some_mem {α : Type} :
    ∀ (l : List α) (a : α), l.getLast? = some a → a ∈ l := by
  intro l
  induction l with
  | nil => intro a h; exact absurd h (by simp)
  | cons x xs ih =>
      intro a h
      rcases xs with _ | ⟨y, ys⟩
      · rw [List.getLast?_singleton] at h
        simp at h
        simp [h]
      · rw [List.getLast?_cons_cons] at h
        exact List.mem_cons_of_mem _ (ih a h)

/-- Splitting a newline-free list at newlines yields that one piece. -/
theorem splitNl_noNl_single :
    ∀ m : List Char, '\n' ∉ m → splitNl m = [m] := by
  intro m
  induction m with
  | nil => intro _; rfl
  | cons c cs ih =>
      intro h
      have hc : ¬ c = '\n' := by
        intro hcc
        subst hcc
        exact h (List.mem_cons_self _ _)
      rw [splitNl, if_neg hc, ih (fun hm => h (List.mem_cons_of_mem _ hm))]

/-- Splitting peels a leading newline-free piece before a newline. -/
theorem splitNl_append_nl (rest : List Char) :
    ∀ m : List Char, '\n' ∉ m →
      splitNl (m ++ '\n' :: rest) = m :: splitNl rest := by
  intro m
  induction m with
  | nil =>
      intro _
      show splitNl ('\n' :: rest) = [] :: splitNl rest
      rw [splitNl]
      simp
  | cons c cs ih =>
      intro h
      have hc : ¬ c = '\n' := by
        intro hcc
        subst hcc
        exact h (List.mem_cons_self _ _)
      show splitNl (c :: (cs ++ '\n' :: rest)) = (c :: cs) :: splitNl rest
      rw [splitNl, if_neg hc, ih (fun hm => h (List.mem_cons_of_mem _ hm))]

/-- `splitNl` is a left inverse of `joinNl` on nonempty lists of
newline-free pieces. -/
theorem splitNl_joinNl :
    ∀ M : List (List Char), M ≠ [] → (∀ p ∈ M, '\n' ∉ p) →
      splitNl (joinNl M) = M := by
  intro M
  induction M with
  | nil => intro h _; exact absurd rfl h
  | cons p M' ih =>
      intro _ hnl
      rcases M' with _ | ⟨q, M''⟩
      · show splitNl (joinNl [p]) = [p]
        exact splitNl_noNl_single p (hnl p (List.mem_cons_self _ _))
      · have hj : joinNl (p :: q :: M'') = p ++ '\n' :: joinNl (q :: M'') :=
          rfl
        rw [hj, splitNl_append_nl _ p (hnl p (List.mem_cons_self _ _)),
          ih (by simp) (fun r hr => hnl r (List.mem_cons_of_mem _ hr))]

/-- Every piece produced by `splitNl` is newline-free. -/
theorem splitNl_no_nl : ∀ s : List Char, ∀ p ∈ splitNl s, '\n' ∉ p := by
  intro s
  induction s with
  | nil =>
      intro p hp
      simp [splitNl] at hp
      subst hp
      simp
  | cons c cs ih =>
      intro p hp
      by_cases hc : c = '\n'
      · subst hc
        rw [splitNl, if_pos rfl] at hp
        rcases List.mem_cons.mp hp with h | h
        · subst h; simp
        · exact ih p h
      · rw [splitNl, if_neg hc] at hp
        rcases hsp : splitNl cs with _ | ⟨q, qs⟩
        · rw [hsp] at hp
          simp at hp
          subst hp
          intro hm
          simp at hm
          exact hc hm.symm
        · rw [hsp] at hp
          simp only [List.mem_cons] at hp
          rcases hp with h | h
          · subst h
            intro hm
            rcases List.mem_cons.mp hm with h' | h'
            · exact hc h'.symm
            · have hq : q ∈ splitNl cs := by
                rw [hsp]; exact List.mem_cons_self _ _
              exact ih q hq h'
          · have hmem : p ∈ splitNl cs := by
              rw [hsp]; exact List.mem_cons_of_mem _ h
            exact ih p hmem

/-- Every piece produced by `rustLines` is newline-free. -/
theorem rustLines_no_nl (l : List Char) : ∀ p ∈ rustLines l, '\n' ∉ p := by
  intro p hp
  simp only [rustLines] at hp
  have hmap : ∀ q : List Char, q ∈ (splitNl l).dropLast →
      '\n' ∉ (if q.getLast? = some '\r' then q.dropLast else q) := by
    intro q hq
    have hq' : q ∈ splitNl l := (List.dropLast_sublist _).subset hq
    have hnn := splitNl_no_nl l q hq'
    by_cases hr : q.getLast? = some '\r'
    · rw [if_pos hr]
      intro hm
      exact hnn ((List.dropLast_sublist q).subset hm)
    · rw [if_neg hr]
      exact hnn
  split at hp
  · rcases List.mem_map.mp hp with ⟨q, hq, hfq⟩
    rw [← hfq]
    exact hmap q hq
  · rcases List.mem_append.mp hp with h | h
    · rcases List.mem_map.mp h with ⟨q, hq, hfq⟩
      rw [← hfq]
      exact hmap q hq
    · have hp2 := List.mem_singleton.mp h
      subst hp2
      rcases hlast : (splitNl l).getLast? with _ | q
      · simp [hlast]
      · simp only [hlast, Option.getD_some]
        exact splitNl_no_nl l q (getLast_eq_some_mem _ q hlast)

/-- Every line of the per-line-trimmed string is trim-fixed: splitting the
output of `ppTrimLines` at newlines gives pieces with no trailing
whitespace. -/
theorem splitNl_ppTrimLines (s : List Char) :
    ∀ p ∈ splitNl (ppTrimLines s), rustTrimEnd p = p := by
  intro p hp
  simp only [ppTrimLines] at hp
  rcases hM : (rustLines s).map rustTrimEnd with _ | ⟨q, M'⟩
  · rw [hM] at hp
    simp [joinNl, splitNl] at hp
    subst hp
    rfl
  · rw [hM] at hp
    have hnl : ∀ r ∈ q :: M', '\n' ∉ r := by
      intro r hr
      rw [← hM] at hr
      rcases List.mem_map.mp hr with ⟨u, hu, huq⟩
      intro hm
      rw [← huq] at hm
      exact rustLines_no_nl s u hu (mem_rustTrimEnd hm)
    rw [splitNl_joinNl _ (by simp) hnl] at hp
    rw [← hM] at hp
    rcases List.mem_map.mp hp with ⟨u, hu, huq⟩
    rw [← huq]
    exact rustTrimEnd_idem u

/-- C7, counterexample.  The input `"a\n\n\n\nb"` holds a run of three blank
lines; the claim says they collapse to exactly two blank lines, i.e. to
`"a\n\n\nb\n"`.  The source's `blank_re` is `\n{3,}` replaced by `"\n\n"`:
it collapses the *newline run* to two newline characters, which is one
blank line, so `postprocess_markdown` returns `"a\n\nb\n"`. -/
theorem c7_blank_collapse_counterexample :
    postprocess_markdown "a\n\n\n\nb".data = "a\n\nb\n".data := by
  decide

/-- C7, amended.  `postprocess_markdown` (src/extract/html_to_md.rs lines
308-323) (a) returns, for every input, a string of the shape
`y ++ "\n"` where `y` carries no trailing whitespace — so the output ends
with exactly one newline; (b) its blank-collapse pass (`blank_re`,
`\n{3,}` → `"\n\n"`, run with the fuel discipline of the embedding at the
input's length) leaves no three consecutive newline characters, i.e. every
run of three or more newlines (two or more blank lines) becomes exactly
two newlines (one blank line) — not the claimed two remaining blank
lines; and (c) the per-line trim stage `ppTrimLines` outputs a string
every newline-separated piece of which is fixed by trailing-whitespace
removal. -/
theorem c7_postprocess_cleanup (md s : List Char) :
    (∃ y, postprocess_markdown md = y ++ "\n".data ∧ rustTrimEnd y = y) ∧
    hasSub (scanRw ppBlankM s.length s) "\n\n\n".data = false ∧
    (∀ p ∈ splitNl (ppTrimLines s), rustTrimEnd p = p) := by
  refine ⟨?_, collapse_no_triple s.length s le_rfl, splitNl_ppTrimLines s⟩
  simp only [postprocess_markdown]
  exact ⟨_, rfl, rustTrimEnd_idem _⟩

/-- C7, witness: the amended theorem applied at a concrete input,
discharging the membership hypothesis of part (c) by evaluation. -/
theorem c7_postprocess_cleanup_witness :
    rustTrimEnd "ab".data = "ab".data :=
  (c7_postprocess_cleanup "x".data "ab\ncd".data).2.2 "ab".data (by decide)

/-! ## C2 — substring algebra for the token-leak analysis -/

/-- `hasSub` on the empty haystack is the prefix test. -/
theorem hasSub_nil (x : List Char) : hasSub [] x = x.isPrefixOf [] := by
  simp [hasSub]

/-- The empty needle occurs in every haystack. -/
theorem hasSub_nil_needle : ∀ t : List Char, hasSub t [] = true
  | [] => rfl
  | _ :: _ => rfl

/-- A needle that heads the haystack occurs in it. -/
theorem hasSub_of_isPrefixOf {x t : List Char}
    (h : x.isPrefixOf t = true) : hasSub t x = true := by
  rcases t with _ | ⟨c, cs⟩
  · rw [hasSub_nil]
    exact h
  · rw [hasSub_cons, h]
    rfl

/-- The empty needle heads everything. -/
theorem nil_isPrefixOf (t : List Char) :
    ([] : List Char).isPrefixOf t = true := by
  rw [ List.isPrefixOf_iff_prefix]
  exact List.nil_prefix

/-- A prefix test survives extending the haystack on the right. -/
theorem isPrefixOf_append_mono (x u v : List Char)
    (h : x.isPrefixOf u = true) : x.isPrefixOf (u ++ v) = true := by
  rw [ List.isPrefixOf_iff_prefix] at h ⊢
  exact h.trans (List.prefix_append u v)

/-- An occurrence in a suffix is an occurrence in the whole. -/
theorem hasSub_mono_suffix {u t x : List Char} (h : u <:+ t)
    (hu : hasSub u x = true) : hasSub t x = true := by
  obtain ⟨pre, rfl⟩ := h
  induction pre with
  | nil => simpa using hu
  | cons a pre' ih =>
      rw [List.cons_append, hasSub_cons, ih]
      simp

/-- An occurrence survives extending the haystack on the right. -/
theorem hasSub_append_right (x : List Char) :
    ∀ (u v : List Char), hasSub u x = true → hasSub (u ++ v) x = true := by
  intro u
  induction u with
  | nil =>
      intro v hu
      rw [hasSub_nil] at hu
      have hx : x = [] := by
        rcases x with _ | ⟨x0, x'⟩
        · rfl
        · rw [ List.isPrefixOf_iff_prefix] at hu
          simp at hu
      subst hx
      simpa using hasSub_nil_needle v
  | cons c u' ih =>
      intro v hu
      rw [List.cons_append, hasSub_cons]
      rw [hasSub_cons] at hu
      by_cases hb : x.isPrefixOf (c :: u') = true
      · have hw := isPrefixOf_append_mono x (c :: u') v hb
        rw [List.cons_append] at hw
        rw [hw]
        simp
      · have hb' : x.isPrefixOf (c :: u') = false := by
          cases hxx : x.isPrefixOf (c :: u')
          · rfl
          · exact absurd hxx hb
        rw [hb'] at hu
        have hrec : hasSub u' x = true := by simpa using hu
        rw [ih v hrec]
        simp

/-- Dropping a literal head from a matched prefix: if `pre ++ x` heads `t`,
then `x` occurs in `t`. -/
theorem hasSub_of_prefix_append (pre x t : List Char)
    (h : (pre ++ x).isPrefixOf t = true) : hasSub t x = true := by
  rw [ List.isPrefixOf_iff_prefix] at h
  obtain ⟨r, hr⟩ := h
  rw [List.append_assoc] at hr
  subst hr
  refine hasSub_mono_suffix ⟨pre, rfl⟩ (hasSub_append_right x x r ?_)
  apply hasSub_of_isPrefixOf
  rw [ List.isPrefixOf_iff_prefix]

/-- An occurrence in an infix is an occurrence in the whole. -/
theorem hasSub_mono_within {u t x : List Char} (h : u <:+: t)
    (hu : hasSub u x = true) : hasSub t x = true := by
  obtain ⟨p, q, rfl⟩ := h
  rw [List.append_assoc]
  exact hasSub_mono_suffix ⟨p, rfl⟩ (hasSub_append_right x u q hu)

/-- Non-occurrence passes to any infix of the haystack. -/
theorem hasSub_false_within {u t x : List Char} (h : u <:+: t)
    (ht : hasSub t x = false) : hasSub u x = false := by
  by_contra hb
  rw [Bool.not_eq_false] at hb
  rw [hasSub_mono_within h hb] at ht
  simp at ht

/-- Non-occurrence passes to the tail. -/
theorem hasSub_false_tail {c : Char} {cs x : List Char}
    (h : hasSub (c :: cs) x = false) : hasSub cs x = false := by
  rw [hasSub_cons] at h
  exact (Bool.or_eq_false_iff.mp h).2

/-- Non-occurrence passes through `dropWhile`. -/
theorem hasSub_false_dropWhile (p : Char → Bool) (x : List Char) :
    ∀ s : List Char, hasSub s x = false →
      hasSub (s.dropWhile p) x = false := by
  intro s
  induction s with
  | nil => intro h; exact h
  | cons c cs ih =>
      intro h
      by_cases hp : p c
      · rw [List.dropWhile_cons, if_pos hp]
        exact ih (hasSub_false_tail h)
      · rw [List.dropWhile_cons, if_neg hp]
        exact h

/-- Pushing a character not in the needle preserves non-occurrence. -/
theorem hasSub_cons_of (c : Char) (x Y : List Char) (hc : c ∉ x)
    (hY : hasSub Y x = false) : hasSub (c :: Y) x = false := by
  rcases x with _ | ⟨x0, x'⟩
  · rw [hasSub_nil_needle Y] at hY
    simp at hY
  · rw [hasSub_cons]
    have hx0 : x0 ≠ c := fun he => hc (List.mem_cons.mpr (Or.inl he.symm))
    have hp : (x0 :: x').isPrefixOf (c :: Y) = false := by
      have hb : (x0 == c) = false := beq_eq_false_iff_ne.mpr hx0
      show ((x0 == c) && x'.isPrefixOf Y) = false
      rw [hb]
      rfl
    rw [hp, hY]
    rfl

/-- A newline-free needle heads `A ++ '\n' :: B` exactly when it heads
`A`. -/
theorem isPrefixOf_across_nl :
    ∀ (x : List Char), '\n' ∉ x → ∀ (A B : List Char),
      x.isPrefixOf (A ++ '\n' :: B) = x.isPrefixOf A := by
  intro x
  induction x with
  | nil =>
      intro _ A B
      rw [nil_isPrefixOf, nil_isPrefixOf]
  | cons x0 x' ih =>
      intro hx A B
      rcases A with _ | ⟨a, A'⟩
      · have hx0 : x0 ≠ '\n' := fun he => hx (List.mem_cons.mpr (Or.inl he.symm))
        have hb : (x0 == '\n') = false := beq_eq_false_iff_ne.mpr hx0
        show ((x0 == '\n') && x'.isPrefixOf B) = (x0 :: x').isPrefixOf []
        rw [hb]
        rfl
      · rw [List.cons_append]
        show ((x0 == a) && x'.isPrefixOf (A' ++ '\n' :: B)) =
          ((x0 == a) && x'.isPrefixOf A')
        rw [ih (fun hm => hx (List.mem_cons_of_mem _ hm)) A' B]

/-- A newline-free needle absent from both halves is absent from their
newline-joined concatenation. -/
theorem hasSub_append_nl (x : List Char) (hx : '\n' ∉ x) :
    ∀ (A B : List Char), hasSub A x = false → hasSub B x = false →
      hasSub (A ++ '\n' :: B) x = false := by
  intro A
  induction A with
  | nil =>
      intro B hA hB
      show hasSub ('\n' :: B) x = false
      rw [hasSub_cons]
      have hp : x.isPrefixOf ('\n' :: B) = false := by
        have hll := isPrefixOf_across_nl x hx [] B
        rw [List.nil_append] at hll
        rw [hll, ← hasSub_nil]
        exact hA
      rw [hp, hB]
      rfl
  | cons a A' ih =>
      intro B hA hB
      rw [List.cons_append, hasSub_cons]
      have h1 : x.isPrefixOf (a :: (A' ++ '\n' :: B)) = false := by
        have hll := isPrefixOf_across_nl x hx (a :: A') B
        rw [List.cons_append] at hll
        rw [hll]
        have hA' := hA
        rw [hasSub_cons] at hA'
        exact (Bool.or_eq_false_iff.mp hA').1
      rw [h1, ih B (hasSub_false_tail hA) hB]
      rfl

/-- A newline-free needle absent from every piece is absent from the
newline-joined list of pieces. -/
theorem hasSub_joinNl (x : List Char) (hx : '\n' ∉ x)
    (h0 : hasSub [] x = false) :
    ∀ M : List (List Char), (∀ p ∈ M, hasSub p x = false) →
      hasSub (joinNl M) x = false := by
  intro M
  induction M with
  | nil => intro _; exact h0
  | cons p M' ih =>
      intro hM
      rcases M' with _ | ⟨q, M''⟩
      · exact hM p (List.mem_cons_self _ _)
      · show hasSub (p ++ '\n' :: joinNl (q :: M'')) x = false
        exact hasSub_append_nl x hx p _ (hM p (by simp))
          (ih (fun r hr => hM r (List.mem_cons_of_mem _ hr)))

/-- The blank-collapse scan creates no new head occurrence of a nonempty
newline-free needle. -/
theorem scanRw_blank_noPre :
    ∀ (fuel : Nat) (x cs : List Char), '\n' ∉ x → x ≠ [] →
      x.isPrefixOf cs = false →
      x.isPrefixOf (scanRw ppBlankM fuel cs) = false := by
  intro fuel
  induction fuel with
  | zero =>
      intro x cs _ _ h
      rw [scanRw]
      exact h
  | succ fuel ih =>
      intro x cs hx hxne h
      match cs with
      | [] =>
          rw [scanRw]
          exact h
      | c :: cs' =>
          rw [scanRw, ppBlankM_eq]
          by_cases h3 : 3 ≤ ((c :: cs').takeWhile (fun d => d = '\n')).length
          · rw [if_pos h3]
            rcases x with _ | ⟨x0, x'⟩
            · exact absurd rfl hxne
            · have hx0 : x0 ≠ '\n' :=
                fun he => hx (List.mem_cons.mpr (Or.inl he.symm))
              have hb : (x0 == '\n') = false := beq_eq_false_iff_ne.mpr hx0
              show ((x0 == '\n') &&
                x'.isPrefixOf ('\n' :: scanRw ppBlankM fuel _)) = false
              rw [hb]
              rfl
          · rw [if_neg h3]
            by_cases hc : c = '\n'
            · subst hc
              rcases x with _ | ⟨x0, x'⟩
              · exact absurd rfl hxne
              · have hx0 : x0 ≠ '\n' :=
                  fun he => hx (List.mem_cons.mpr (Or.inl he.symm))
                have hb : (x0 == '\n') = false := beq_eq_false_iff_ne.mpr hx0
                show ((x0 == '\n') &&
                  x'.isPrefixOf (scanRw ppBlankM fuel cs')) = false
                rw [hb]
                rfl
            · rcases x with _ | ⟨x0, x'⟩
              · exact absurd rfl hxne
              · by_cases hx0c : x0 = c
                · subst hx0c
                  have h' : x'.isPrefixOf cs' = false := by
                    simpa [List.isPrefixOf] using h
                  rcases x' with _ | ⟨x1, x''⟩
                  · simp [List.isPrefixOf] at h'
                  · have hnext := ih (x1 :: x'') cs'
                      (fun hm => hx (List.mem_cons_of_mem _ hm))
                      (by simp) h'
                    show ((x0 == x0) &&
                      (x1 :: x'').isPrefixOf (scanRw ppBlankM fuel cs')) =
                        false
                    rw [hnext]
                    simp
                · have hb : (x0 == c) = false := beq_eq_false_iff_ne.mpr hx0c
                  show ((x0 == c) &&
                    x'.isPrefixOf (scanRw ppBlankM fuel cs')) = false
                  rw [hb]
                  rfl

/-- The blank-collapse scan preserves absence of a newline-free needle. -/
theorem scanRw_blank_preserve (x : List Char) (hx : '\n' ∉ x) :
    ∀ (fuel : Nat) (s : List Char), hasSub s x = false →
      hasSub (scanRw ppBlankM fuel s) x = false := by
  intro fuel
  induction fuel with
  | zero =>
      intro s h
      rw [scanRw]
      exact h
  | succ fuel ih =>
      intro s h
      match s with
      | [] =>
          rw [scanRw]
          exact h
      | c :: cs =>
          rw [scanRw, ppBlankM_eq]
          by_cases h3 : 3 ≤ ((c :: cs).takeWhile (fun d => d = '\n')).length
          · rw [if_pos h3]
            have hR : hasSub ((c :: cs).dropWhile (fun d => d = '\n')) x =
                false := hasSub_false_dropWhile _ x _ h
            have hIH := ih _ hR
            exact hasSub_cons_of '\n' x _ hx
              (hasSub_cons_of '\n' x _ hx hIH)
          · rw [if_neg h3]
            have htail := ih cs (hasSub_false_tail h)
            by_cases hc : c = '\n'
            · subst hc
              exact hasSub_cons_of '\n' x _ hx htail
            · rw [hasSub_cons]
              have hpre : x.isPrefixOf (c :: cs) = false := by
                have hh := h
                rw [hasSub_cons] at hh
                exact (Bool.or_eq_false_iff.mp hh).1
              have hp : x.isPrefixOf (c :: scanRw ppBlankM fuel cs) =
                  false := by
                rcases x with _ | ⟨x0, x'⟩
                · rw [hasSub_nil_needle (scanRw ppBlankM fuel cs)] at htail
                  simp at htail
                · by_cases hx0c : x0 = c
                  · subst hx0c
                    have h' : x'.isPrefixOf cs = false := by
                      cases hxx : x'.isPrefixOf cs
                      · rfl
                      · exfalso
                        have hful : (x0 :: x').isPrefixOf (x0 :: cs) =
                            true := by
                          show ((x0 == x0) && x'.isPrefixOf cs) = true
                          rw [hxx]
                          simp
                        rw [hful] at hpre
                        simp at hpre
                    rcases x' with _ | ⟨x1, x''⟩
                    · rw [nil_isPrefixOf] at h'
                      simp at h'
                    · have hnext := scanRw_blank_noPre fuel (x1 :: x'') cs
                        (fun hm => hx (List.mem_cons_of_mem _ hm))
                        (by simp) h'
                      show ((x0 == x0) &&
                        (x1 :: x'').isPrefixOf (scanRw ppBlankM fuel cs)) =
                          false
                      rw [hnext]
                      simp
                  · have hb : (x0 == c) = false :=
                      beq_eq_false_iff_ne.mpr hx0c
                    show ((x0 == c) &&
                      x'.isPrefixOf (scanRw ppBlankM fuel cs)) = false
                    rw [hb]
                    rfl
              rw [hp, htail]
              rfl

/-- `dropLast` is a prefix. -/
theorem dropLast_isPrefix {α : Type} : ∀ l : List α, l.dropLast <+: l := by
  intro l
  by_cases hl : l = []
  · subst hl
    simp
  · exact ⟨[l.getLast hl], List.dropLast_append_getLast hl⟩

/-- Every piece of `splitNl` is an infix, and the head piece is a prefix. -/
theorem splitNl_within :
    ∀ s : List Char,
      ((splitNl s).headD [] <+: s) ∧ (∀ p ∈ splitNl s, p <:+: s) := by
  intro s
  induction s with
  | nil =>
      refine ⟨by simp [splitNl], ?_⟩
      intro p hp
      simp [splitNl] at hp
      subst hp
      exact List.nil_infix
  | cons c cs ih =>
      by_cases hc : c = '\n'
      · subst hc
        have heq : splitNl ('\n' :: cs) = [] :: splitNl cs := by
          rw [splitNl, if_pos rfl]
        refine ⟨?_, ?_⟩
        · rw [heq]
          simp
        · intro p hp
          rw [heq] at hp
          rcases List.mem_cons.mp hp with h | h
          · subst h
            exact List.nil_infix
          · exact List.infix_cons (ih.2 p h)
      · rcases hsp : splitNl cs with _ | ⟨q, qs⟩
        · have heq : splitNl (c :: cs) = [[c]] := by
            rw [splitNl, if_neg hc, hsp]
          refine ⟨?_, ?_⟩
          · rw [heq]
            simp [List.cons_prefix_cons]
          · intro p hp
            rw [heq] at hp
            simp at hp
            subst hp
            exact List.IsPrefix.isInfix (by simp [List.cons_prefix_cons])
        · have heq : splitNl (c :: cs) = (c :: q) :: qs := by
            rw [splitNl, if_neg hc, hsp]
          have hq : q <+: cs := by
            have hh := ih.1
            rw [hsp] at hh
            simpa using hh
          refine ⟨?_, ?_⟩
          · rw [heq]
            simpa [List.cons_prefix_cons] using hq
          · intro p hp
            rw [heq] at hp
            rcases List.mem_cons.mp hp with h | h
            · subst h
              exact List.IsPrefix.isInfix
                (by simpa [List.cons_prefix_cons] using hq)
            · have hmem : p ∈ splitNl cs := by
                rw [hsp]
                exact List.mem_cons_of_mem _ h
              exact List.infix_cons (ih.2 p hmem)

/-- Every piece of `rustLines` is an infix of the input. -/
theorem rustLines_within (l : List Char) : ∀ p ∈ rustLines l, p <:+: l := by
  intro p hp
  simp only [rustLines] at hp
  have hmap : ∀ q : List Char, q ∈ (splitNl l).dropLast →
      (if q.getLast? = some '\r' then q.dropLast else q) <:+: l := by
    intro q hq
    have hq' : q <:+: l :=
      (splitNl_within l).2 q ((List.dropLast_sublist _).subset hq)
    by_cases hr : q.getLast? = some '\r'
    · rw [if_pos hr]
      exact ((dropLast_isPrefix q).isInfix).trans hq'
    · rw [if_neg hr]
      exact hq'
  split at hp
  · rcases List.mem_map.mp hp with ⟨q, hq, hfq⟩
    rw [← hfq]
    exact hmap q hq
  · rcases List.mem_append.mp hp with h | h
    · rcases List.mem_map.mp h with ⟨q, hq, hfq⟩
      rw [← hfq]
      exact hmap q hq
    · have hp2 := List.mem_singleton.mp h
      subst hp2
      rcases hlast : (splitNl l).getLast? with _ | q
      · simp only [hlast, Option.getD_none]
        exact List.nil_infix
      · simp only [hlast, Option.getD_some]
        exact (splitNl_within l).2 q (getLast_eq_some_mem _ q hlast)

/-- `rustTrimEnd` yields an infix (in fact a prefix). -/
theorem rustTrimEnd_within (l : List Char) : rustTrimEnd l <:+: l := by
  have h1 : l.reverse.dropWhile rustIsWs <:+ l.reverse :=
    List.dropWhile_suffix _
  have h2 : (l.reverse.dropWhile rustIsWs).reverse <+: l.reverse.reverse :=
    List.reverse_prefix.mpr h1
  rw [List.reverse_reverse] at h2
  exact h2.isInfix

/-- The per-line trim preserves absence of a newline-free needle. -/
theorem ppTrimLines_preserve (x : List Char) (hx : '\n' ∉ x)
    (h0 : hasSub [] x = false) (s : List Char)
    (h : hasSub s x = false) : hasSub (ppTrimLines s) x = false := by
  show hasSub (joinNl ((rustLines s).map rustTrimEnd)) x = false
  apply hasSub_joinNl x hx h0
  intro p hp
  rcases List.mem_map.mp hp with ⟨q, hq, hfq⟩
  rw [← hfq]
  exact hasSub_false_within
    ((rustTrimEnd_within q).trans (rustLines_within s q hq)) h

/-- The collapse-trim-terminate tail of `postprocess_markdown` preserves
absence of a nonempty newline-free needle. -/
theorem postTail_preserve (x : List Char) (hx : '\n' ∉ x)
    (h0 : hasSub [] x = false) (s : List Char)
    (h : hasSub s x = false) :
    hasSub (rustTrimEnd (ppTrimLines (scanRw ppBlankM s.length s)) ++
      "\n".data) x = false := by
  have h8 := scanRw_blank_preserve x hx s.length s h
  have h9 := ppTrimLines_preserve x hx h0 _ h8
  have h10 : hasSub (rustTrimEnd (ppTrimLines (scanRw ppBlankM s.length s)))
      x = false := hasSub_false_within (rustTrimEnd_within _) h9
  have hfin := hasSub_append_nl x hx _ [] h10 h0
  simpa using hfin

/-- A replace-all scan whose matcher never fires is the identity. -/
theorem scanRw_id (m : List Char → Option (List Char × List Char)) :
    ∀ (fuel : Nat) (s : List Char), (∀ t, t <:+ s → m t = none) →
      scanRw m fuel s = s := by
  intro fuel
  induction fuel with
  | zero => intro s _; rw [scanRw]
  | succ fuel ih =>
      intro s h
      match s with
      | [] => rw [scanRw]
      | c :: cs =>
          rw [scanRw, h (c :: cs) (List.suffix_refl _),
            ih cs (fun t ht => h t (ht.trans (List.suffix_cons c cs)))]

/-- A line-aware replace-all scan whose matcher never fires is the
identity. -/
theorem scanRwLine_id
    (m : Bool → List Char → Option (List Char × List Char)) :
    ∀ (fuel : Nat) (b : Bool) (s : List Char),
      (∀ (b' : Bool) (t : List Char), t <:+ s → m b' t = none) →
      scanRwLine m fuel b s = s := by
  intro fuel
  induction fuel with
  | zero => intro b s _; rw [scanRwLine]
  | succ fuel ih =>
      intro b s h
      match s with
      | [] => rw [scanRwLine]
      | c :: cs =>
          rw [scanRwLine, h b (c :: cs) (List.suffix_refl _),
            ih _ cs (fun b' t ht => h b' t (ht.trans (List.suffix_cons c cs)))]

/-- `ppAnchorM` fires only on an `EPXANCHOR` occurrence. -/
theorem ppAnchorM_fires {t : List Char} {r : List Char × List Char}
    (h : ppAnchorM t = some r) : hasSub t "EPXANCHOR".data = true := by
  by_cases hp : "EPXANCHOR__".data.isPrefixOf t = true
  · have heq : "EPXANCHOR__".data = "EPXANCHOR".data ++ "__".data := by
      decide
    rw [heq] at hp
    refine hasSub_of_isPrefixOf ?_
    rw [ List.isPrefixOf_iff_prefix] at hp ⊢
    exact ((List.prefix_append _ _).trans hp)
  · rw [ppAnchorM, if_neg hp] at h
    simp at h

/-- `ppToken` fires only when the token literal heads the input. -/
theorem ppToken_fires {t : List Char} {r : List Char × List Char}
    (h : ppToken t = some r) :
    "\x7b\x7bEPX_ID:".data.isPrefixOf t = true := by
  by_cases hp : "\x7b\x7bEPX_ID:".data.isPrefixOf t = true
  · exact hp
  · rw [ppToken, if_neg hp] at h
    simp at h

/-- `ppBoldM` fires only on a `{{EPX_ID:` occurrence. -/
theorem ppBoldM_fires {t : List Char} {r : List Char × List Char}
    (h : ppBoldM t = some r) :
    hasSub t "\x7b\x7bEPX_ID:".data = true := by
  by_cases hp : "**\x7b\x7bEPX_ID:".data.isPrefixOf t = true
  · refine hasSub_of_prefix_append "**".data _ t ?_
    have heq : "**".data ++ "\x7b\x7bEPX_ID:".data =
        "**\x7b\x7bEPX_ID:".data := by decide
    rw [heq]
    exact hp
  · rw [ppBoldM, if_neg hp] at h
    simp at h

/-- `ppHeadInlineM` fires only on a `{{EPX_ID:` occurrence. -/
theorem ppHeadInlineM_fires {b : Bool} {t : List Char}
    {r : List Char × List Char} (h : ppHeadInlineM b t = some r) :
    hasSub t "\x7b\x7bEPX_ID:".data = true := by
  simp only [ppHeadInlineM] at h
  split at h
  · rename_i hcond
    exact hasSub_of_isPrefixOf hcond.2
  · simp at h

/-- `ppContainsFind` succeeds only on a `{{EPX_ID:` occurrence. -/
theorem ppContainsFind_fires :
    ∀ (u acc gap id r₃ : List Char),
      ppContainsFind acc u = some (gap, id, r₃) →
      hasSub u "\x7b\x7bEPX_ID:".data = true := by
  intro u
  induction u with
  | nil =>
      intro acc gap id r₃ h
      rw [ppContainsFind] at h
      simp at h
  | cons c cs ih =>
      intro acc gap id r₃ h
      simp only [ppContainsFind] at h
      split at h
      · rename_i hcond
        rw [hasSub_cons, hcond.1]
        rfl
      · split at h
        · simp at h
        · rw [hasSub_cons, ih (c :: acc) gap id r₃ h]
          simp

/-- `ppPendingFind` succeeds only on a `{{EPX_ID:` occurrence. -/
theorem ppPendingFind_fires :
    ∀ (u acc rebuilt rest : List Char),
      ppPendingFind acc u = some (rebuilt, rest) →
      hasSub u "\x7b\x7bEPX_ID:".data = true := by
  intro u
  induction u with
  | nil =>
      intro acc rebuilt rest h
      rw [ppPendingFind] at h
      simp at h
  | cons c cs ih =>
      intro acc rebuilt rest h
      simp only [ppPendingFind] at h
      split at h
      · rename_i hcond
        have hlit : "<<PENDING:".data ++ "\x7b\x7bEPX_ID:".data =
            "<<PENDING:\x7b\x7bEPX_ID:".data := by decide
        exact hasSub_of_prefix_append "<<PENDING:".data
          "\x7b\x7bEPX_ID:".data (c :: cs) (by rw [hlit]; exact hcond.1)
      · split at h
        · simp at h
        · rw [hasSub_cons, ih (c :: acc) rebuilt rest h]
          simp

/-- The rest component of a `ppHashes` match. -/
theorem ppHashes_rest {t hs r : List Char}
    (h : ppHashes t = some (hs, r)) :
    r = t.dropWhile (fun c => c = '#') := by
  simp only [ppHashes, List.span_eq_take_drop] at h
  split at h
  · injection h with h'
    injection h' with h1 h2
    exact h2.symm
  · simp at h

/-- `ppHeadContainsM` fires only on a `{{EPX_ID:` occurrence. -/
theorem ppHeadContainsM_fires {b : Bool} {t : List Char}
    {r : List Char × List Char} (h : ppHeadContainsM b t = some r) :
    hasSub t "\x7b\x7bEPX_ID:".data = true := by
  simp only [ppHeadContainsM, List.span_eq_take_drop] at h
  split at h
  · split at h
    · rename_i hs r₁ heq
      split at h
      · simp at h
      · split at h
        · rename_i gap id r₃ heqf
          have hsub := ppContainsFind_fires _ _ _ _ _ heqf
          have h1 : r₁.dropWhile rustIsWs <:+ r₁ := List.dropWhile_suffix _
          have h2 : r₁ <:+ t := by
            rw [ppHashes_rest heq]
            exact List.dropWhile_suffix _
          exact hasSub_mono_suffix (h1.trans h2) hsub
        · simp at h
    · simp at h
  · simp at h

/-- `ppPendingM` fires only on a `{{EPX_ID:` occurrence. -/
theorem ppPendingM_fires {b : Bool} {t : List Char}
    {r : List Char × List Char} (h : ppPendingM b t = some r) :
    hasSub t "\x7b\x7bEPX_ID:".data = true := by
  simp only [ppPendingM, List.span_eq_take_drop] at h
  split at h
  · split at h
    · rename_i hs r₁ heq
      have h2 : r₁ <:+ t := by
        rw [ppHashes_rest heq]
        exact List.dropWhile_suffix _
      have h1 : r₁.dropWhile rustIsWs <:+ r₁ := List.dropWhile_suffix _
      split at h
      · simp at h
      · split at h
        · rename_i rebuilt rest heqf
          exact hasSub_mono_suffix (h1.trans h2)
            (ppPendingFind_fires _ _ _ _ heqf)
        · split at h
          · split at h
            · rename_i rebuilt rest heqf
              exact hasSub_mono_suffix (h1.trans h2)
                (ppPendingFind_fires _ _ _ _ heqf)
            · simp at h
          · simp at h
    · simp at h
  · simp at h

/-- `ppPreHeadingM` fires only on a `{{EPX_ID:` occurrence. -/
theorem ppPreHeadingM_fires {t : List Char} {r : List Char × List Char}
    (h : ppPreHeadingM t = some r) :
    hasSub t "\x7b\x7bEPX_ID:".data = true := by
  simp only [ppPreHeadingM] at h
  split at h
  · simp at h
  · rename_i tk heq
    exact hasSub_of_isPrefixOf (ppToken_fires heq)

/-- `ppRemainingM` fires only on a `{{EPX_ID:` occurrence. -/
theorem ppRemainingM_fires {t : List Char} {r : List Char × List Char}
    (h : ppRemainingM t = some r) :
    hasSub t "\x7b\x7bEPX_ID:".data = true := by
  simp only [ppRemainingM] at h
  split at h
  · rename_i p heq
    exact hasSub_of_isPrefixOf (ppToken_fires heq)
  · simp at h

/-- C2, counterexample.  The claim quantifies over every input XHTML
string; for the input that is the literal text `EPXANCHOR` (with the
external HTML→Markdown converter behaving as the identity on it), the
token pattern `EPXANCHOR__id__ENDEPX` never matches, and the pipeline
returns a Markdown string still containing `EPXANCHOR`. -/
theorem c2_token_leak_counterexample :
    hasSub (xhtml_to_markdown (fun s => s) "EPXANCHOR".data [] [])
      "EPXANCHOR".data = true := by
  decide

/-- C2, amended.  `postprocess_markdown` introduces no token text of its
own: whenever the string handed to it by the converter contains neither
`EPXANCHOR` nor `{{EPX_ID:`, the final Markdown contains neither
substring.  (The unamended claim fails because a document whose own text
contains the token literal passes it through, as the counterexample
shows.)  Each token-rewriting pass fires only on an occurrence of its
token, so all seven are the identity here, and the blank-collapse, f
per-line trim and final-newline stages cannot create an occurrence of a
newline-free needle. -/
theorem c2_no_token_leak (convert : List Char → List Char)
    (xhtml : List Char) (path_map : List (List Char × List Char))
    (rids : List (List Char))
    (hA : hasSub (convert (preprocess_xhtml xhtml path_map rids))
      "EPXANCHOR".data = false)
    (hB : hasSub (convert (preprocess_xhtml xhtml path_map rids))
      "\x7b\x7bEPX_ID:".data = false) :
    hasSub (xhtml_to_markdown convert xhtml path_map rids)
        "EPXANCHOR".data = false ∧
      hasSub (xhtml_to_markdown convert xhtml path_map rids)
        "\x7b\x7bEPX_ID:".data = false := by
  have key : ∀ md : List Char, hasSub md "EPXANCHOR".data = false →
      hasSub md "\x7b\x7bEPX_ID:".data = false →
      hasSub (postprocess_markdown md) "EPXANCHOR".data = false ∧
        hasSub (postprocess_markdown md) "\x7b\x7bEPX_ID:".data = false := by
    intro md hA hB
    have e1 : scanRw ppAnchorM md.length md = md :=
      scanRw_id _ _ _ (fun t ht => by
        rcases h' : ppAnchorM t with _ | r
        · rfl
        · exact absurd (hasSub_mono_suffix ht (ppAnchorM_fires h'))
            (by simp [hA]))
    have e2 : scanRw ppBoldM md.length md = md :=
      scanRw_id _ _ _ (fun t ht => by
        rcases h' : ppBoldM t with _ | r
        · rfl
        · exact absurd (hasSub_mono_suffix ht (ppBoldM_fires h'))
            (by simp [hB]))
    have e3 : scanRwLine ppHeadInlineM md.length true md = md :=
      scanRwLine_id _ _ _ _ (fun b' t ht => by
        rcases h' : ppHeadInlineM b' t with _ | r
        · rfl
        · exact absurd (hasSub_mono_suffix ht (ppHeadInlineM_fires h'))
            (by simp [hB]))
    have e4 : scanRwLine ppHeadContainsM md.length true md = md :=
      scanRwLine_id _ _ _ _ (fun b' t ht => by
        rcases h' : ppHeadContainsM b' t with _ | r
        · rfl
        · exact absurd (hasSub_mono_suffix ht (ppHeadContainsM_fires h'))
            (by simp [hB]))
    have e5 : scanRwLine ppPendingM md.length true md = md :=
      scanRwLine_id _ _ _ _ (fun b' t ht => by
        rcases h' : ppPendingM b' t with _ | r
        · rfl
        · exact absurd (hasSub_mono_suffix ht (ppPendingM_fires h'))
            (by simp [hB]))
    have e6 : scanRw ppPreHeadingM md.length md = md :=
      scanRw_id _ _ _ (fun t ht => by
        rcases h' : ppPreHeadingM t with _ | r
        · rfl
        · exact absurd (hasSub_mono_suffix ht (ppPreHeadingM_fires h'))
            (by simp [hB]))
    have e7 : scanRw ppRemainingM md.length md = md :=
      scanRw_id _ _ _ (fun t ht => by
        rcases h' : ppRemainingM t with _ | r
        · rfl
        · exact absurd (hasSub_mono_suffix ht (ppRemainingM_fires h'))
            (by simp [hB]))
    have hpost : postprocess_markdown md =
        rustTrimEnd (ppTrimLines (scanRw ppBlankM md.length md)) ++
          "\n".data := by
      simp only [postprocess_markdown]
      rw [e1, e2, e3, e4, e5, e6, e7]
    rw [hpost]
    exact ⟨postTail_preserve _ (by decide) (by decide) md hA,
      postTail_preserve _ (by decide) (by decide) md hB⟩
  exact key (convert (preprocess_xhtml xhtml path_map rids)) hA hB

/-- C2, witness: the amended theorem at a concrete converter output free of
both token literals. -/
theorem c2_no_token_leak_witness :
    hasSub (xhtml_to_markdown (fun _ => "hello".data) [] [] [])
        "EPXANCHOR".data = false ∧
      hasSub (xhtml_to_markdown (fun _ => "hello".data) [] [] [])
        "\x7b\x7bEPX_ID:".data = false :=
  c2_no_token_leak (fun _ => "hello".data) [] [] [] (by decide) (by decide)

/-! ## C6 — the SVG cover unwrap -/

/-- `takeWhile` passes over a block of satisfying elements. -/
theorem takeWhile_append_of_all {α : Type} (p : α → Bool) :
    ∀ (A : List α), (∀ a ∈ A, p a = true) → ∀ R : List α,
      (A ++ R).takeWhile p = A ++ R.takeWhile p := by
  intro A
  induction A with
  | nil => intro _ R; rfl
  | cons a A' ih =>
      intro hA R
      rw [List.cons_append, List.takeWhile_cons, hA a (by simp),
        ih (fun b hb => hA b (List.mem_cons_of_mem _ hb)) R]
      rfl

/-- `dropWhile` passes over a block of satisfying elements. -/
theorem dropWhile_append_of_all {α : Type} (p : α → Bool) :
    ∀ (A : List α), (∀ a ∈ A, p a = true) → ∀ R : List α,
      (A ++ R).dropWhile p = R.dropWhile p := by
  intro A
  induction A with
  | nil => intro _ R; rfl
  | cons a A' ih =>
      intro hA R
      rw [List.cons_append, List.dropWhile_cons, if_pos (hA a (by simp)),
        ih (fun b hb => hA b (List.mem_cons_of_mem _ hb)) R]

/-- `nonWordAt` only inspects the head. -/
theorem nonWordAt_append_head (A Y : List Char) (hA : A ≠ []) :
    nonWordAt (A ++ Y) = nonWordAt A := by
  rcases A with _ | ⟨a, as⟩
  · exact absurd rfl hA
  · rfl

/-- A replace-all scan copies a region where the matcher never fires. -/
theorem scanRw_skip (m : List Char → Option (List Char × List Char)) :
    ∀ (A R : List Char), noFire m A R = true →
      scanRw m (A ++ R).length (A ++ R) = A ++ scanRw m R.length R := by
  intro A
  induction A with
  | nil => intro R _; rfl
  | cons a A' ih =>
      intro R h
      simp only [noFire, Bool.and_eq_true] at h
      have hm : m (a :: (A' ++ R)) = none :=
        Option.isNone_iff_eq_none.mp h.1
      show scanRw m ((A' ++ R).length + 1) (a :: (A' ++ R)) =
        (a :: A') ++ scanRw m R.length R
      rw [scanRw, hm, ih R h.2]
      rfl

/-- One firing step of a replace-all scan. -/
theorem scanRw_fire (m : List Char → Option (List Char × List Char))
    (fuel : Nat) (s rep rest : List Char) (h : m s = some (rep, rest))
    (hs : s ≠ []) :
    scanRw m (fuel + 1) s = rep ++ scanRw m fuel rest := by
  rcases s with _ | ⟨c, cs⟩
  · exact absurd rfl hs
  · rw [scanRw, h]

/-- `svgM` in closed form, the pair `let` resolved. -/
theorem svgM_eq (s : List Char) :
    svgM s =
      if ciPrefix "<svg".data s ∧ nonWordAt (s.drop 4) then
        if ((s.drop 4).dropWhile (fun c => c ≠ '>')).head? = some '>' then
          match ciSplitAtSub "</svg>".data
              (((s.drop 4).dropWhile (fun c => c ≠ '>')).drop 1) with
          | some (inner, rest) =>
              if svgHasDrawing inner then
                some (s.take (s.length - rest.length), rest)
              else
                match svgImages inner.length inner with
                | [href] => some ("<img src=\"".data ++ href ++
                    "\" alt=\"Cover image\"/>".data, rest)
                | _ => some (s.take (s.length - rest.length), rest)
          | none => none
        else none
      else none := by
  simp only [svgM, List.span_eq_take_drop]

/-- `svgM` at the head of a well-delimited `<svg>` element: it consumes the
whole element and produces the branch selected by the drawing test and the
image count. -/
theorem svgM_at (attrs inner post : List Char)
    (hw : nonWordAt (attrs ++ ">".data) = true)
    (hgt : '>' ∉ attrs)
    (hfirst : ciSplitAtSub "</svg>".data (inner ++ ("</svg>".data ++ post)) =
      some (inner, post)) :
    svgM ("<svg".data ++ (attrs ++ (">".data ++ (inner ++
        ("</svg>".data ++ post))))) =
      (if svgHasDrawing inner then
        some ("<svg".data ++ (attrs ++ (">".data ++ (inner ++
          "</svg>".data))), post)
      else
        match svgImages inner.length inner with
        | [href] =>
            some ("<img src=\"".data ++ href ++
              "\" alt=\"Cover image\"/>".data, post)
        | _ =>
            some ("<svg".data ++ (attrs ++ (">".data ++ (inner ++
              "</svg>".data))), post)) := by
  have hci : ciPrefix "<svg".data ("<svg".data ++ (attrs ++ (">".data ++
      (inner ++ ("</svg>".data ++ post))))) = true := rfl
  have hnw : nonWordAt (("<svg".data ++ (attrs ++ (">".data ++
      (inner ++ ("</svg>".data ++ post))))).drop 4) = true := by
    have hdrop : ("<svg".data ++ (attrs ++ (">".data ++
        (inner ++ ("</svg>".data ++ post))))).drop 4 =
        attrs ++ (">".data ++ (inner ++ ("</svg>".data ++ post))) := rfl
    rw [hdrop, ← List.append_assoc]
    have hAne : attrs ++ ">".data ≠ [] := by
      rcases attrs with _ | ⟨a, as⟩
      · decide
      · simp
    rw [nonWordAt_append_head _ _ hAne]
    exact hw
  have hall : ∀ a ∈ attrs, (fun c => decide (c ≠ '>')) a = true := by
    intro a ha
    simp only [decide_eq_true_eq]
    exact fun he => hgt (he ▸ ha)
  have horig : ("<svg".data ++ (attrs ++ (">".data ++ (inner ++
      ("</svg>".data ++ post))))).take
      (("<svg".data ++ (attrs ++ (">".data ++ (inner ++
        ("</svg>".data ++ post))))).length - post.length) =
      "<svg".data ++ (attrs ++ (">".data ++ (inner ++ "</svg>".data))) := by
    have hsplit : "<svg".data ++ (attrs ++ (">".data ++ (inner ++
        ("</svg>".data ++ post)))) =
        ("<svg".data ++ (attrs ++ (">".data ++ (inner ++
          "</svg>".data)))) ++ post := by
      simp [List.append_assoc]
    rw [hsplit, List.length_append, Nat.add_sub_cancel, List.take_left]
  rw [svgM_eq, if_pos ⟨hci, hnw⟩]
  rw [show ("<svg".data ++ (attrs ++ (">".data ++ (inner ++
    ("</svg>".data ++ post))))).drop 4 =
    attrs ++ (">".data ++ (inner ++ ("</svg>".data ++ post))) from rfl]
  rw [dropWhile_append_of_all _ attrs hall]
  rw [show (">".data ++ (inner ++ ("</svg>".data ++ post))).dropWhile
    (fun c => decide (c ≠ '>')) =
    '>' :: (inner ++ ("</svg>".data ++ post)) from rfl]
  rw [show ('>' :: (inner ++ ("</svg>".data ++ post))).head? =
    some '>' from rfl, if_pos rfl]
  rw [show ('>' :: (inner ++ ("</svg>".data ++ post))).drop 1 =
    inner ++ ("</svg>".data ++ post) from rfl]
  simp only [hfirst, horig]

/-- C6, confirmed (as a decomposition theorem).  For an input
`pre ++ "<svg" ++ attrs ++ ">" ++ inner ++ "</svg>" ++ post` in which the
scan does not fire inside `pre`, the attribute run has a word boundary and
no `>`, and the delimiting `</svg>` is the first case-insensitive
occurrence after the opening tag, the SVG pass replaces the whole element
by `<img src="X" alt="Cover image"/>` when `inner` has no drawing element
and exactly one image match with href `X`, and reproduces the element
verbatim otherwise; scanning then continues after the element. -/
theorem c6_svg_unwrap (pre attrs inner post href : List Char)
    (hskip : noFire svgM pre ("<svg".data ++ (attrs ++ (">".data ++
      (inner ++ ("</svg>".data ++ post))))) = true)
    (hw : nonWordAt (attrs ++ ">".data) = true)
    (hgt : '>' ∉ attrs)
    (hfirst : ciSplitAtSub "</svg>".data (inner ++ ("</svg>".data ++ post)) =
      some (inner, post)) :
    (svgHasDrawing inner = false →
      svgImages inner.length inner = [href] →
      scanRw svgM (pre ++ ("<svg".data ++ (attrs ++ (">".data ++
          (inner ++ ("</svg>".data ++ post)))))).length
        (pre ++ ("<svg".data ++ (attrs ++ (">".data ++
          (inner ++ ("</svg>".data ++ post)))))) =
      pre ++ (("<img src=\"".data ++ href ++
        "\" alt=\"Cover image\"/>".data) ++
        scanRw svgM (attrs.length + inner.length + post.length + 10) post)) ∧
    (¬ (svgHasDrawing inner = false ∧
        ∃ h, svgImages inner.length inner = [h]) →
      scanRw svgM (pre ++ ("<svg".data ++ (attrs ++ (">".data ++
          (inner ++ ("</svg>".data ++ post)))))).length
        (pre ++ ("<svg".data ++ (attrs ++ (">".data ++
          (inner ++ ("</svg>".data ++ post)))))) =
      pre ++ (("<svg".data ++ (attrs ++ (">".data ++
          (inner ++ "</svg>".data)))) ++
        scanRw svgM (attrs.length + inner.length + post.length + 10) post)) := by
  have l1 : ("<svg".data).length = 4 := rfl
  have l2 : (">".data).length = 1 := rfl
  have l3 : ("</svg>".data).length = 6 := rfl
  have hRlen : ("<svg".data ++ (attrs ++ (">".data ++ (inner ++
      ("</svg>".data ++ post))))).length =
      (attrs.length + inner.length + post.length + 10) + 1 := by
    simp only [List.length_append, l1, l2, l3]
    omega
  have hRne : "<svg".data ++ (attrs ++ (">".data ++ (inner ++
      ("</svg>".data ++ post)))) ≠ [] := by
    intro hh
    have := congrArg List.length hh
    rw [hRlen] at this
    simp at this
  have hskip' := scanRw_skip svgM pre _ hskip
  refine ⟨?_, ?_⟩
  · intro hd him
    have hm1 : svgM ("<svg".data ++ (attrs ++ (">".data ++ (inner ++
        ("</svg>".data ++ post))))) =
        some ("<img src=\"".data ++ href ++ "\" alt=\"Cover image\"/>".data,
          post) := by
      rw [svgM_at attrs inner post hw hgt hfirst, if_neg (by simp [hd]), him]
    rw [hskip', hRlen, scanRw_fire svgM _ _ _ _ hm1 hRne]
  · intro hnot
    by_cases hd : svgHasDrawing inner = true
    · have hm2 : svgM ("<svg".data ++ (attrs ++ (">".data ++ (inner ++
          ("</svg>".data ++ post))))) =
          some ("<svg".data ++ (attrs ++ (">".data ++ (inner ++
            "</svg>".data))), post) := by
        rw [svgM_at attrs inner post hw hgt hfirst, if_pos hd]
      rw [hskip', hRlen, scanRw_fire svgM _ _ _ _ hm2 hRne]
    · have hd' : svgHasDrawing inner = false := by
        cases hx : svgHasDrawing inner
        · rfl
        · exact absurd hx hd
      have hns : ∀ h, svgImages inner.length inner ≠ [h] := by
        intro h hh
        exact hnot ⟨hd', h, hh⟩
      have hm2 : svgM ("<svg".data ++ (attrs ++ (">".data ++ (inner ++
          ("</svg>".data ++ post))))) =
          some ("<svg".data ++ (attrs ++ (">".data ++ (inner ++
            "</svg>".data))), post) := by
        rw [svgM_at attrs inner post hw hgt hfirst, if_neg (by simp [hd'])]
        rcases hsi : svgImages inner.length inner with _ | ⟨h1, t⟩
        · rfl
        · rcases t with _ | ⟨h2, t'⟩
          · exact absurd hsi (hns h1)
          · rfl
      rw [hskip', hRlen, scanRw_fire svgM _ _ _ _ hm2 hRne]

/-- C6, witness: the spec's own example
`<svg><image xlink:href="cover.jpeg"/></svg>` unwraps to
`<img src="cover.jpeg" alt="Cover image"/>`. -/
theorem c6_svg_unwrap_witness :
    scanRw svgM
        ("<svg><image xlink:href=\"cover.jpeg\"/></svg>".data).length
        "<svg><image xlink:href=\"cover.jpeg\"/></svg>".data =
      "<img src=\"cover.jpeg\" alt=\"Cover image\"/>".data := by
  have h := (c6_svg_unwrap [] [] "<image xlink:href=\"cover.jpeg\"/>".data
    [] "cover.jpeg".data (by decide) (by decide) (by decide) (by decide)).1
    (by decide) (by decide)
  have heq : ([] : List Char) ++ ("<svg".data ++ ([] ++ (">".data ++
      ("<image xlink:href=\"cover.jpeg\"/>".data ++
        ("</svg>".data ++ []))))) =
      "<svg><image xlink:href=\"cover.jpeg\"/></svg>".data := by decide
  rw [heq] at h
  rw [h]
  decide

/-! ## C1 — unescape/escape algebra -/

/-- `xml_escape` on a cons. -/
theorem xml_escape_cons (c : Char) (ts : List Char) :
    xml_escape (c :: ts) =
      (if c = '&' then "&amp;".data
       else if c = '<' then "&lt;".data
       else if c = '>' then "&gt;".data
       else if c = '"' then "&quot;".data
       else [c]) ++ xml_escape ts := rfl

/-- The unescape step on an `&amp;` entity. -/
theorem xmlUnescapeGo_amp (f : Nat) (X r : List Char)
    (h : xmlUnescapeGo f X = some r) :
    xmlUnescapeGo (f + 1) ('&' :: 'a' :: 'm' :: 'p' :: ';' :: X) =
      some ('&' :: r) := by
  simp [xmlUnescapeGo, splitAtSub, decodeEntity, h]

/-- The unescape step on an `&lt;` entity. -/
theorem xmlUnescapeGo_lt (f : Nat) (X r : List Char)
    (h : xmlUnescapeGo f X = some r) :
    xmlUnescapeGo (f + 1) ('&' :: 'l' :: 't' :: ';' :: X) =
      some ('<' :: r) := by
  simp [xmlUnescapeGo, splitAtSub, decodeEntity, h]

/-- The unescape step on an `&gt;` entity. -/
theorem xmlUnescapeGo_gt (f : Nat) (X r : List Char)
    (h : xmlUnescapeGo f X = some r) :
    xmlUnescapeGo (f + 1) ('&' :: 'g' :: 't' :: ';' :: X) =
      some ('>' :: r) := by
  simp [xmlUnescapeGo, splitAtSub, decodeEntity, h]

/-- The unescape step on an `&quot;` entity. -/
theorem xmlUnescapeGo_quot (f : Nat) (X r : List Char)
    (h : xmlUnescapeGo f X = some r) :
    xmlUnescapeGo (f + 1) ('&' :: 'q' :: 'u' :: 'o' :: 't' :: ';' :: X) =
      some ('"' :: r) := by
  simp [xmlUnescapeGo, splitAtSub, decodeEntity, h]

/-- The unescape step on a plain character. -/
theorem xmlUnescapeGo_plain (f : Nat) (c : Char) (hc : ¬ c = '&')
    (X r : List Char) (h : xmlUnescapeGo f X = some r) :
    xmlUnescapeGo (f + 1) (c :: X) = some (c :: r) := by
  rw [xmlUnescapeGo, if_neg hc, h]

/-- Unescaping inverts escaping. -/
theorem xmlUnescapeGo_escape :
    ∀ (t : List Char) (fuel : Nat), (xml_escape t).length ≤ fuel →
      xmlUnescapeGo fuel (xml_escape t) = some t := by
  intro t
  induction t with
  | nil =>
      intro fuel _
      rcases fuel with _ | f
      · rfl
      · rfl
  | cons c ts ih =>
      intro fuel h
      by_cases h1 : c = '&'
      · subst h1
        have hxe : xml_escape ('&' :: ts) =
            '&' :: 'a' :: 'm' :: 'p' :: ';' :: xml_escape ts := by
          rw [xml_escape_cons, if_pos rfl]
          rfl
        rw [hxe] at h ⊢
        rcases fuel with _ | f
        · simp at h
        · exact xmlUnescapeGo_amp f _ ts (ih f (by simp at h; omega))
      · by_cases h2 : c = '<'
        · subst h2
          have hxe : xml_escape ('<' :: ts) =
              '&' :: 'l' :: 't' :: ';' :: xml_escape ts := by
            rw [xml_escape_cons, if_neg (by decide), if_pos rfl]
            rfl
          rw [hxe] at h ⊢
          rcases fuel with _ | f
          · simp at h
          · exact xmlUnescapeGo_lt f _ ts (ih f (by simp at h; omega))
        · by_cases h3 : c = '>'
          · subst h3
            have hxe : xml_escape ('>' :: ts) =
                '&' :: 'g' :: 't' :: ';' :: xml_escape ts := by
              rw [xml_escape_cons, if_neg (by decide), if_neg (by decide),
                if_pos rfl]
              rfl
            rw [hxe] at h ⊢
            rcases fuel with _ | f
            · simp at h
            · exact xmlUnescapeGo_gt f _ ts (ih f (by simp at h; omega))
          · by_cases h4 : c = '"'
            · subst h4
              have hxe : xml_escape ('"' :: ts) =
                  '&' :: 'q' :: 'u' :: 'o' :: 't' :: ';' :: xml_escape ts := by
                rw [xml_escape_cons, if_neg (by decide), if_neg (by decide),
                  if_neg (by decide), if_pos rfl]
                rfl
              rw [hxe] at h ⊢
              rcases fuel with _ | f
              · simp at h
              · exact xmlUnescapeGo_quot f _ ts (ih f (by simp at h; omega))
            · have hxe : xml_escape (c :: ts) = c :: xml_escape ts := by
                rw [xml_escape_cons, if_neg h1, if_neg h2, if_neg h3,
                  if_neg h4]
                rfl
              rw [hxe] at h ⊢
              rcases fuel with _ | f
              · simp at h
              · exact xmlUnescapeGo_plain f c h1 _ ts
                  (ih f (by simp at h; omega))

/-- `xmlUnescape ∘ xml_escape = some`. -/
theorem xmlUnescape_escape (t : List Char) :
    xmlUnescape (xml_escape t) = some t :=
  xmlUnescapeGo_escape t _ le_rfl

/-- Escaping a nonempty string is nonempty. -/
theorem xml_escape_ne_nil {t : List Char} (ht : t ≠ []) :
    xml_escape t ≠ [] := by
  rcases t with _ | ⟨c, ts⟩
  · exact absurd rfl ht
  · rw [xml_escape_cons]
    intro hcon
    rcases List.append_eq_nil.mp hcon with ⟨h1, _⟩
    by_cases ha : c = '&'
    · rw [if_pos ha] at h1
      exact absurd h1 (by decide)
    · rw [if_neg ha] at h1
      by_cases hb : c = '<'
      · rw [if_pos hb] at h1
        exact absurd h1 (by decide)
      · rw [if_neg hb] at h1
        by_cases hcq : c = '>'
        · rw [if_pos hcq] at h1
          exact absurd h1 (by decide)
        · rw [if_neg hcq] at h1
          by_cases hd : c = '"'
          · rw [if_pos hd] at h1
            exact absurd h1 (by decide)
          · rw [if_neg hd] at h1
            exact absurd h1 (by simp)

/-- A string without `&` unescapes to itself. -/
theorem xmlUnescapeGo_noAmp :
    ∀ (s : List Char) (fuel : Nat), s.length ≤ fuel → '&' ∉ s →
      xmlUnescapeGo fuel s = some s := by
  intro s
  induction s with
  | nil =>
      intro fuel _ _
      rcases fuel with _ | f
      · rfl
      · rfl
  | cons c cs ih =>
      intro fuel h hmem
      rcases fuel with _ | f
      · simp at h
      · have hc : ¬ c = '&' := fun he => hmem (by
          rw [← he]
          exact List.mem_cons_self _ _)
        exact xmlUnescapeGo_plain f c hc _ cs
          (ih f (by simp at h; omega)
            (fun hm => hmem (List.mem_cons_of_mem _ hm)))

/-- `xmlUnescape` on an ampersand-free string. -/
theorem xmlUnescape_noAmp {s : List Char} (h : '&' ∉ s) :
    xmlUnescape s = some s :=
  xmlUnescapeGo_noAmp s _ le_rfl h

/-! ## C1 — single-event and single-element fold lemmas -/

/-- A text event inside the metadata block accumulates unescaped bytes. -/
theorem parseStep_text (st : OpfSt) (hin : st.in_metadata = true)
    (raw : List Char) :
    parseStep st (XmlEvent.text raw) =
      { st with current_text :=
          st.current_text ++ ((xmlUnescape raw).getD []) } := by
  simp only [parseStep]
  rw [if_pos hin]

/-- A start tag of a non-`meta` element inside the metadata block begins a
fresh element. -/
theorem parseStep_start_other (st : OpfSt) (hin : st.in_metadata = true)
    (name : List Char) (attrs : List (List Char × List Char))
    (h1 : ¬ localName name = "package".data)
    (h2 : ¬ localName name = "metadata".data)
    (h3 : ¬ localName name = "meta".data) :
    parseStep st (XmlEvent.start name attrs) =
      { st with
        current_element := localName name
        current_text := []
        current_meta_property := [] } := by
  simp only [parseStep]
  rw [if_neg h1, if_neg h2, if_pos hin, if_neg h3]

/-- A `<meta property="k">` start tag inside the metadata block. -/
theorem parseStep_start_metaProp (st : OpfSt) (hin : st.in_metadata = true)
    (k : List Char) :
    parseStep st (XmlEvent.start "meta".data [("property".data, k)]) =
      { st with
        current_element := "meta".data
        current_text := []
        current_meta_property := k } := by
  simp only [parseStep]
  rw [if_neg (by decide), if_neg (by decide), if_pos hin,
    if_pos (show localName "meta".data = "meta".data by rfl)]
  rfl

/-- A close tag of a non-`metadata` element pushes accumulated nonempty
text. -/
theorem parseStep_close_push (st : OpfSt) (hin : st.in_metadata = true)
    (hct : st.current_text ≠ []) (name : List Char)
    (h2 : ¬ localName name = "metadata".data) :
    parseStep st (XmlEvent.close name) = opfPushText st := by
  simp only [parseStep]
  rw [if_neg h2, if_pos ⟨hin, hct⟩]

/-- The net fold of one indented metadata element with nonempty unescaped
content. -/
theorem fold_dcElem (st : OpfSt) (hin : st.in_metadata = true)
    (name : List Char) (attrs : List (List Char × List Char))
    (content : List Char)
    (h1 : ¬ localName name = "package".data)
    (h2 : ¬ localName name = "metadata".data)
    (h3 : ¬ localName name = "meta".data)
    (hcne : ¬ content = [])
    (hune : ¬ (xmlUnescape content).getD [] = []) :
    (metaElemEvs name attrs content).foldl parseStep st =
      opfPushText
        { st with
          current_element := localName name
          current_text := (xmlUnescape content).getD []
          current_meta_property := [] } := by
  have hlist : metaElemEvs name attrs content =
      [XmlEvent.text "\n    ".data, XmlEvent.start name attrs,
       XmlEvent.text content, XmlEvent.close name] := by
    simp [metaElemEvs, textEv, hcne]
  rw [hlist, List.foldl_cons, List.foldl_cons, List.foldl_cons,
    List.foldl_cons, List.foldl_nil]
  rw [parseStep_text st hin]
  rw [parseStep_start_other _ (by exact hin) name attrs h1 h2 h3]
  rw [parseStep_text _ (by exact hin)]
  rw [parseStep_close_push _ (by exact hin) (by simpa using hune) name h2]
  simp

/-- The net fold of one `<meta property="k">v</meta>` element. -/
theorem fold_metaElem (st : OpfSt) (hin : st.in_metadata = true)
    (k content : List Char) (hcne : ¬ content = [])
    (hune : ¬ (xmlUnescape content).getD [] = []) :
    (metaElemEvs "meta".data [("property".data, k)] content).foldl
        parseStep st =
      opfPushText
        { st with
          current_element := "meta".data
          current_text := (xmlUnescape content).getD []
          current_meta_property := k } := by
  have hlist : metaElemEvs "meta".data [("property".data, k)] content =
      [XmlEvent.text "\n    ".data,
       XmlEvent.start "meta".data [("property".data, k)],
       XmlEvent.text content, XmlEvent.close "meta".data] := by
    simp [metaElemEvs, textEv, hcne]
  rw [hlist, List.foldl_cons, List.foldl_cons, List.foldl_cons,
    List.foldl_cons, List.foldl_nil]
  rw [parseStep_text st hin]
  rw [parseStep_start_metaProp _ (by exact hin)]
  rw [parseStep_text _ (by exact hin)]
  rw [parseStep_close_push _ (by exact hin) (by simpa using hune)
    "meta".data (by decide)]
  simp

/-- One `dc:identifier` element round-trips into the identifiers list. -/
theorem fold_identifier (st : OpfSt) (hin : st.in_metadata = true)
    (attrs : List (List Char × List Char)) (i : List Char) (hi : i ≠ [])
    (htr : rustTrim i = i) :
    (metaElemEvs "dc:identifier".data attrs (xml_escape i)).foldl
        parseStep st =
      { st with
        metadata := { st.metadata with
          identifiers := st.metadata.identifiers ++ [i] }
        current_element := []
        current_text := []
        current_meta_property := [] } := by
  rw [fold_dcElem st hin _ _ _ (by decide) (by decide) (by decide)
    (xml_escape_ne_nil hi) (by rw [xmlUnescape_escape]; simpa using hi)]
  simp [opfPushText, localName, splitAtSub, xmlUnescape_escape, htr]

/-- One `dc:title` element round-trips into the titles list. -/
theorem fold_title (st : OpfSt) (hin : st.in_metadata = true)
    (t : List Char) (ht : t ≠ []) (htr : rustTrim t = t) :
    (metaElemEvs "dc:title".data [] (xml_escape t)).foldl parseStep st =
      { st with
        metadata := { st.metadata with
          titles := st.metadata.titles ++ [t] }
        current_element := []
        current_text := []
        current_meta_property := [] } := by
  rw [fold_dcElem st hin _ _ _ (by decide) (by decide) (by decide)
    (xml_escape_ne_nil ht) (by rw [xmlUnescape_escape]; simpa using ht)]
  simp [opfPushText, localName, splitAtSub, xmlUnescape_escape, htr]

/-- One raw `dc:language` element round-trips into the languages list. -/
theorem fold_language (st : OpfSt) (hin : st.in_metadata = true)
    (l : List Char) (hl : l ≠ []) (htr : rustTrim l = l) (ha : '&' ∉ l) :
    (metaElemEvs "dc:language".data [] l).foldl parseStep st =
      { st with
        metadata := { st.metadata with
          languages := st.metadata.languages ++ [l] }
        current_element := []
        current_text := []
        current_meta_property := [] } := by
  rw [fold_dcElem st hin _ _ _ (by decide) (by decide) (by decide) hl
    (by rw [xmlUnescape_noAmp ha]; simpa using hl)]
  simp [opfPushText, localName, splitAtSub, xmlUnescape_noAmp ha, htr]

/-- One `dc:creator` element pushes the trimmed creator. -/
theorem fold_creator (st : OpfSt) (hin : st.in_metadata = true)
    (c : List Char) (hc : c ≠ []) :
    (metaElemEvs "dc:creator".data [] (xml_escape c)).foldl parseStep st =
      { st with
        metadata := { st.metadata with
          creators := st.metadata.creators ++ [rustTrim c] }
        current_element := []
        current_text := []
        current_meta_property := [] } := by
  rw [fold_dcElem st hin _ _ _ (by decide) (by decide) (by decide)
    (xml_escape_ne_nil hc) (by rw [xmlUnescape_escape]; simpa using hc)]
  simp [opfPushText, localName, splitAtSub, xmlUnescape_escape]

/-- One `dc:publisher` element pushes the trimmed publisher. -/
theorem fold_publisher (st : OpfSt) (hin : st.in_metadata = true)
    (c : List Char) (hc : c ≠ []) :
    (metaElemEvs "dc:publisher".data [] (xml_escape c)).foldl parseStep st =
      { st with
        metadata := { st.metadata with
          publishers := st.metadata.publishers ++ [rustTrim c] }
        current_element := []
        current_text := []
        current_meta_property := [] } := by
  rw [fold_dcElem st hin _ _ _ (by decide) (by decide) (by decide)
    (xml_escape_ne_nil hc) (by rw [xmlUnescape_escape]; simpa using hc)]
  simp [opfPushText, localName, splitAtSub, xmlUnescape_escape]

/-- One `dc:date` element pushes the trimmed date. -/
theorem fold_date (st : OpfSt) (hin : st.in_metadata = true)
    (c : List Char) (hc : c ≠ []) :
    (metaElemEvs "dc:date".data [] (xml_escape c)).foldl parseStep st =
      { st with
        metadata := { st.metadata with
          dates := st.metadata.dates ++ [rustTrim c] }
        current_element := []
        current_text := []
        current_meta_property := [] } := by
  rw [fold_dcElem st hin _ _ _ (by decide) (by decide) (by decide)
    (xml_escape_ne_nil hc) (by rw [xmlUnescape_escape]; simpa using hc)]
  simp [opfPushText, localName, splitAtSub, xmlUnescape_escape]

/-- One `dc:description` element sets the trimmed description. -/
theorem fold_description_one (st : OpfSt) (hin : st.in_metadata = true)
    (d : List Char) (hd : d ≠ []) :
    (metaElemEvs "dc:description".data [] (xml_escape d)).foldl
        parseStep st =
      { st with
        metadata := { st.metadata with description := some (rustTrim d) }
        current_element := []
        current_text := []
        current_meta_property := [] } := by
  rw [fold_dcElem st hin _ _ _ (by decide) (by decide) (by decide)
    (xml_escape_ne_nil hd) (by rw [xmlUnescape_escape]; simpa using hd)]
  simp [opfPushText, localName, splitAtSub, xmlUnescape_escape]

/-- One `dc:subject` element round-trips into the subjects list. -/
theorem fold_subject (st : OpfSt) (hin : st.in_metadata = true)
    (t : List Char) (ht : t ≠ []) (htr : rustTrim t = t) :
    (metaElemEvs "dc:subject".data [] (xml_escape t)).foldl parseStep st =
      { st with
        metadata := { st.metadata with
          subjects := st.metadata.subjects ++ [t] }
        current_element := []
        current_text := []
        current_meta_property := [] } := by
  rw [fold_dcElem st hin _ _ _ (by decide) (by decide) (by decide)
    (xml_escape_ne_nil ht) (by rw [xmlUnescape_escape]; simpa using ht)]
  simp [opfPushText, localName, splitAtSub, xmlUnescape_escape, htr]

/-- One `dc:rights` element sets the trimmed rights. -/
theorem fold_rights_one (st : OpfSt) (hin : st.in_metadata = true)
    (d : List Char) (hd : d ≠ []) :
    (metaElemEvs "dc:rights".data [] (xml_escape d)).foldl parseStep st =
      { st with
        metadata := { st.metadata with rights := some (rustTrim d) }
        current_element := []
        current_text := []
        current_meta_property := [] } := by
  rw [fold_dcElem st hin _ _ _ (by decide) (by decide) (by decide)
    (xml_escape_ne_nil hd) (by rw [xmlUnescape_escape]; simpa using hd)]
  simp [opfPushText, localName, splitAtSub, xmlUnescape_escape]

/-- The `dcterms:modified` meta element sets the trimmed timestamp. -/
theorem fold_modified_meta (st : OpfSt) (hin : st.in_metadata = true)
    (C : List Char) (hC : C ≠ []) (ha : '&' ∉ C) :
    (metaElemEvs "meta".data [("property".data, "dcterms:modified".data)]
        C).foldl parseStep st =
      { st with
        metadata := { st.metadata with modified := some (rustTrim C) }
        current_element := []
        current_text := []
        current_meta_property := [] } := by
  rw [fold_metaElem st hin _ _ hC (by rw [xmlUnescape_noAmp ha]; simpa using hC)]
  simp [opfPushText, xmlUnescape_noAmp ha]

/-- One custom `meta` element inserts the property into the custom map. -/
theorem fold_custom_meta (st : OpfSt) (hin : st.in_metadata = true)
    (k v : List Char) (hk : k ≠ []) (hke : xml_escape k = k)
    (hkd : ¬ k = "dcterms:modified".data) (hv : v ≠ [])
    (hvtr : rustTrim v = v) :
    (metaElemEvs "meta".data [("property".data, xml_escape k)]
        (xml_escape v)).foldl parseStep st =
      { st with
        metadata := { st.metadata with
          custom := customInsert st.metadata.custom k v }
        current_element := []
        current_text := []
        current_meta_property := [] } := by
  rw [hke]
  rw [fold_metaElem st hin _ _ (xml_escape_ne_nil hv)
    (by rw [xmlUnescape_escape]; simpa using hv)]
  simp [opfPushText, xmlUnescape_escape, hk, hkd, hvtr]

/-- The `dc:title` section of the metadata block. -/
theorem fold_titles :
    ∀ (ts : List (List Char)) (st : OpfSt), st.in_metadata = true →
      st.current_element = [] → st.current_text = [] →
      st.current_meta_property = [] →
      (∀ t ∈ ts, t ≠ [] ∧ rustTrim t = t) →
      ((ts.map (fun t =>
        metaElemEvs "dc:title".data [] (xml_escape t))).flatten).foldl
          parseStep st =
        { st with metadata := { st.metadata with
            titles := st.metadata.titles ++ ts } } := by
  intro ts
  induction ts with
  | nil =>
      intro st _ _ _ _ _
      simp
  | cons t ts ih =>
      intro st hin hce hct hcp hts
      obtain ⟨m, man, sp, v, im, ce, ct, cp⟩ := st
      simp only at hin hce hct hcp
      subst hin hce hct hcp
      rw [List.map_cons, List.flatten_cons, List.foldl_append]
      rw [fold_title _ rfl t (hts t (by simp)).1 (hts t (by simp)).2]
      rw [ih _ rfl rfl rfl rfl
        (fun x hx => hts x (List.mem_cons_of_mem _ hx))]
      simp

/-- The trailing `dc:identifier` section of the metadata block. -/
theorem fold_identifiers_rest :
    ∀ (ts : List (List Char)) (st : OpfSt), st.in_metadata = true →
      st.current_element = [] → st.current_text = [] →
      st.current_meta_property = [] →
      (∀ t ∈ ts, t ≠ [] ∧ rustTrim t = t) →
      ((ts.map (fun t =>
        metaElemEvs "dc:identifier".data [] (xml_escape t))).flatten).foldl
          parseStep st =
        { st with metadata := { st.metadata with
            identifiers := st.metadata.identifiers ++ ts } } := by
  intro ts
  induction ts with
  | nil =>
      intro st _ _ _ _ _
      simp
  | cons t ts ih =>
      intro st hin hce hct hcp hts
      obtain ⟨m, man, sp, v, im, ce, ct, cp⟩ := st
      simp only at hin hce hct hcp
      subst hin hce hct hcp
      rw [List.map_cons, List.flatten_cons, List.foldl_append]
      rw [fold_identifier _ rfl [] t (hts t (by simp)).1 (hts t (by simp)).2]
      rw [ih _ rfl rfl rfl rfl
        (fun x hx => hts x (List.mem_cons_of_mem _ hx))]
      simp

/-- The `dc:language` section of the metadata block. -/
theorem fold_languages :
    ∀ (ts : List (List Char)) (st : OpfSt), st.in_metadata = true →
      st.current_element = [] → st.current_text = [] →
      st.current_meta_property = [] →
      (∀ t ∈ ts, t ≠ [] ∧ rustTrim t = t ∧ '&' ∉ t) →
      ((ts.map (fun t =>
        metaElemEvs "dc:language".data [] t)).flatten).foldl
          parseStep st =
        { st with metadata := { st.metadata with
            languages := st.metadata.languages ++ ts } } := by
  intro ts
  induction ts with
  | nil =>
      intro st _ _ _ _ _
      simp
  | cons t ts ih =>
      intro st hin hce hct hcp hts
      obtain ⟨m, man, sp, v, im, ce, ct, cp⟩ := st
      simp only at hin hce hct hcp
      subst hin hce hct hcp
      rw [List.map_cons, List.flatten_cons, List.foldl_append]
      rw [fold_language _ rfl t (hts t (by simp)).1 (hts t (by simp)).2.1 (hts t (by simp)).2.2]
      rw [ih _ rfl rfl rfl rfl
        (fun x hx => hts x (List.mem_cons_of_mem _ hx))]
      simp

/-- The `dc:creator` section of the metadata block. -/
theorem fold_creators :
    ∀ (ts : List (List Char)) (st : OpfSt), st.in_metadata = true →
      st.current_element = [] → st.current_text = [] →
      st.current_meta_property = [] →
      (∀ t ∈ ts, t ≠ []) →
      ((ts.map (fun t =>
        metaElemEvs "dc:creator".data [] (xml_escape t))).flatten).foldl
          parseStep st =
        { st with metadata := { st.metadata with
            creators := st.metadata.creators ++ ts.map rustTrim } } := by
  intro ts
  induction ts with
  | nil =>
      intro st _ _ _ _ _
      simp
  | cons t ts ih =>
      intro st hin hce hct hcp hts
      obtain ⟨m, man, sp, v, im, ce, ct, cp⟩ := st
      simp only at hin hce hct hcp
      subst hin hce hct hcp
      rw [List.map_cons, List.flatten_cons, List.foldl_append]
      rw [fold_creator _ rfl t (hts t (by simp))]
      rw [ih _ rfl rfl rfl rfl
        (fun x hx => hts x (List.mem_cons_of_mem _ hx))]
      simp

/-- The `dc:publisher` section of the metadata block. -/
theorem fold_publishers :
    ∀ (ts : List (List Char)) (st : OpfSt), st.in_metadata = true →
      st.current_element = [] → st.current_text = [] →
      st.current_meta_property = [] →
      (∀ t ∈ ts, t ≠ []) →
      ((ts.map (fun t =>
        metaElemEvs "dc:publisher".data [] (xml_escape t))).flatten).foldl
          parseStep st =
        { st with metadata := { st.metadata with
            publishers := st.metadata.publishers ++ ts.map rustTrim } } := by
  intro ts
  induction ts with
  | nil =>
      intro st _ _ _ _ _
      simp
  | cons t ts ih =>
      intro st hin hce hct hcp hts
      obtain ⟨m, man, sp, v, im, ce, ct, cp⟩ := st
      simp only at hin hce hct hcp
      subst hin hce hct hcp
      rw [List.map_cons, List.flatten_cons, List.foldl_append]
      rw [fold_publisher _ rfl t (hts t (by simp))]
      rw [ih _ rfl rfl rfl rfl
        (fun x hx => hts x (List.mem_cons_of_mem _ hx))]
      simp

/-- The `dc:date` section of the metadata block. -/
theorem fold_dates :
    ∀ (ts : List (List Char)) (st : OpfSt), st.in_metadata = true →
      st.current_element = [] → st.current_text = [] →
      st.current_meta_property = [] →
      (∀ t ∈ ts, t ≠ []) →
      ((ts.map (fun t =>
        metaElemEvs "dc:date".data [] (xml_escape t))).flatten).foldl
          parseStep st =
        { st with metadata := { st.metadata with
            dates := st.metadata.dates ++ ts.map rustTrim } } := by
  intro ts
  induction ts with
  | nil =>
      intro st _ _ _ _ _
      simp
  | cons t ts ih =>
      intro st hin hce hct hcp hts
      obtain ⟨m, man, sp, v, im, ce, ct, cp⟩ := st
      simp only at hin hce hct hcp
      subst hin hce hct hcp
      rw [List.map_cons, List.flatten_cons, List.foldl_append]
      rw [fold_date _ rfl t (hts t (by simp))]
      rw [ih _ rfl rfl rfl rfl
        (fun x hx => hts x (List.mem_cons_of_mem _ hx))]
      simp

/-- The `dc:subject` section of the metadata block. -/
theorem fold_subjects :
    ∀ (ts : List (List Char)) (st : OpfSt), st.in_metadata = true →
      st.current_element = [] → st.current_text = [] →
      st.current_meta_property = [] →
      (∀ t ∈ ts, t ≠ [] ∧ rustTrim t = t) →
      ((ts.map (fun t =>
        metaElemEvs "dc:subject".data [] (xml_escape t))).flatten).foldl
          parseStep st =
        { st with metadata := { st.metadata with
            subjects := st.metadata.subjects ++ ts } } := by
  intro ts
  induction ts with
  | nil =>
      intro st _ _ _ _ _
      simp
  | cons t ts ih =>
      intro st hin hce hct hcp hts
      obtain ⟨m, man, sp, v, im, ce, ct, cp⟩ := st
      simp only at hin hce hct hcp
      subst hin hce hct hcp
      rw [List.map_cons, List.flatten_cons, List.foldl_append]
      rw [fold_subject _ rfl t (hts t (by simp)).1 (hts t (by simp)).2]
      rw [ih _ rfl rfl rfl rfl
        (fun x hx => hts x (List.mem_cons_of_mem _ hx))]
      simp

/-- The identifier section: a nonempty identifier list round-trips. -/
theorem fold_identifiers (ids : List (List Char)) (uuid : List Char)
    (hne : ids ≠ []) (hids : ∀ i ∈ ids, i ≠ [] ∧ rustTrim i = i) :
    ∀ st : OpfSt, st.in_metadata = true → st.current_element = [] →
      st.current_text = [] → st.current_meta_property = [] →
      (genIdentifierEvs ids uuid).foldl parseStep st =
        { st with metadata := { st.metadata with
            identifiers := st.metadata.identifiers ++ ids } } := by
  rcases ids with _ | ⟨i1, irest⟩
  · exact absurd rfl hne
  · intro st hin hce hct hcp
    obtain ⟨m, man, sp, v, im, ce, ct, cp⟩ := st
    simp only at hin hce hct hcp
    subst hin hce hct hcp
    show (metaElemEvs "dc:identifier".data [("id".data, "uid".data)]
        (xml_escape i1) ++
      (irest.map (fun i => metaElemEvs "dc:identifier".data []
        (xml_escape i))).flatten).foldl parseStep _ = _
    rw [List.foldl_append]
    rw [fold_identifier _ rfl _ i1 (hids i1 (by simp)).1
      (hids i1 (by simp)).2]
    rw [fold_identifiers_rest irest _ rfl rfl rfl rfl
      (fun x hx => hids x (List.mem_cons_of_mem _ hx))]
    simp

/-- The description section of the metadata block. -/
theorem fold_description (od : Option (List Char))
    (hod : ∀ d, od = some d → d ≠ []) :
    ∀ st : OpfSt, st.in_metadata = true → st.current_element = [] →
      st.current_text = [] → st.current_meta_property = [] →
      st.metadata.description = none →
      (descElemEvs od).foldl parseStep st =
        { st with metadata := { st.metadata with
            description := od.map rustTrim } } := by
  rcases od with _ | d
  · intro st _ _ _ _ hprev
    obtain ⟨m, man, sp, v, im, ce, ct, cp⟩ := st
    obtain ⟨mi, mt, mlg, mc, mp, mdt, mde, ms, mr, mmo, mco, mcu⟩ := m
    simp only at hprev
    subst hprev
    rfl
  · intro st hin hce hct hcp _
    obtain ⟨m, man, sp, v, im, ce, ct, cp⟩ := st
    simp only at hin hce hct hcp
    subst hin hce hct hcp
    exact fold_description_one _ rfl d (hod d rfl)

/-- The rights section of the metadata block. -/
theorem fold_rights (od : Option (List Char))
    (hod : ∀ d, od = some d → d ≠ []) :
    ∀ st : OpfSt, st.in_metadata = true → st.current_element = [] →
      st.current_text = [] → st.current_meta_property = [] →
      st.metadata.rights = none →
      (rightsElemEvs od).foldl parseStep st =
        { st with metadata := { st.metadata with
            rights := od.map rustTrim } } := by
  rcases od with _ | d
  · intro st _ _ _ _ hprev
    obtain ⟨m, man, sp, v, im, ce, ct, cp⟩ := st
    obtain ⟨mi, mt, mlg, mc, mp, mdt, mde, ms, mr, mmo, mco, mcu⟩ := m
    simp only at hprev
    subst hprev
    rfl
  · intro st hin hce hct hcp _
    obtain ⟨m, man, sp, v, im, ce, ct, cp⟩ := st
    simp only at hin hce hct hcp
    subst hin hce hct hcp
    exact fold_rights_one _ rfl d (hod d rfl)

/-- The custom-properties section of the metadata block: the emitted keys
insert in order. -/
theorem fold_customs (m0 : List (List Char × List Char)) :
    ∀ (ks : List (List Char)) (st : OpfSt), st.in_metadata = true →
      st.current_element = [] → st.current_text = [] →
      st.current_meta_property = [] →
      (∀ k ∈ ks, k ≠ [] ∧ xml_escape k = k ∧
        ¬ k = "dcterms:modified".data ∧
        (assocLookup m0 k).getD [] ≠ [] ∧
        rustTrim ((assocLookup m0 k).getD []) = (assocLookup m0 k).getD []) →
      ((ks.map (fun k =>
        metaElemEvs "meta".data [("property".data, xml_escape k)]
          (xml_escape ((assocLookup m0 k).getD [])))).flatten).foldl
            parseStep st =
        { st with metadata := { st.metadata with
            custom := ks.foldl
              (fun acc k => customInsert acc k ((assocLookup m0 k).getD []))
              st.metadata.custom } } := by
  intro ks
  induction ks with
  | nil =>
      intro st _ _ _ _ _
      simp
  | cons k ks ih =>
      intro st hin hce hct hcp hks
      obtain ⟨m, man, sp, v, im, ce, ct, cp⟩ := st
      simp only at hin hce hct hcp
      subst hin hce hct hcp
      rw [List.map_cons, List.flatten_cons, List.foldl_append]
      rw [fold_custom_meta _ rfl k _ (hks k (by simp)).1
        (hks k (by simp)).2.1 (hks k (by simp)).2.2.1
        (hks k (by simp)).2.2.2.1 (hks k (by simp)).2.2.2.2]
      rw [ih _ rfl rfl rfl rfl
        (fun x hx => hks x (List.mem_cons_of_mem _ hx))]
      simp

/-- The fixed block between the metadata and manifest items: closing the
metadata, opening the manifest, and the two fixed nav/ncx items. -/
theorem fold_midblock (st : OpfSt) (hin : st.in_metadata = true)
    (hct : st.current_text = []) :
    List.foldl parseStep st
      [XmlEvent.text "\n  ".data, XmlEvent.close "metadata".data,
       XmlEvent.text "\n  ".data, XmlEvent.start "manifest".data [],
       XmlEvent.text "\n    ".data,
       XmlEvent.empty "item".data
         [("id".data, "toc".data), ("href".data, "toc.xhtml".data),
          ("media-type".data, "application/xhtml+xml".data),
          ("properties".data, "nav".data)],
       XmlEvent.text "\n    ".data,
       XmlEvent.empty "item".data
         [("id".data, "ncx".data), ("href".data, "toc.ncx".data),
          ("media-type".data, "application/x-dtbncx+xml".data)]] =
      { st with
        in_metadata := false
        current_text := "\n  ".data
        manifest := (st.manifest ++
          [⟨"toc".data, "toc.xhtml".data, "application/xhtml+xml".data,
            some "nav".data⟩]) ++
          [⟨"ncx".data, "toc.ncx".data, "application/x-dtbncx+xml".data,
            none⟩] } := by
  obtain ⟨m, man, sp, v, im, ce, ct, cp⟩ := st
  simp only at hin hct
  subst hin hct
  rfl

/-- The manifest items of the book append in order. -/
theorem fold_manifest_items :
    ∀ (items : List ManifestItem) (st : OpfSt), st.in_metadata = false →
      ((items.map (fun it =>
        [XmlEvent.text "\n    ".data,
         XmlEvent.empty "item".data
           ([("id".data, xml_escape it.id), ("href".data, xml_escape it.href),
             ("media-type".data, xml_escape it.media_type)] ++
            (match it.properties with
             | some p => [("properties".data, p)]
             | none => []))])).flatten).foldl parseStep st =
      { st with manifest := st.manifest ++ items.map (fun it =>
          (⟨xml_escape it.id, xml_escape it.href, xml_escape it.media_type,
            it.properties⟩ : ManifestItem)) } := by
  intro items
  induction items with
  | nil =>
      intro st _
      simp
  | cons it items ih =>
      intro st hin
      rw [List.map_cons, List.flatten_cons, List.foldl_append]
      have hstep : List.foldl parseStep st
          [XmlEvent.text "\n    ".data,
           XmlEvent.empty "item".data
             ([("id".data, xml_escape it.id),
               ("href".data, xml_escape it.href),
               ("media-type".data, xml_escape it.media_type)] ++
              (match it.properties with
               | some p => [("properties".data, p)]
               | none => []))] =
          { st with manifest := st.manifest ++
            [⟨xml_escape it.id, xml_escape it.href, xml_escape it.media_type,
              it.properties⟩] } := by
        obtain ⟨m, man, sp, v, im, ce, ct, cp⟩ := st
        simp only at hin
        subst hin
        rcases hp : it.properties with _ | p
        · rfl
        · rfl
      rw [hstep, ih _ (by simp [hin])]
      simp

/-- The fixed block between the manifest items and the spine items. -/
theorem fold_spinePre (st : OpfSt) (hin : st.in_metadata = false) :
    List.foldl parseStep st
      [XmlEvent.text "\n  ".data, XmlEvent.close "manifest".data,
       XmlEvent.text "\n  ".data,
       XmlEvent.start "spine".data [("toc".data, "ncx".data)]] = st := by
  obtain ⟨m, man, sp, v, im, ce, ct, cp⟩ := st
  simp only at hin
  subst hin
  rfl

/-- The spine items of the book append in order. -/
theorem fold_spine_items :
    ∀ (items : List SpineItem) (st : OpfSt), st.in_metadata = false →
      ((items.map (fun it =>
        [XmlEvent.text "\n    ".data,
         XmlEvent.empty "itemref".data
           ([("idref".data, it.idref)] ++
            (if it.linear then []
             else [("linear".data, "no".data)]))])).flatten).foldl
          parseStep st =
      { st with spine := st.spine ++ items.map (fun it =>
          (⟨it.idref, it.linear, none⟩ : SpineItem)) } := by
  intro items
  induction items with
  | nil =>
      intro st _
      simp
  | cons it items ih =>
      intro st hin
      rw [List.map_cons, List.flatten_cons, List.foldl_append]
      have hstep : List.foldl parseStep st
          [XmlEvent.text "\n    ".data,
           XmlEvent.empty "itemref".data
             ([("idref".data, it.idref)] ++
              (if it.linear then []
               else [("linear".data, "no".data)]))] =
          { st with spine := st.spine ++
            [⟨it.idref, it.linear, none⟩] } := by
        obtain ⟨m, man, sp, v, im, ce, ct, cp⟩ := st
        simp only at hin
        subst hin
        rcases hl : it.linear with _ | _
        · rfl
        · rfl
      rw [hstep, ih _ (by simp [hin])]
      simp

/-- The closing block after the spine items. -/
theorem fold_tail (st : OpfSt) (hin : st.in_metadata = false) :
    List.foldl parseStep st
      [XmlEvent.text "\n  ".data, XmlEvent.close "spine".data,
       XmlEvent.text "\n".data, XmlEvent.close "package".data,
       XmlEvent.text "\n".data] = st := by
  obtain ⟨m, man, sp, v, im, ce, ct, cp⟩ := st
  simp only at hin
  subst hin
  rfl

/-! ## C1 — custom-map and sorting lemmas -/

/-- `find?` misses when the key is absent. -/
theorem find_eq_none_of_not_mem_keys {k : List Char}
    {m : List (List Char × List Char)} (h : k ∉ m.map Prod.fst) :
    m.find? (fun p => p.1 = k) = none := by
  induction m with
  | nil => rfl
  | cons p rest ih =>
      rw [List.find?_cons]
      have hp : ¬ p.1 = k := by
        intro he
        exact h (by simp [← he])
      have hd : (decide (p.1 = k)) = false := by simp [hp]
      rw [hd]
      exact ih (fun hm => h (by simp at hm ⊢; exact Or.inr hm))

/-- Inserting a fresh key appends. -/
theorem customInsert_fresh {k : List Char}
    {m : List (List Char × List Char)} (h : k ∉ m.map Prod.fst)
    (v : List Char) : customInsert m k v = m ++ [(k, v)] := by
  rw [customInsert, find_eq_none_of_not_mem_keys h]
  rfl

/-- Folding fresh inserts of distinct keys builds the graph list. -/
theorem foldl_customInsert_fresh (V : List Char → List Char) :
    ∀ (ks : List (List Char)) (acc : List (List Char × List Char)),
      ks.Nodup → (∀ k ∈ ks, k ∉ acc.map Prod.fst) →
      ks.foldl (fun acc k => customInsert acc k (V k)) acc =
        acc ++ ks.map (fun k => (k, V k)) := by
  intro ks
  induction ks with
  | nil => intro acc _ _; simp
  | cons k ks ih =>
      intro acc hnd hfresh
      rw [List.foldl_cons, customInsert_fresh (hfresh k (by simp)) (V k)]
      rw [ih _ (List.nodup_cons.mp hnd).2 ?_]
      · simp
      · intro k' hk' hmem
        rw [List.map_append] at hmem
        rcases List.mem_append.mp hmem with hmem | hmem
        · exact hfresh k' (List.mem_cons_of_mem _ hk') hmem
        · simp at hmem
          subst hmem
          exact (List.nodup_cons.mp hnd).1 hk'

/-- Looking up a graph list. -/
theorem assocLookup_graph (V : List Char → List Char) :
    ∀ (ks : List (List Char)) (k' : List Char),
      assocLookup (ks.map (fun k => (k, V k))) k' =
        if k' ∈ ks then some (V k') else none := by
  intro ks
  induction ks with
  | nil => intro k'; simp [assocLookup]
  | cons k ks ih =>
      intro k'
      by_cases hk : k = k'
      · subst hk
        simp [assocLookup, List.find?_cons]
      · rw [List.map_cons]
        have h1 : assocLookup ((k, V k) :: ks.map (fun k => (k, V k))) k' =
            assocLookup (ks.map (fun k => (k, V k))) k' := by
          simp [assocLookup, List.find?_cons, hk]
        rw [h1, ih k']
        by_cases hm : k' ∈ ks
        · rw [if_pos hm, if_pos (List.mem_cons_of_mem _ hm)]
        · rw [if_neg hm, if_neg ?_]
          intro hmm
          rcases List.mem_cons.mp hmm with he | he
          · exact hk he.symm
          · exact hm he

/-- Lookup of an absent key. -/
theorem assocLookup_eq_none {k : List Char}
    {m : List (List Char × List Char)} (h : k ∉ m.map Prod.fst) :
    assocLookup m k = none := by
  rw [assocLookup, find_eq_none_of_not_mem_keys h]

/-- A successful lookup comes from a member pair. -/
theorem assocLookup_mem {m : List (List Char × List Char)}
    {k v : List Char} (h : assocLookup m k = some v) : (k, v) ∈ m := by
  rw [assocLookup] at h
  rcases hf : m.find? (fun p => p.1 = k) with _ | p
  · rw [hf] at h
    simp at h
  · rw [hf] at h
    have hmem := List.mem_of_find?_eq_some hf
    have hkey : p.1 = k := by
      have := List.find?_some hf
      simpa using this
    have hval : p.2 = v := by
      simp at h
      exact h
    have : p = (k, v) := by
      rcases p with ⟨a, b⟩
      simp at hkey hval ⊢
      exact ⟨hkey, hval⟩
    rw [← this]
    exact hmem

/-- A present key looks up to something. -/
theorem assocLookup_isSome {m : List (List Char × List Char)}
    {k : List Char} (h : k ∈ m.map Prod.fst) :
    ∃ v, assocLookup m k = some v := by
  rcases hl : assocLookup m k with _ | v
  · rw [assocLookup] at hl
    rcases hf : m.find? (fun p => p.1 = k) with _ | p
    · rcases List.mem_map.mp h with ⟨q, hq, hfst⟩
      have := List.find?_eq_none.mp hf q hq
      simp [hfst] at this
    · rw [hf] at hl
      simp at hl
  · exact ⟨v, rfl⟩

/-- Stable insertion permutes with consing. -/
theorem insSorted_perm {α : Type} (le : α → α → Bool) (x : α) :
    ∀ l : List α, List.Perm (insSorted le x l) (x :: l) := by
  intro l
  induction l with
  | nil => exact List.Perm.refl _
  | cons y ys ih =>
      rw [insSorted]
      by_cases hle : le y x = true
      · rw [if_pos hle]
        exact (ih.cons y).trans (List.Perm.swap x y ys)
      · rw [if_neg hle]

/-- The insertion-sort fold permutes with appending. -/
theorem foldl_insSorted_perm {α : Type} (le : α → α → Bool) :
    ∀ (l acc : List α),
      List.Perm (l.foldl (fun acc x => insSorted le x acc) acc)
        (acc ++ l) := by
  intro l
  induction l with
  | nil => intro acc; simp
  | cons x xs ih =>
      intro acc
      rw [List.foldl_cons]
      refine (ih _).trans ?_
      refine (List.Perm.append_right xs (insSorted_perm le x acc)).trans ?_
      have hmid : List.Perm (x :: (acc ++ xs)) (acc ++ x :: xs) :=
        List.perm_middle.symm
      simpa using hmid

/-- The stable sort is a permutation. -/
theorem stableSortBy_perm {α : Type} (le : α → α → Bool) (l : List α) :
    List.Perm (stableSortBy le l) l := by
  have h := foldl_insSorted_perm le l []
  simpa [stableSortBy] using h

/-! ## C1 — section folds in constructor form -/

/-- `fold_identifiers` with the state in constructor form. -/
theorem fold_identifiers' {m : EpubMetadata} {man : List ManifestItem}
    {sp : List SpineItem} {v : EpubVersion} (ids : List (List Char))
    (uuid : List Char) (hne : ids ≠ [])
    (hids : ∀ i ∈ ids, i ≠ [] ∧ rustTrim i = i) :
    List.foldl parseStep (OpfSt.mk m man sp v true [] [] [])
        (genIdentifierEvs ids uuid) =
      OpfSt.mk { m with identifiers := m.identifiers ++ ids } man sp v
        true [] [] [] :=
  fold_identifiers ids uuid hne hids _ rfl rfl rfl rfl

/-- `fold_titles` with the state in constructor form. -/
theorem fold_titles' {m : EpubMetadata} {man : List ManifestItem}
    {sp : List SpineItem} {v : EpubVersion} (ts : List (List Char))
    (hts : ∀ t ∈ ts, t ≠ [] ∧ rustTrim t = t) :
    List.foldl parseStep (OpfSt.mk m man sp v true [] [] [])
        ((ts.map (fun t =>
          metaElemEvs "dc:title".data [] (xml_escape t))).flatten) =
      OpfSt.mk { m with titles := m.titles ++ ts } man sp v true [] [] [] :=
  fold_titles ts _ rfl rfl rfl rfl hts

/-- `fold_languages` with the state in constructor form. -/
theorem fold_languages' {m : EpubMetadata} {man : List ManifestItem}
    {sp : List SpineItem} {v : EpubVersion} (ts : List (List Char))
    (hts : ∀ t ∈ ts, t ≠ [] ∧ rustTrim t = t ∧ '&' ∉ t) :
    List.foldl parseStep (OpfSt.mk m man sp v true [] [] [])
        ((ts.map (fun t =>
          metaElemEvs "dc:language".data [] t)).flatten) =
      OpfSt.mk { m with languages := m.languages ++ ts } man sp v
        true [] [] [] :=
  fold_languages ts _ rfl rfl rfl rfl hts

/-- `fold_creators` with the state in constructor form. -/
theorem fold_creators' {m : EpubMetadata} {man : List ManifestItem}
    {sp : List SpineItem} {v : EpubVersion} (ts : List (List Char))
    (hts : ∀ t ∈ ts, t ≠ []) :
    List.foldl parseStep (OpfSt.mk m man sp v true [] [] [])
        ((ts.map (fun t =>
          metaElemEvs "dc:creator".data [] (xml_escape t))).flatten) =
      OpfSt.mk { m with creators := m.creators ++ ts.map rustTrim } man sp v
        true [] [] [] :=
  fold_creators ts _ rfl rfl rfl rfl hts

/-- `fold_publishers` with the state in constructor form. -/
theorem fold_publishers' {m : EpubMetadata} {man : List ManifestItem}
    {sp : List SpineItem} {v : EpubVersion} (ts : List (List Char))
    (hts : ∀ t ∈ ts, t ≠ []) :
    List.foldl parseStep (OpfSt.mk m man sp v true [] [] [])
        ((ts.map (fun t =>
          metaElemEvs "dc:publisher".data [] (xml_escape t))).flatten) =
      OpfSt.mk { m with publishers := m.publishers ++ ts.map rustTrim }
        man sp v true [] [] [] :=
  fold_publishers ts _ rfl rfl rfl rfl hts

/-- `fold_dates` with the state in constructor form. -/
theorem fold_dates' {m : EpubMetadata} {man : List ManifestItem}
    {sp : List SpineItem} {v : EpubVersion} (ts : List (List Char))
    (hts : ∀ t ∈ ts, t ≠ []) :
    List.foldl parseStep (OpfSt.mk m man sp v true [] [] [])
        ((ts.map (fun t =>
          metaElemEvs "dc:date".data [] (xml_escape t))).flatten) =
      OpfSt.mk { m with dates := m.dates ++ ts.map rustTrim } man sp v
        true [] [] [] :=
  fold_dates ts _ rfl rfl rfl rfl hts

/-- `fold_description` with the state in constructor form. -/
theorem fold_description' {m : EpubMetadata} {man : List ManifestItem}
    {sp : List SpineItem} {v : EpubVersion} (od : Option (List Char))
    (hod : ∀ d, od = some d → d ≠ []) (hprev : m.description = none) :
    List.foldl parseStep (OpfSt.mk m man sp v true [] [] [])
        (descElemEvs od) =
      OpfSt.mk { m with description := od.map rustTrim } man sp v
        true [] [] [] :=
  fold_description od hod _ rfl rfl rfl rfl hprev

/-- `fold_subjects` with the state in constructor form. -/
theorem fold_subjects' {m : EpubMetadata} {man : List ManifestItem}
    {sp : List SpineItem} {v : EpubVersion} (ts : List (List Char))
    (hts : ∀ t ∈ ts, t ≠ [] ∧ rustTrim t = t) :
    List.foldl parseStep (OpfSt.mk m man sp v true [] [] [])
        ((ts.map (fun t =>
          metaElemEvs "dc:subject".data [] (xml_escape t))).flatten) =
      OpfSt.mk { m with subjects := m.subjects ++ ts } man sp v
        true [] [] [] :=
  fold_subjects ts _ rfl rfl rfl rfl hts

/-- `fold_rights` with the state in constructor form. -/
theorem fold_rights' {m : EpubMetadata} {man : List ManifestItem}
    {sp : List SpineItem} {v : EpubVersion} (od : Option (List Char))
    (hod : ∀ d, od = some d → d ≠ []) (hprev : m.rights = none) :
    List.foldl parseStep (OpfSt.mk m man sp v true [] [] [])
        (rightsElemEvs od) =
      OpfSt.mk { m with rights := od.map rustTrim } man sp v
        true [] [] [] :=
  fold_rights od hod _ rfl rfl rfl rfl hprev

/-- `fold_modified_meta` with the state in constructor form. -/
theorem fold_modified' {m : EpubMetadata} {man : List ManifestItem}
    {sp : List SpineItem} {v : EpubVersion} (C : List Char) (hC : C ≠ [])
    (ha : '&' ∉ C) :
    List.foldl parseStep (OpfSt.mk m man sp v true [] [] [])
        (metaElemEvs "meta".data
          [("property".data, "dcterms:modified".data)] C) =
      OpfSt.mk { m with modified := some (rustTrim C) } man sp v
        true [] [] [] :=
  fold_modified_meta _ rfl C hC ha

/-- `fold_customs` with the state in constructor form. -/
theorem fold_customs' {m : EpubMetadata} {man : List ManifestItem}
    {sp : List SpineItem} {v : EpubVersion}
    (m0 : List (List Char × List Char)) (ks : List (List Char))
    (hks : ∀ k ∈ ks, k ≠ [] ∧ xml_escape k = k ∧
      ¬ k = "dcterms:modified".data ∧
      (assocLookup m0 k).getD [] ≠ [] ∧
      rustTrim ((assocLookup m0 k).getD []) = (assocLookup m0 k).getD []) :
    List.foldl parseStep (OpfSt.mk m man sp v true [] [] [])
        ((ks.map (fun k =>
          metaElemEvs "meta".data [("property".data, xml_escape k)]
            (xml_escape ((assocLookup m0 k).getD [])))).flatten) =
      OpfSt.mk
        { m with custom :=
            (ks.foldl
              (fun acc k =>
                customInsert acc k ((assocLookup m0 k).getD []))
              m.custom) } man sp v true [] [] [] :=
  fold_customs m0 ks _ rfl rfl rfl rfl hks

/-- `fold_midblock` with the state in constructor form. -/
theorem fold_midblock' {m : EpubMetadata} {man : List ManifestItem}
    {sp : List SpineItem} {v : EpubVersion} :
    List.foldl parseStep (OpfSt.mk m man sp v true [] [] [])
      [XmlEvent.text "\n  ".data, XmlEvent.close "metadata".data,
       XmlEvent.text "\n  ".data, XmlEvent.start "manifest".data [],
       XmlEvent.text "\n    ".data,
       XmlEvent.empty "item".data
         [("id".data, "toc".data), ("href".data, "toc.xhtml".data),
          ("media-type".data, "application/xhtml+xml".data),
          ("properties".data, "nav".data)],
       XmlEvent.text "\n    ".data,
       XmlEvent.empty "item".data
         [("id".data, "ncx".data), ("href".data, "toc.ncx".data),
          ("media-type".data, "application/x-dtbncx+xml".data)]] =
      OpfSt.mk m
        ((man ++
          [⟨"toc".data, "toc.xhtml".data, "application/xhtml+xml".data,
            some "nav".data⟩]) ++
          [⟨"ncx".data, "toc.ncx".data, "application/x-dtbncx+xml".data,
            none⟩]) sp v false [] "\n  ".data [] :=
  fold_midblock _ rfl rfl

/-- `fold_manifest_items` with the state in constructor form. -/
theorem fold_manifest_items' {m : EpubMetadata} {man : List ManifestItem}
    {sp : List SpineItem} {v : EpubVersion} {ce ct cp : List Char}
    (items : List ManifestItem) :
    List.foldl parseStep (OpfSt.mk m man sp v false ce ct cp)
        ((items.map (fun it =>
          [XmlEvent.text "\n    ".data,
           XmlEvent.empty "item".data
             ([("id".data, xml_escape it.id),
               ("href".data, xml_escape it.href),
               ("media-type".data, xml_escape it.media_type)] ++
              (match it.properties with
               | some p => [("properties".data, p)]
               | none => []))])).flatten) =
      OpfSt.mk m (man ++ items.map (fun it =>
          (⟨xml_escape it.id, xml_escape it.href, xml_escape it.media_type,
            it.properties⟩ : ManifestItem))) sp v false ce ct cp :=
  fold_manifest_items items _ rfl

/-- `fold_spinePre` with the state in constructor form. -/
theorem fold_spinePre' {m : EpubMetadata} {man : List ManifestItem}
    {sp : List SpineItem} {v : EpubVersion} {ce ct cp : List Char} :
    List.foldl parseStep (OpfSt.mk m man sp v false ce ct cp)
      [XmlEvent.text "\n  ".data, XmlEvent.close "manifest".data,
       XmlEvent.text "\n  ".data,
       XmlEvent.start "spine".data [("toc".data, "ncx".data)]] =
      OpfSt.mk m man sp v false ce ct cp :=
  fold_spinePre _ rfl

/-- `fold_spine_items` with the state in constructor form. -/
theorem fold_spine_items' {m : EpubMetadata} {man : List ManifestItem}
    {sp : List SpineItem} {v : EpubVersion} {ce ct cp : List Char}
    (items : List SpineItem) :
    List.foldl parseStep (OpfSt.mk m man sp v false ce ct cp)
        ((items.map (fun it =>
          [XmlEvent.text "\n    ".data,
           XmlEvent.empty "itemref".data
             ([("idref".data, it.idref)] ++
              (if it.linear then []
               else [("linear".data, "no".data)]))])).flatten) =
      OpfSt.mk m man (sp ++ items.map (fun it =>
          (⟨it.idref, it.linear, none⟩ : SpineItem))) v false ce ct cp :=
  fold_spine_items items _ rfl

/-- `fold_tail` with the state in constructor form. -/
theorem fold_tail' {m : EpubMetadata} {man : List ManifestItem}
    {sp : List SpineItem} {v : EpubVersion} {ce ct cp : List Char} :
    List.foldl parseStep (OpfSt.mk m man sp v false ce ct cp)
      [XmlEvent.text "\n  ".data, XmlEvent.close "spine".data,
       XmlEvent.text "\n".data, XmlEvent.close "package".data,
       XmlEvent.text "\n".data] =
      OpfSt.mk m man sp v false ce ct cp :=
  fold_tail _ rfl

set_option maxRecDepth 10000

/-- C1, counterexample.  The OPF document with the whitespace-only title
`<dc:title>   </dc:title>` reads to a book whose first title is the empty
string: the source checks `!current_text.is_empty()` before trimming, then
pushes the trimmed text.  Writing that book emits `<dc:title></dc:title>`,
and re-reading drops the element (no text event, so nothing is pushed):
the round-tripped book has no first title at all, refuting the
unrestricted claim. -/
theorem c1_whitespace_title_counterexample :
    (read_epub ⟨wsTitleOpfEvents⟩).metadata.titles = [[]] ∧
    (read_epub (write_epub (read_epub ⟨wsTitleOpfEvents⟩)
        "2024".data "u".data)).metadata.titles = [] := by
  decide

/-- C1, amended.  Reading back a freshly written EPUB reproduces the
titles, languages, identifiers, subjects, every custom property and the
spine length, provided the book is in the writer's normal form: all
emitted strings nonempty and trim-fixed where compared; custom keys
unescaped fixed points, distinct, and distinct from `dcterms:modified`;
and every field `generate_opf` emits WITHOUT escaping free of
markup-significant characters — languages and the modified timestamp
(element text, writer.rs lines 116 and 162-168) contain no `&` and no
`<`, and manifest `properties` and spine `idref` attribute values
(writer.rs lines 194 and 211) contain no `"`, `<` or `>`.  These
hypotheses are exactly the contract under which the emitted OPF string
lexes to `generate_opf_events` (see that definition's comment); outside
them the written document is mangled markup, not a clean round trip.
The unrestricted claim is false — the counterexample drops a
whitespace-only title. -/
theorem c1_opf_round_trip (d : OpfData) (now uuid : List Char)
    (h_id_ne : d.metadata.identifiers ≠ [])
    (h_id : ∀ i ∈ d.metadata.identifiers, i ≠ [] ∧ rustTrim i = i)
    (h_ti : ∀ t ∈ d.metadata.titles, t ≠ [] ∧ rustTrim t = t)
    (h_lang_ne : ¬ d.metadata.languages = [])
    (h_lang : ∀ l ∈ d.metadata.languages,
      l ≠ [] ∧ rustTrim l = l ∧ '&' ∉ l ∧ '<' ∉ l)
    (h_cr : ∀ c ∈ d.metadata.creators, c ≠ [])
    (h_pub : ∀ c ∈ d.metadata.publishers, c ≠ [])
    (h_dt : ∀ c ∈ d.metadata.dates, c ≠ [])
    (h_desc : ∀ x, d.metadata.description = some x → x ≠ [])
    (h_sub : ∀ t ∈ d.metadata.subjects, t ≠ [] ∧ rustTrim t = t)
    (h_rts : ∀ x, d.metadata.rights = some x → x ≠ [])
    (h_mod : ∀ x, d.metadata.modified = some x →
      x ≠ [] ∧ '&' ∉ x ∧ '<' ∉ x)
    (h_now : now ≠ [] ∧ '&' ∉ now ∧ '<' ∉ now)
    (h_props : ∀ it ∈ d.manifest, ∀ q, it.properties = some q →
      '"' ∉ q ∧ '<' ∉ q ∧ '>' ∉ q)
    (h_idr : ∀ it ∈ d.spine,
      '"' ∉ it.idref ∧ '<' ∉ it.idref ∧ '>' ∉ it.idref)
    (h_keys : (d.metadata.custom.map (fun p => p.1)).Nodup)
    (h_cust : ∀ p ∈ d.metadata.custom, p.1 ≠ [] ∧ xml_escape p.1 = p.1 ∧
      ¬ p.1 = "dcterms:modified".data ∧ p.2 ≠ [] ∧ rustTrim p.2 = p.2) :
    (read_epub (write_epub d now uuid)).metadata.titles =
        d.metadata.titles ∧
      (read_epub (write_epub d now uuid)).metadata.languages =
        d.metadata.languages ∧
      (read_epub (write_epub d now uuid)).metadata.identifiers =
        d.metadata.identifiers ∧
      (read_epub (write_epub d now uuid)).metadata.subjects =
        d.metadata.subjects ∧
      (∀ k, assocLookup (read_epub (write_epub d now uuid)).metadata.custom
        k = assocLookup d.metadata.custom k) ∧
      (read_epub (write_epub d now uuid)).spine.length = d.spine.length := by
  obtain ⟨md, manifest, spine, ver⟩ := d
  have hKS : ∀ k ∈ stableSortBy charListLe (md.custom.map (fun p => p.1)),
      k ≠ [] ∧ xml_escape k = k ∧ ¬ k = "dcterms:modified".data ∧
      (assocLookup md.custom k).getD [] ≠ [] ∧
      rustTrim ((assocLookup md.custom k).getD []) =
        (assocLookup md.custom k).getD [] := by
    intro k hk
    have hk' : k ∈ md.custom.map (fun p => p.1) :=
      ((stableSortBy_perm charListLe _).mem_iff).mp hk
    obtain ⟨v, hv⟩ := assocLookup_isSome
      (show k ∈ md.custom.map Prod.fst from hk')
    have hc := h_cust (k, v) (assocLookup_mem hv)
    refine ⟨hc.1, hc.2.1, hc.2.2.1, ?_, ?_⟩
    · rw [hv]
      simpa using hc.2.2.2.1
    · rw [hv]
      simpa using hc.2.2.2.2
  have hCmod : md.modified.getD now ≠ [] := by
    rcases hmd : md.modified with _ | x
    · exact h_now.1
    · exact (h_mod x hmd).1
  have hCamp : '&' ∉ md.modified.getD now := by
    rcases hmd : md.modified with _ | x
    · exact h_now.2.1
    · exact (h_mod x hmd).2.1
  have hpre : List.foldl parseStep OpfSt.init
      [XmlEvent.decl, XmlEvent.text "\n".data,
       XmlEvent.start "package".data
         [("xmlns".data, "http://www.idpf.org/2007/opf".data),
          ("version".data, "3.0".data),
          ("unique-identifier".data, "uid".data)],
       XmlEvent.text "\n  ".data,
       XmlEvent.start "metadata".data
         [("xmlns:dc".data, "http://purl.org/dc/elements/1.1/".data)]] =
      OpfSt.mk EpubMetadata.default [] [] EpubVersion.v3 true [] [] [] := rfl
  have hfold : (generate_opf_events md manifest spine now uuid).foldl
      parseStep OpfSt.init =
      OpfSt.mk
        ⟨md.identifiers, md.titles, md.languages, md.creators.map rustTrim,
         md.publishers.map rustTrim, md.dates.map rustTrim,
         md.description.map rustTrim,
         md.subjects,
         md.rights.map rustTrim,
         some (rustTrim (md.modified.getD now)),
         none,
         ((stableSortBy charListLe (md.custom.map (fun p => p.1))).foldl
           (fun acc k =>
             customInsert acc k ((assocLookup md.custom k).getD [])) [])⟩
        ([⟨"toc".data, "toc.xhtml".data, "application/xhtml+xml".data,
           some "nav".data⟩,
          ⟨"ncx".data, "toc.ncx".data, "application/x-dtbncx+xml".data,
           none⟩] ++
         manifest.map (fun it =>
           (⟨xml_escape it.id, xml_escape it.href, xml_escape it.media_type,
             it.properties⟩ : ManifestItem)))
        (spine.map (fun it => (⟨it.idref, it.linear, none⟩ : SpineItem)))
        EpubVersion.v3 false [] "\n  ".data [] := by
    simp only [generate_opf_events, List.foldl_append]
    rw [hpre]
    rw [fold_identifiers' md.identifiers uuid h_id_ne h_id]
    rw [fold_titles' md.titles h_ti]
    rw [if_neg h_lang_ne]
    rw [fold_languages' md.languages
      (fun l hl => ⟨(h_lang l hl).1, (h_lang l hl).2.1, (h_lang l hl).2.2.1⟩)]
    rw [fold_creators' md.creators h_cr]
    rw [fold_publishers' md.publishers h_pub]
    rw [fold_description' md.description h_desc rfl]
    rw [fold_subjects' md.subjects h_sub]
    rw [fold_rights' md.rights h_rts rfl]
    rw [fold_dates' md.dates h_dt]
    rw [fold_modified' _ hCmod hCamp]
    rw [fold_customs' md.custom _ hKS]
    rw [fold_midblock']
    rw [fold_manifest_items' manifest]
    rw [fold_spinePre']
    rw [fold_spine_items' spine]
    rw [fold_tail']
    simp [EpubMetadata.default]
  have hNodup : (stableSortBy charListLe
      (md.custom.map (fun p => p.1))).Nodup :=
    ((stableSortBy_perm charListLe _).nodup_iff).mpr h_keys
  simp only [read_epub, write_epub, parse_opf, hfold]
  refine ⟨trivial, trivial, trivial, trivial, ?_, ?_⟩
  · intro k
    show assocLookup ((stableSortBy charListLe
        (md.custom.map (fun p => p.1))).foldl
      (fun acc k =>
        customInsert acc k ((assocLookup md.custom k).getD [])) [])
      k = assocLookup md.custom k
    rw [foldl_customInsert_fresh
      (fun k => (assocLookup md.custom k).getD []) _ [] hNodup (by simp)]
    rw [List.nil_append, assocLookup_graph]
    by_cases hm : k ∈ stableSortBy charListLe (md.custom.map (fun p => p.1))
    · rw [if_pos hm]
      have hk' : k ∈ md.custom.map (fun p => p.1) :=
        ((stableSortBy_perm charListLe _).mem_iff).mp hm
      obtain ⟨v, hv⟩ := assocLookup_isSome
        (show k ∈ md.custom.map Prod.fst from hk')
      rw [hv]
      simp
    · rw [if_neg hm]
      have hk' : k ∉ md.custom.map (fun p => p.1) :=
        fun hmm => hm (((stableSortBy_perm charListLe _).mem_iff).mpr hmm)
      rw [assocLookup_eq_none (show k ∉ md.custom.map Prod.fst from hk')]
  · show (spine.map (fun it =>
        (⟨it.idref, it.linear, none⟩ : SpineItem))).length = spine.length
    simp

/-- The round-trip theorem evaluated on a concrete one-chapter book with a
title, a language, an identifier, a subject and one custom property. -/
theorem c1_opf_round_trip_witness :
    (read_epub (write_epub c1WitnessData "2024".data "u".data)).metadata.titles =
        c1WitnessData.metadata.titles ∧
      (read_epub (write_epub c1WitnessData "2024".data
          "u".data)).metadata.languages =
        c1WitnessData.metadata.languages ∧
      (read_epub (write_epub c1WitnessData "2024".data
          "u".data)).metadata.identifiers =
        c1WitnessData.metadata.identifiers ∧
      (read_epub (write_epub c1WitnessData "2024".data
          "u".data)).metadata.subjects =
        c1WitnessData.metadata.subjects ∧
      (∀ k, assocLookup (read_epub (write_epub c1WitnessData "2024".data
          "u".data)).metadata.custom k =
        assocLookup c1WitnessData.metadata.custom k) ∧
      (read_epub (write_epub c1WitnessData "2024".data
          "u".data)).spine.length =
        c1WitnessData.spine.length :=
  c1_opf_round_trip c1WitnessData "2024".data "u".data
    (by decide) (by decide) (by decide) (by decide) (by decide)
    (by decide) (by decide) (by decide) (fun x h => nomatch h)
    (by decide) (fun x h => nomatch h) (fun x h => nomatch h)
    (by decide) (by decide) (by decide) (by decide) (by decide)

/-! ## C9 — content replace only touches text outside tags -/

/-- C9, counterexample.  For the input `a>b` — one maximal text segment
containing `>` outside any tag — and the literal pattern `ab` with
replacement `X`, the claim predicts the unchanged output `a>b` (the pattern
does not match the segment).  The code instead emits the `>` immediately
while still buffering `a`, so the buffer later flushes as `ab`, which the
pattern rewrites: the output is `>X`. -/
theorem c9_gt_in_text_counterexample :
    replace_in_text_nodes (litReplace "ab".data "X".data) "a>b".data =
      ">X".data ∧
    litReplace "ab".data "X".data "a>b".data = "a>b".data := by
  exact ⟨rfl, rfl⟩

/-- Text characters accumulate in the buffer until a tag opens. -/
theorem ritnGo_text (f : List Char → List Char) (t : List Char) :
    ∀ (rest buf : List Char), (∀ c ∈ t, c ≠ '<' ∧ c ≠ '>') →
      ritnGo f false buf (t ++ rest) = ritnGo f false (buf ++ t) rest := by
  induction t with
  | nil => intro rest buf _; simp
  | cons c ts ih =>
      intro rest buf hc
      have h1 := hc c (by simp)
      rw [List.cons_append]
      have hstep : ritnGo f false buf (c :: (ts ++ rest)) =
          ritnGo f false (buf ++ [c]) (ts ++ rest) := by
        rw [ritnGo]
        rw [if_neg h1.1, if_neg h1.2]
        simp
      rw [hstep, ih rest (buf ++ [c]) (fun d hd => hc d (by simp [hd]))]
      simp

/-- Tag characters are emitted verbatim up to the closing `>`. -/
theorem ritnGo_tag (f : List Char → List Char) (body : List Char) :
    ∀ rest : List Char, (∀ c ∈ body, c ≠ '>') →
      ritnGo f true [] (body ++ '>' :: rest) =
        body ++ '>' :: ritnGo f false [] rest := by
  induction body with
  | nil => intro rest _; rw [List.nil_append]; rw [ritnGo]; simp
  | cons c bs ih =>
      intro rest hc
      have h1 := hc c (by simp)
      rw [List.cons_append, ritnGo]
      by_cases hlt : c = '<'
      · subst hlt
        rw [if_pos rfl]
        simp only [ne_eq, not_true_eq_false, if_neg, ite_false]
        rw [ih rest (fun d hd => hc d (by simp [hd]))]
        simp
      · rw [if_neg hlt, if_neg h1, if_pos rfl]
        rw [ih rest (fun d hd => hc d (by simp [hd]))]
        simp

/-- C9, amended.  For every replacement function and every document in which
text outside tags contains neither `<` nor `>` (and tag bodies contain no
`>`), `replace_in_text_nodes` leaves every character between a `<` and its
following `>` unchanged and applies the replacement to each maximal
nonempty text segment outside tags.  (A `>` occurring in text outside tags
breaks this, as the counterexample shows.) -/
theorem c9_replace_outside_tags (f : List Char → List Char) (t0 : List Char)
    (ps : List (List Char × List Char))
    (ht0 : ∀ c ∈ t0, c ≠ '<' ∧ c ≠ '>')
    (hps : ∀ p ∈ ps, (∀ c ∈ p.1, c ≠ '>') ∧ (∀ c ∈ p.2, c ≠ '<' ∧ c ≠ '>')) :
    replace_in_text_nodes f (textTagAlt t0 ps) =
      applyF f t0 ++
        (ps.map (fun p => '<' :: p.1 ++ '>' :: applyF f p.2)).flatten := by
  induction ps generalizing t0 with
  | nil =>
      show ritnGo f false [] (t0 ++ []) = _
      rw [ritnGo_text f t0 [] [] ht0]
      rw [ritnGo]
      by_cases h0 : t0 = [] <;> simp [applyF, h0]
  | cons p ps ih =>
      show ritnGo f false [] (textTagAlt t0 (p :: ps)) = _
      have hshape : textTagAlt t0 (p :: ps) =
          t0 ++ ('<' :: (p.1 ++ '>' :: textTagAlt p.2 ps)) := by
        simp [textTagAlt]
      rw [hshape, ritnGo_text f t0 _ [] ht0]
      rw [List.nil_append]
      rw [ritnGo]
      rw [if_pos rfl]
      rw [ritnGo_tag f p.1 _ (hps p (by simp)).1]
      have hrec : ritnGo f false [] (textTagAlt p.2 ps) =
          applyF f p.2 ++
            (ps.map (fun q => '<' :: q.1 ++ '>' :: applyF f q.2)).flatten :=
        ih p.2 (hps p (by simp)).2 (fun q hq => hps q (by simp [hq]))
      rw [hrec]
      have hflush : (if t0 ≠ [] then f t0 else []) = applyF f t0 := by
        by_cases h0 : t0 = [] <;> simp [applyF, h0]
      rw [hflush]
      simp

/-- C9, witness: the Rust `test_replace_preserves_tags` scenario — the
pattern occurs both in an attribute value and in the text; only the text is
rewritten. -/
theorem c9_replace_outside_tags_witness :
    replace_in_text_nodes (litReplace "Hello".data "Hi".data)
        "<p title=\"Hello\">Hello world</p>".data =
      "<p title=\"Hello\">Hi world</p>".data := by
  have h := c9_replace_outside_tags (litReplace "Hello".data "Hi".data) []
    [("p title=\"Hello\"".data, "Hello world".data), ("/p".data, [])]
    (by decide) (by decide)
  have hin : "<p title=\"Hello\">Hello world</p>".data =
      textTagAlt []
        [("p title=\"Hello\"".data, "Hello world".data), ("/p".data, [])] := by
    decide
  rw [hin, h]
  decide

end Epx
